import Mathlib

/-!
# gnet: event-loop runtime and reactor dispatcher

A shallow embedding of `loop_unix.go` and `reactor_unix.go`.

* Connections are heap objects: `loop.heap` maps an address (the value of a
  `*conn` pointer) to the connection stored there, and the connection table
  `l.fdconns` maps a descriptor to an address (`none` is the nil pointer).
* Every transition receives the results of the syscalls it performs in a
  `Sys` record, so that theorems quantify over all syscall outcomes.
* User callbacks are functions of the connection they are handed; theorems
  quantify over all of them.
* The syscalls issued and the callbacks invoked are appended to `loop.log`,
  oldest first.
* A Go runtime fault (nil dereference, index out of range, call of a nil
  function value) is the outcome `Outcome.panic`.
* `int` is taken to be 64 bits wide, so `int(lower)` is the identity on
  `int64` sequences.
-/

namespace Gnet

/-! ## Data model -/

abbrev Byte := Nat

/-- Modelled from the spec: the `Action` type is declared outside the two
source files.  The four named variants are those of the event contract;
`other` stands for every remaining value of the underlying integer type,
which the `default:` branches of the source receive. -/
inductive Action
  | None
  | Close
  | Shutdown
  | Detach
  | other (v : Nat)
  deriving DecidableEq, Repr

/-- Error numbers returned by the `unix` syscall wrappers. -/
inductive Errno
  | EAGAIN
  | other (code : Nat)
  deriving DecidableEq, Repr

/-- Go `error` values that travel through the loop (nil is `none`). -/
inductive Error
  | sys (e : Errno)
  | errClosing
  | other (k : Nat)
  deriving DecidableEq, Repr

/-- Peer addresses as delivered by `unix.Accept` and `unix.Recvfrom`. -/
inductive Sockaddr
  | Inet4 (Port : Int) (a0 a1 a2 a3 : Byte)
  | Inet6 (Port : Int) (ZoneId : Nat) (Addr : List Byte)
  | other (k : Nat)
  deriving DecidableEq, Repr

/-- Values of `net.Addr`, kept abstract. -/
abbrev Addr := Nat

/-- The `conn` structure, with the fields the two source files touch.
Buffers are modelled by their buffered content (see `ringbuffer` below); a
pointer to a loop is the index of that loop. -/
structure conn where
  fd : Int
  lnidx : Int
  sa : Option Sockaddr
  inBuf : List Byte
  outBuf : List Byte
  loop : Option Int
  opened : Bool
  action : Action
  addrIndex : Int
  localAddr : Option Addr
  remoteAddr : Option Addr
  deriving DecidableEq, Repr

/-- The zero value `conn{}`. -/
def conn.zero : conn :=
  { fd := 0, lnidx := 0, sa := none, inBuf := [], outBuf := [], loop := none,
    opened := false, action := Action.None, addrIndex := 0,
    localAddr := none, remoteAddr := none }

/-- Result of `unix.Read` / `unix.Write`: `(n, nil)` or `(-1, errno)`. -/
inductive SysRes
  | ok (n : Nat)
  | fail (e : Errno)
  deriving DecidableEq, Repr

/-- Result of `unix.Accept`. -/
inductive AcceptRes
  | ok (nfd : Int) (sa : Option Sockaddr)
  | fail (e : Errno)
  deriving DecidableEq, Repr

/-- Result of `unix.Recvfrom(fd, l.packet, 0)`. -/
inductive RecvRes
  | ok (n : Nat) (sa : Option Sockaddr)
  | fail (e : Errno)
  deriving DecidableEq, Repr

/-- Outcomes of the syscalls one poll callback may perform, the content of
the scratch buffer `l.packet` after a read, and the address handed out by the
allocator for a `&conn{...}` literal. -/
structure Sys where
  read : SysRes
  packet : List Byte
  write : SysRes
  setNonblock : Option Errno
  accept : AcceptRes
  recvfrom : RecvRes
  alloc : Nat

/-- The `signal` structure of `reactor_unix.go`. -/
structure signal where
  fd : Int
  c : Option Nat
  deriving DecidableEq, Repr

/-- Payload of a trigger note, by dynamic type as in the type switch of
`loopNote`. -/
inductive Note
  | tick (d : Int)
  | error (v : Error)
  | conn (v : Option Nat)
  | signal (v : signal)
  | nil
  deriving DecidableEq, Repr

/-- Syscalls issued and callbacks invoked.  A callback event records the
address of the connection and the connection as it was handed over. -/
inductive Ev
  | OnOpened (c : Nat) (snap : conn)
  | OnClosed (c : Nat) (snap : conn) (err : Option Error)
  | OnDetached (c : Nat) (snap : conn) (dfd : Int)
  | React (c : Nat) (snap : conn)
  | PreWrite
  | Tick
  | tch (delay : Int)
  | Read (fd : Int)
  | Write (fd : Int) (buf : List Byte) (res : SysRes)
  | Close (fd : Int)
  | SetNonblock (fd : Int) (nonblocking : Bool)
  | SetKeepAlive (fd : Int) (secs : Int)
  | Accept (fd : Int)
  | Recvfrom (fd : Int)
  | Sendto (fd : Int) (buf : List Byte) (dst : Option Sockaddr)
  deriving DecidableEq, Repr

structure Options where
  TCPKeepAlive : Int

/-- The handler record `s.events`; an absent callback is `none`.  `React`
is handed the inbound buffer by reference and may consume from it, so its
result carries the content it leaves in that buffer. -/
structure Events where
  OnOpened : Option (conn → List Byte × Options × Action)
  OnClosed : Option (conn → Option Error → Action)
  OnDetached : Option (conn → Int → Action)
  React : Option (conn → List Byte × Action × List Byte)
  PreWrite : Bool
  Tick : Option (Int × Action)

/-- A listener as the loops see it: `pconn` tells whether `ln.pconn != nil`
(datagram), `tcp` whether `ln.ln` is a `*net.TCPListener`. -/
structure listener where
  fd : Int
  pconn : Bool
  tcp : Bool
  lnaddr : Option Addr

/-- The fields of `server` read by the two source files, and
`internal.SockaddrToAddr`, which is declared outside them and taken as a
parameter. -/
structure server where
  events : Events
  lns : List listener
  numLoops : Int
  SockaddrToAddr : Option Sockaddr → Option Addr

inductive Interest
  | Read
  | ReadWrite
  deriving DecidableEq, Repr

/-- Modelled from the spec: the poller `internal.Poll` is outside the source
files.  It is the table of section 4.2: the interest registered per
descriptor, and the queue of triggered notes. -/
structure Poll where
  interest : Int → Option Interest
  notes : List Note

/-- Modelled from the spec: `AddReadWrite` registers read+write interest. -/
def Poll.AddReadWrite (p : Poll) (fd : Int) : Poll :=
  { p with interest := Function.update p.interest fd (some Interest.ReadWrite) }

/-- Modelled from the spec: `ModRead` changes the interest of an already
registered descriptor to read-only. -/
def Poll.ModRead (p : Poll) (fd : Int) : Poll :=
  match p.interest fd with
  | some _ => { p with interest := Function.update p.interest fd (some Interest.Read) }
  | none => p

/-- Modelled from the spec: `ModReadWrite` changes the interest of an already
registered descriptor to read+write. -/
def Poll.ModReadWrite (p : Poll) (fd : Int) : Poll :=
  match p.interest fd with
  | some _ => { p with interest := Function.update p.interest fd (some Interest.ReadWrite) }
  | none => p

/-- Modelled from the spec: `ModDetach` deregisters the descriptor without
closing it. -/
def Poll.ModDetach (p : Poll) (fd : Int) : Poll :=
  { p with interest := Function.update p.interest fd none }

/-- Modelled from the spec: `Trigger` enqueues the note for the poll loop. -/
def Poll.Trigger (p : Poll) (note : Note) : Poll :=
  { p with notes := p.notes ++ [note] }

/-- The `loop` structure (`idx`, `poll`, `fdconns`; the scratch buffer
`packet` is in `Sys`), together with the connection objects it can reach and
the log of what it did. -/
structure loop where
  idx : Int
  poll : Poll
  fdconns : Int → Option Nat
  heap : Nat → conn
  log : List Ev

/-- What a poll callback does: it returns an error value to the poller, or
the goroutine faults. -/
inductive Outcome
  | ret (err : Option Error) (l : loop)
  | panic

/-- The outcome of a transition that returned. -/
def Outcome.of (r : Option Error × loop) : Outcome := Outcome.ret r.1 r.2

def RingBufferSize : Nat := 1024

def RingBufferMask : Nat := RingBufferSize - 1

/-- Modelled from the spec: `ringbuffer.New` yields an empty buffer; the
bound passed to it is an initial capacity of a growable buffer. -/
def ringbuffer.New (_size : Nat) : List Byte := []

/-- Modelled from the spec: `Write` appends. -/
def ringbuffer.Write (b p : List Byte) : List Byte := b ++ p

/-- Modelled from the spec: `Bytes` is the buffered content. -/
def ringbuffer.Bytes (b : List Byte) : List Byte := b

/-- Modelled from the spec: `Move k` advances the read position by `k`. -/
def ringbuffer.Move (b : List Byte) (k : Nat) : List Byte := b.drop k

/-- Modelled from the spec: `Length` is the number of buffered bytes. -/
def ringbuffer.Length (b : List Byte) : Nat := b.length

def loop.setConn (l : loop) (c : Nat) (v : conn) : loop :=
  { l with heap := Function.update l.heap c v }

def loop.emit (l : loop) (e : Ev) : loop :=
  { l with log := l.log ++ [e] }

/-- The listener `s.lns[i]`, `none` when the index is out of range. -/
def server.ln (s : server) (i : Int) : Option listener :=
  if 0 ≤ i then s.lns[i.toNat]? else none

/-! ## Transitions of `loop_unix.go`

A transition that cannot fault returns the pair of its `error` result and
the loop after it; one that can returns an `Outcome`. -/

/-- `loopCloseConn`: delete the map entry, close the descriptor, run
`OnClosed`. -/
def loopCloseConn (s : server) (l : loop) (c : Nat) (err : Option Error) :
    Option Error × loop :=
  let cv := l.heap c
  let l1 := { l with fdconns := Function.update l.fdconns cv.fd none }.emit (Ev.Close cv.fd)
  match s.events.OnClosed with
  | some f =>
    let l2 := l1.emit (Ev.OnClosed c cv err)
    match f cv err with
    | Action.Shutdown => (some Error.errClosing, l2)
    | _ => (none, l2)
  | none => (none, l1)

/-- `loopDetachConn`. -/
def loopDetachConn (s : server) (l : loop) (c : Nat) (err : Option Error) (sys : Sys) :
    Option Error × loop :=
  match s.events.OnDetached with
  | none => loopCloseConn s l c err
  | some f =>
    let cv := l.heap c
    let l1 := { l with poll := l.poll.ModDetach cv.fd }
    let l2 := { l1 with fdconns := Function.update l1.fdconns cv.fd none }
    let l3 := l2.emit (Ev.SetNonblock cv.fd false)
    match sys.setNonblock with
    | some e => (some (Error.sys e), l3)
    | none =>
      let l4 := l3.emit (Ev.OnDetached c cv cv.fd)
      match f cv cv.fd with
      | Action.Shutdown => (some Error.errClosing, l4)
      | _ => (none, l4)

/-- Modelled from the spec: `conn.sendOut` is declared outside the source
files.  Section 4.3: append to the outbound buffer and, if no write is in
flight (nothing was pending before the append), attempt one non-blocking
write of the buffered content, with the rules of the Write transition:
EAGAIN is a no-op, another error runs the Close transition with that error,
success advances the read position by the bytes written.  The call is a
statement in the source, so whatever Close returns is dropped. -/
def sendOut (s : server) (l : loop) (c : Nat) (buf : List Byte) (sys : Sys) : loop :=
  let cv := l.heap c
  let cv1 := { cv with outBuf := ringbuffer.Write cv.outBuf buf }
  let l1 := l.setConn c cv1
  if ringbuffer.Length cv.outBuf > 0 then l1
  else
    let out := ringbuffer.Bytes cv1.outBuf
    let l2 := l1.emit (Ev.Write cv1.fd out sys.write)
    match sys.write with
    | SysRes.fail e =>
      if e = Errno.EAGAIN then l2
      else (loopCloseConn s l2 c (some (Error.sys e))).2
    | SysRes.ok n => l2.setConn c { cv1 with outBuf := ringbuffer.Move cv1.outBuf n }

/-- The statement `if len(out) > 0 { c.sendOut(out) }` of `loopOpened`,
`loopWake` and `loopRead`. -/
def sendIfAny (s : server) (l : loop) (c : Nat) (out : List Byte) (sys : Sys) : loop :=
  if out.length > 0 then sendOut s l c out sys else l

/-- The statement
`if c.outBuf.Length() == 0 && c.action == None { l.poll.ModRead(c.fd) }`
that ends `loopOpened`, `loopWrite` and `loopAction`. -/
def loop.modReadIfIdle (l : loop) (c : Nat) : loop :=
  if ringbuffer.Length (l.heap c).outBuf = 0 ∧ (l.heap c).action = Action.None then
    { l with poll := l.poll.ModRead (l.heap c).fd }
  else l

/-- The statement
`if c.outBuf.Length() != 0 || c.action != None { l.poll.ModReadWrite(c.fd) }`
that ends `loopWake` and `loopRead`. -/
def loop.modReadWriteIfPending (l : loop) (c : Nat) : loop :=
  if ringbuffer.Length (l.heap c).outBuf ≠ 0 ∨ (l.heap c).action ≠ Action.None then
    { l with poll := l.poll.ModReadWrite (l.heap c).fd }
  else l

/-- The statements
`out, action := s.events.React(c, c.inBuf); c.action = action;
if len(out) > 0 { c.sendOut(out) }` of `loopWake` and `loopRead`, for the
supplied callback `f`. -/
def react (s : server) (l : loop) (c : Nat)
    (f : conn → List Byte × Action × List Byte) (sys : Sys) : loop :=
  let cv := l.heap c
  let r := f cv
  let l1 := (l.emit (Ev.React c cv)).setConn c { cv with inBuf := r.2.2, action := r.2.1 }
  sendIfAny s l1 c r.1 sys

/-- `loopWake`. -/
def loopWake (s : server) (l : loop) (c : Nat) (sys : Sys) : Option Error × loop :=
  match s.events.React with
  | none => (none, l)
  | some f => (none, (react s l c f sys).modReadWriteIfPending c)

/-- `loopNote`.  Calling the nil `Tick` and reading `v.fd` through a nil
`*conn` fault. -/
def loopNote (s : server) (l : loop) (note : Note) (sys : Sys) : Outcome :=
  match note with
  | Note.tick _ =>
    match s.events.Tick with
    | none => Outcome.panic
    | some (delay, action) =>
      let err := if action = Action.Shutdown then some Error.errClosing else none
      Outcome.ret err ((l.emit Ev.Tick).emit (Ev.tch delay))
  | Note.error v => Outcome.ret (some v) l
  | Note.conn none => Outcome.panic
  | Note.conn (some v) =>
    if l.fdconns (l.heap v).fd ≠ some v then Outcome.ret none l
    else Outcome.of (loopWake s l v sys)
  | Note.signal v =>
    Outcome.ret none
      { l with fdconns := Function.update l.fdconns v.fd v.c,
               poll := l.poll.AddReadWrite v.fd }
  | Note.nil => Outcome.ret none l

/-- The IPv6 form of the datagram source computed by `loopUDPRead`. -/
def sa6Of (sa : Option Sockaddr) : Sockaddr :=
  match sa with
  | some (Sockaddr.Inet4 port a0 a1 a2 a3) =>
    Sockaddr.Inet6 port 0 (List.replicate 12 0 ++ [a0, a1, a2, a3])
  | some (Sockaddr.Inet6 port zone addr) => Sockaddr.Inet6 port zone addr
  | _ => Sockaddr.Inet6 0 0 (List.replicate 16 0)

/-- `loopUDPRead`; `lnaddr` is `s.lns[lnidx].lnaddr`, read by the caller's
`range` loop at an index that is in range. -/
def loopUDPRead (s : server) (l : loop) (lnidx : Int) (lnaddr : Option Addr) (fd : Int)
    (sys : Sys) : Option Error × loop :=
  let l0 := l.emit (Ev.Recvfrom fd)
  match sys.recvfrom with
  | RecvRes.fail _ => (none, l0)
  | RecvRes.ok n sa =>
    if n = 0 then (none, l0)
    else
      match s.events.React with
      | none => (none, l0)
      | some f =>
        let c : conn :=
          { conn.zero with
            addrIndex := lnidx, localAddr := lnaddr,
            remoteAddr := s.SockaddrToAddr (some (sa6Of sa)),
            inBuf := ringbuffer.Write (ringbuffer.New RingBufferSize) (sys.packet.take n) }
        let r := f c
        let l1 := l0.emit (Ev.React sys.alloc c)
        let l2 :=
          if r.1.length > 0 then
            (if s.events.PreWrite then l1.emit Ev.PreWrite else l1).emit (Ev.Sendto fd r.1 sa)
          else l1
        match r.2.1 with
        | Action.Shutdown => (some Error.errClosing, l2)
        | _ => (none, l2)

/-- The body of the `range s.lns` loop of `loopAccept`, from index `i` on. -/
def loopAcceptFrom (s : server) (l : loop) (fd : Int) (sys : Sys) :
    List listener → Nat → Option Error × loop
  | [], _ => (none, l)
  | ln :: rest, i =>
    if ln.fd = fd then
      if ln.pconn then loopUDPRead s l i ln.lnaddr fd sys
      else
        let l0 := l.emit (Ev.Accept fd)
        match sys.accept with
        | AcceptRes.fail e =>
          if e = Errno.EAGAIN then (none, l0)
          else (some (Error.sys e), l0)
        | AcceptRes.ok nfd sa =>
          let l1 := l0.emit (Ev.SetNonblock nfd true)
          match sys.setNonblock with
          | some e => (some (Error.sys e), l1)
          | none =>
            let c : conn :=
              { conn.zero with
                fd := nfd, sa := sa, lnidx := i,
                inBuf := ringbuffer.New RingBufferSize,
                outBuf := ringbuffer.New RingBufferSize,
                loop := some l.idx }
            let l2 := l1.setConn sys.alloc c
            let l3 := { l2 with fdconns := Function.update l2.fdconns c.fd (some sys.alloc) }
            (none, { l3 with poll := l3.poll.AddReadWrite c.fd })
    else loopAcceptFrom s l fd sys rest (i + 1)

/-- `loopAccept`. -/
def loopAccept (s : server) (l : loop) (fd : Int) (sys : Sys) : Option Error × loop :=
  loopAcceptFrom s l fd sys s.lns 0

/-- The body of `if s.events.OnOpened != nil { ... }` in `loopOpened`, for
the supplied callback `f` and the listener `ln = s.lns[c.lnidx]`. -/
def onOpened (s : server) (l : loop) (c : Nat) (ln : listener)
    (f : conn → List Byte × Options × Action) (sys : Sys) : loop :=
  let cv := l.heap c
  let r := f cv
  let la := (l.emit (Ev.OnOpened c cv)).setConn c { cv with action := r.2.2 }
  let lb :=
    if r.2.1.TCPKeepAlive > 0 ∧ ln.tcp = true then
      la.emit (Ev.SetKeepAlive cv.fd (Int.tdiv r.2.1.TCPKeepAlive 1000000000))
    else la
  sendIfAny s lb c r.1 sys

/-- `loopOpened`; indexing `s.lns[c.lnidx]` out of range faults. -/
def loopOpened (s : server) (l : loop) (c : Nat) (sys : Sys) : Outcome :=
  let cv := l.heap c
  match s.ln cv.lnidx with
  | none => Outcome.panic
  | some ln =>
    let cv1 := { cv with opened := true, addrIndex := cv.lnidx, localAddr := ln.lnaddr,
                         remoteAddr := s.SockaddrToAddr cv.sa }
    let l1 := l.setConn c cv1
    let l2 :=
      match s.events.OnOpened with
      | none => l1
      | some f => onOpened s l1 c ln f sys
    Outcome.ret none (l2.modReadIfIdle c)

/-- `loopWrite`. -/
def loopWrite (s : server) (l : loop) (c : Nat) (sys : Sys) : Option Error × loop :=
  let l0 := if s.events.PreWrite then l.emit Ev.PreWrite else l
  let cv := l0.heap c
  let out := ringbuffer.Bytes cv.outBuf
  let l1 := l0.emit (Ev.Write cv.fd out sys.write)
  match sys.write with
  | SysRes.fail e =>
    if e = Errno.EAGAIN then (none, l1)
    else loopCloseConn s l1 c (some (Error.sys e))
  | SysRes.ok n =>
    let l2 := l1.setConn c { cv with outBuf := ringbuffer.Move cv.outBuf n }
    (none, l2.modReadIfIdle c)

/-- `loopAction`. -/
def loopAction (s : server) (l : loop) (c : Nat) (sys : Sys) : Option Error × loop :=
  let cv := l.heap c
  match cv.action with
  | Action.Close => loopCloseConn s l c none
  | Action.Shutdown => (some Error.errClosing, l)
  | Action.Detach => loopDetachConn s l c none sys
  | _ =>
    let l1 := l.setConn c { cv with action := Action.None }
    (none, l1.modReadIfIdle c)

/-- `loopRead`. -/
def loopRead (s : server) (l : loop) (c : Nat) (sys : Sys) : Option Error × loop :=
  let cv := l.heap c
  let l0 := l.emit (Ev.Read cv.fd)
  match sys.read with
  | SysRes.fail e =>
    if e = Errno.EAGAIN then (none, l0)
    else loopCloseConn s l0 c (some (Error.sys e))
  | SysRes.ok n =>
    if n = 0 then loopCloseConn s l0 c none
    else
      let cv1 := { cv with inBuf := ringbuffer.Write cv.inBuf (sys.packet.take n) }
      let l1 := l0.setConn c cv1
      let l2 :=
        match s.events.React with
        | none => l1
        | some f => react s l1 c f sys
      (none, l2.modReadWriteIfPending c)

/-- The poll callback of `loopRun` (monolithic loop). -/
def loopRun (s : server) (l : loop) (fd : Int) (note : Note) (sys : Sys) : Outcome :=
  if fd = 0 then loopNote s l note sys
  else
    match l.fdconns fd with
    | none => Outcome.of (loopAccept s l fd sys)
    | some c =>
      if (l.heap c).opened = false then loopOpened s l c sys
      else if ringbuffer.Length (l.heap c).outBuf > 0 then Outcome.of (loopWrite s l c sys)
      else if (l.heap c).action ≠ Action.None then Outcome.of (loopAction s l c sys)
      else Outcome.of (loopRead s l c sys)

/-! ## `reactor_unix.go` -/

/-- The poll callback of `activateSubReactor`.  When the descriptor is not
in the map the source prints a line and goes on to evaluate `c.opened` on the
nil pointer. -/
def activateSubReactor (s : server) (l : loop) (fd : Int) (note : Note) (sys : Sys) :
    Outcome :=
  if fd = 0 then loopNote s l note sys
  else
    match l.fdconns fd with
    | none => Outcome.panic
    | some c =>
      if (l.heap c).opened = false then loopOpened s l c sys
      else if ringbuffer.Length (l.heap c).outBuf > 0 then Outcome.of (loopWrite s l c sys)
      else if (l.heap c).action ≠ Action.None then Outcome.of (loopAction s l c sys)
      else Outcome.of (loopRead s l c sys)

/-- An `eventConsumer`: the server and the loop it feeds. -/
structure eventConsumer where
  s : server
  l : loop

/-- The slot `sequence & RingBufferMask` of `connRingBuffer`. -/
def ringSlot (sequence : Int) : Nat := (Int.land sequence RingBufferMask).toNat

/-- One iteration of the `for` loop of `Consume` at sequence `lower`;
`none` is the nil dereference on an empty slot. -/
def consumeOne (s : server) (connRingBuffer : Nat → Option Nat) (l : loop) (lower : Int) :
    Option loop :=
  match connRingBuffer (ringSlot lower) with
  | none => none
  | some c =>
    let l1 := l.setConn c { l.heap c with inBuf := ringbuffer.New RingBufferSize }
    let l2 := l1.setConn c { l1.heap c with outBuf := ringbuffer.New RingBufferSize }
    let l3 := l2.setConn c { l2.heap c with loop := some l.idx }
    if s.numLoops > 1 ∧ Int.tmod lower s.numLoops ≠ l.idx then some l3
    else
      let v : signal := { fd := (l3.heap c).fd, c := some c }
      some { l3 with poll := l3.poll.Trigger (Note.signal v) }

/-- The value of an `int64` after an arithmetic step: the two's complement
wrap of the exact result. -/
def wrap64 (x : Int) : Int := (x + 2 ^ 63) % 2 ^ 64 - 2 ^ 63

/-- What a call of `Consume` comes to: it returns, it faults, or the fuel of
the model ran out before its loop ended. -/
inductive Consumed
  | done (l : loop)
  | panic
  | more

/-- The loop `for ; lower <= upper; lower++ { ... }` of `Consume`, run for at
most `fuel` tests of its condition. -/
def consumeLoop (s : server) (connRingBuffer : Nat → Option Nat) :
    Nat → loop → Int → Int → Consumed
  | 0, _, _, _ => Consumed.more
  | fuel + 1, l, lower, upper =>
    if lower ≤ upper then
      match consumeOne s connRingBuffer l lower with
      | none => Consumed.panic
      | some l1 => consumeLoop s connRingBuffer fuel l1 (wrap64 (lower + 1)) upper
    else Consumed.done l

/-- `eventConsumer.Consume`.  The result holds the consumer's loop (its heap
and its poller's note queue) after the call. -/
def eventConsumer.Consume (ec : eventConsumer) (connRingBuffer : Nat → Option Nat)
    (fuel : Nat) (lower upper : Int) : Consumed :=
  consumeLoop ec.s connRingBuffer fuel ec.l lower upper

/-- State of the main reactor's poll callback: its loop, the dispatch table
and the last sequence reserved from the disruptor writer. -/
structure mainReactor where
  mainLoop : loop
  connRingBuffer : Nat → Option Nat
  sequence : Int

inductive MainOutcome
  | ret (err : Option Error) (m : mainReactor)
  | panic

def MainOutcome.ofOutcome (m : mainReactor) : Outcome → MainOutcome
  | Outcome.ret err l => MainOutcome.ret err { m with mainLoop := l }
  | Outcome.panic => MainOutcome.panic

/-- The value of `disruptor.InitialSequenceValue`. -/
def InitialSequenceValue : Int := -1

/-- The body of the `range s.lns` loop of the main reactor's callback.
`writer.Reserve(1)` hands out the sequence after the last one reserved. -/
def mainAcceptFrom (s : server) (m : mainReactor) (fd : Int) (sys : Sys) :
    List listener → Nat → MainOutcome
  | [], _ => MainOutcome.ret none m
  | ln :: rest, i =>
    if ln.fd = fd then
      if ln.pconn then
        MainOutcome.ofOutcome m (Outcome.of (loopUDPRead s m.mainLoop i ln.lnaddr fd sys))
      else
        let l0 := m.mainLoop.emit (Ev.Accept fd)
        match sys.accept with
        | AcceptRes.fail e =>
          if e = Errno.EAGAIN then MainOutcome.ret none { m with mainLoop := l0 }
          else MainOutcome.ret (some (Error.sys e)) { m with mainLoop := l0 }
        | AcceptRes.ok nfd sa =>
          let l1 := l0.emit (Ev.SetNonblock nfd true)
          match sys.setNonblock with
          | some e => MainOutcome.ret (some (Error.sys e)) { m with mainLoop := l1 }
          | none =>
            let c : conn := { conn.zero with fd := nfd, sa := sa, lnidx := i }
            let l2 := l1.setConn sys.alloc c
            let sequence := m.sequence + 1
            MainOutcome.ret none
              { mainLoop := l2,
                connRingBuffer :=
                  Function.update m.connRingBuffer (ringSlot sequence) (some sys.alloc),
                sequence := sequence }
    else mainAcceptFrom s m fd sys rest (i + 1)

/-- The poll callback of `activateMainReactor`. -/
def activateMainReactor (s : server) (m : mainReactor) (fd : Int) (note : Note)
    (sys : Sys) : MainOutcome :=
  if fd = 0 then MainOutcome.ofOutcome m (loopNote s m.mainLoop note sys)
  else mainAcceptFrom s m fd sys s.lns 0

/-! ## Specification vocabulary -/

/-- Something is waiting to go out on the connection: its outbound buffer is
non-empty or an action other than `None` is stored on it. -/
def conn.pending (c : conn) : Prop := c.outBuf ≠ [] ∨ c.action ≠ Action.None

instance (c : conn) : Decidable c.pending := by unfold conn.pending; infer_instance

/-- The poller has write interest registered on the descriptor. -/
def loop.writeInterest (l : loop) (fd : Int) : Prop :=
  l.poll.interest fd = some Interest.ReadWrite

instance (l : loop) (fd : Int) : Decidable (l.writeInterest fd) := by
  unfold loop.writeInterest; infer_instance

/-- A transition on the connection at address `c` touches nothing but that
connection, its map entry and its registration. -/
structure Touch (c : Nat) (l l' : loop) : Prop where
  idx : l'.idx = l.idx
  heap : ∀ r, r ≠ c → l'.heap r = l.heap r
  fd : (l'.heap c).fd = (l.heap c).fd
  lnidx : (l'.heap c).lnidx = (l.heap c).lnidx
  opened : (l.heap c).opened = true → (l'.heap c).opened = true
  map : ∀ fd, l'.fdconns fd = l.fdconns fd ∨ (fd = (l.heap c).fd ∧ l'.fdconns fd = none)
  interest : ∀ fd, fd ≠ (l.heap c).fd → l'.poll.interest fd = l.poll.interest fd
  registered : l.poll.interest (l.heap c).fd ≠ none → l'.fdconns (l.heap c).fd ≠ none →
    l'.poll.interest (l.heap c).fd ≠ none
  notes : l'.poll.notes = l.poll.notes

/-- The log of `l'` is the log of `l` followed by events that satisfy `P`. -/
def LogExt (P : Ev → Prop) (l l' : loop) : Prop :=
  ∃ evs, l'.log = l.log ++ evs ∧ ∀ e ∈ evs, P e

/-- The events a transition on the connection at `c`, whose `opened` flag is
`o` while it runs, may log besides `OnOpened` and `Read`: every callback is
handed that connection. -/
structure Allows (P : Ev → Prop) (c : Nat) (o : Bool) : Prop where
  onClosed : ∀ snap err, snap.opened = o → P (Ev.OnClosed c snap err)
  onDetached : ∀ snap dfd, snap.opened = o → P (Ev.OnDetached c snap dfd)
  react : ∀ snap, snap.opened = o → P (Ev.React c snap)
  preWrite : P Ev.PreWrite
  write : ∀ fd buf res, P (Ev.Write fd buf res)
  close : ∀ fd, P (Ev.Close fd)
  setNonblock : ∀ fd b, P (Ev.SetNonblock fd b)
  setKeepAlive : ∀ fd secs, P (Ev.SetKeepAlive fd secs)

/-- A transition on the connection at `c` that keeps its `opened` flag and
logs only events satisfying `P`. -/
structure Run (P : Ev → Prop) (c : Nat) (l l' : loop) extends Touch c l l' : Prop where
  opened_eq : (l'.heap c).opened = (l.heap c).opened
  log : LogExt P l l'

/-- What a transition on the connection at `c` does to the poller, in four
cases: the connection left the map; interest and heap are as before;
read-only interest was set unless something is pending (Open, Write,
Action); read+write interest was set if something is pending (Read, Wake).
`idle` is what is known of the connection before the last case. -/
def Effect (idle : Prop) (c : Nat) (l l' : loop) : Prop :=
  l'.fdconns (l.heap c).fd = none ∨
  (l'.poll = l.poll ∧ l'.heap = l.heap) ∨
  (((l.heap c).pending ∨ (l.heap c).opened = false) ∧ (l'.heap c).opened = true ∧
    l'.poll = if (l'.heap c).pending then l.poll else l.poll.ModRead (l.heap c).fd) ∨
  (idle ∧ (l'.heap c).opened = (l.heap c).opened ∧
    l'.poll = if (l'.heap c).pending then l.poll.ModReadWrite (l.heap c).fd else l.poll)

/-- The map is keyed by the descriptor of the connection it holds and every
mapped descriptor is registered with the poller. -/
def loop.WF (l : loop) : Prop :=
  ∀ fd c, l.fdconns fd = some c → (l.heap c).fd = fd ∧ l.poll.interest fd ≠ none

/-- Write interest is registered on every mapped connection that has
something pending or is not yet opened. -/
def loop.WriteIf (l : loop) : Prop :=
  ∀ fd c, l.fdconns fd = some c →
    ((l.heap c).pending ∨ (l.heap c).opened = false) → l.writeInterest fd

/-- Write interest is registered only on mapped connections that have
something pending or are not yet opened. -/
def loop.WriteOnlyIf (l : loop) : Prop :=
  ∀ fd c, l.fdconns fd = some c →
    l.writeInterest fd → ((l.heap c).pending ∨ (l.heap c).opened = false)

/-- The states a sub-reactor loop reaches from `l0` through poll events and
trigger notes that satisfy `ok`; each step is one call of the poll callback
that returned. -/
inductive Reach (s : server) (ok : loop → Int → Note → Prop) (l0 : loop) : loop → Prop
  | start : Reach s ok l0 l0
  | step {l l' : loop} (fd : Int) (note : Note) (sys : Sys) (err : Option Error) :
      Reach s ok l0 l → ok l fd note →
      activateSubReactor s l fd note sys = Outcome.ret err l' → Reach s ok l0 l'

/-- A handoff note carries the descriptor of its connection, as the notes
built by `Consume` do. -/
def handoffOK (l : loop) (fd : Int) (note : Note) : Prop :=
  fd = 0 → ∀ v c, note = Note.signal v → v.c = some c → (l.heap c).fd = v.fd

/-- A handoff note carries the descriptor of a connection that is not opened
yet, and no connection-wake note that is not stale is for an opened
connection with an empty outbound buffer and an action other than `None`. -/
def handoffOnly (l : loop) (fd : Int) (note : Note) : Prop :=
  fd = 0 →
    (∀ v c, note = Note.signal v → v.c = some c →
      (l.heap c).fd = v.fd ∧ (l.heap c).opened = false) ∧
    ∀ v, note = Note.conn (some v) → l.fdconns (l.heap v).fd = some v →
      ¬ ((l.heap v).opened = true ∧ (l.heap v).outBuf = [] ∧
          (l.heap v).action ≠ Action.None)

/-- The address of the connection a callback event was handed. -/
def Ev.conn? : Ev → Option Nat
  | Ev.OnOpened c _ => some c
  | Ev.OnClosed c _ _ => some c
  | Ev.OnDetached c _ _ => some c
  | Ev.React c _ => some c
  | _ => none

/-- The event is an invocation of `OnOpened` on the connection at `r`. -/
def Ev.isOnOpened (r : Nat) : Ev → Bool
  | Ev.OnOpened c _ => decide (c = r)
  | _ => false

/-- The event is an invocation of `React`, `OnClosed` or `OnDetached` on the
connection at `r`. -/
def Ev.isLater (r : Nat) : Ev → Bool
  | Ev.OnClosed c _ _ => decide (c = r)
  | Ev.OnDetached c _ _ => decide (c = r)
  | Ev.React c _ => decide (c = r)
  | _ => false

/-- An invocation of `React`, `OnClosed` or `OnDetached` was handed a
connection whose `opened` flag is set. -/
def Ev.handedOpened : Ev → Prop
  | Ev.OnClosed _ snap _ => snap.opened = true
  | Ev.OnDetached _ snap _ => snap.opened = true
  | Ev.React _ snap => snap.opened = true
  | _ => True

/-- An event of a transition on the opened connection at `c`: not an
`OnOpened`, and a callback only on `c`, handed with its flag set. -/
def Ev.later (c : Nat) : Ev → Prop
  | Ev.OnOpened _ _ => False
  | Ev.OnClosed r snap _ => r = c ∧ snap.opened = true
  | Ev.OnDetached r snap _ => r = c ∧ snap.opened = true
  | Ev.React r snap => r = c ∧ snap.opened = true
  | _ => True

/-- Number of invocations of `OnOpened` on the connection at `r`. -/
def onOpenedCount (r : Nat) (log : List Ev) : Nat := log.countP (Ev.isOnOpened r)

/-- In the log, every invocation of `React`, `OnClosed` or `OnDetached` on the
connection at `r` comes after an invocation of `OnOpened` on it. -/
def Precedes (log : List Ev) (r : Nat) : Prop :=
  ∀ pre e post, log = pre ++ e :: post → e.isLater r = true →
    ∃ snap, Ev.OnOpened r snap ∈ pre

/-- A connection-wake note that is not stale is for an opened connection. -/
def wakeOpened (l : loop) (fd : Int) (note : Note) : Prop :=
  fd = 0 → ∀ v, note = Note.conn (some v) → l.fdconns (l.heap v).fd = some v →
    (l.heap v).opened = true

/-- The history invariant of a loop: callbacks other than `OnOpened` were
handed opened connections, an unopened connection has no callback in the log,
`OnOpened` ran at most once per connection, and when `OnOpened` is supplied
it ran on every opened connection, before its other callbacks. -/
structure Hist (s : server) (l : loop) : Prop where
  handed : ∀ e ∈ l.log, e.handedOpened
  quiet : ∀ r, (l.heap r).opened = false → ∀ e ∈ l.log, e.conn? ≠ some r
  once : ∀ r, onOpenedCount r l.log ≤ 1
  fired : s.events.OnOpened ≠ none → ∀ r, (l.heap r).opened = true →
    ∃ snap, Ev.OnOpened r snap ∈ l.log
  first : s.events.OnOpened ≠ none → ∀ r, Precedes l.log r

/-- The sequences `lower, lower + 1, ..., upper` that `Consume` walks. -/
def seqs (lower upper : Int) : List Int :=
  (List.range (upper + 1 - lower).toNat).map (fun (j : Nat) => lower + (j : Int))

/-- The note `signal{fd: c.fd, c: c}` for the connection in the slot of
sequence `S`. -/
def handoff (connRingBuffer : Nat → Option Nat) (l : loop) (S : Int) : Option Note :=
  (connRingBuffer (ringSlot S)).map
    (fun c => Note.signal { fd := (l.heap c).fd, c := some c })

/-- The consumer of loop `l` passes the round-robin test at sequence `S`:
the negation of the condition under which the source executes `continue`. -/
def owns (s : server) (l : loop) (S : Int) : Prop :=
  ¬ (s.numLoops > 1 ∧ Int.tmod S s.numLoops ≠ l.idx)

instance (s : server) (l : loop) (S : Int) : Decidable (owns s l S) := by
  unfold owns; infer_instance

/-- The iteration of `Consume` at sequence `S` issues one Trigger on the
poller of loop `l`. -/
def triggersAt (s : server) (connRingBuffer : Nat → Option Nat) (l : loop) (S : Int) : Prop :=
  match consumeOne s connRingBuffer l S with
  | some l1 => l1.poll.notes.length = l.poll.notes.length + 1
  | none => False

instance (s : server) (connRingBuffer : Nat → Option Nat) (l : loop) (S : Int) :
    Decidable (triggersAt s connRingBuffer l S) := by
  unfold triggersAt; split <;> infer_instance

/-- The bytes the kernel accepted on descriptor `fd`, in order: for every
successful `write` of the log, the first `n` bytes of the buffer it was
handed. -/
def sent (fd : Int) : List Ev → List Byte
  | [] => []
  | Ev.Write wfd buf (SysRes.ok n) :: rest =>
    if wfd = fd then buf.take n ++ sent fd rest else sent fd rest
  | _ :: rest => sent fd rest

/-- Repeated Write transitions on the connection at `c`, one per syscall
record. -/
def writeRun (s : server) (c : Nat) : List Sys → loop → loop
  | [], l => l
  | sys :: rest, l => writeRun s c rest (loopWrite s l c sys).2

/-! ## Example states -/

/-- A server with `N` loops and no callbacks or listeners. -/
def exServer (N : Int) : server :=
  { events := { OnOpened := none, OnClosed := none, OnDetached := none, React := none,
                PreWrite := false, Tick := none },
    lns := [], numLoops := N, SockaddrToAddr := fun _ => none }

/-- A connection on descriptor 7 that loop 0 owns, with buffered bytes. -/
def exConn : conn :=
  { conn.zero with fd := 7, inBuf := [1, 2], outBuf := [3], loop := some 0, opened := true }

/-- Loop `i` with an empty connection map, nothing registered and nothing
logged; every address holds `v`. -/
def exLoop (i : Int) (v : conn) : loop :=
  { idx := i, poll := { interest := fun _ => none, notes := [] },
    fdconns := fun _ => none, heap := fun _ => v, log := [] }

/-- Syscall results: everything fails with EAGAIN. -/
def exSys : Sys :=
  { read := SysRes.fail Errno.EAGAIN, packet := [], write := SysRes.fail Errno.EAGAIN,
    setNonblock := none, accept := AcceptRes.fail Errno.EAGAIN,
    recvfrom := RecvRes.fail Errno.EAGAIN, alloc := 0 }

/-- A server with one loop, one TCP listener on descriptor 3 and every
connection callback supplied; each callback answers `None` and `React`
echoes nothing. -/
def exServerCb : server :=
  { events :=
      { OnOpened := some (fun _ => ([], { TCPKeepAlive := 0 }, Action.None)),
        OnClosed := some (fun _ _ => Action.None),
        OnDetached := some (fun _ _ => Action.None),
        React := some (fun c => ([], Action.None, c.inBuf)),
        PreWrite := false, Tick := none },
    lns := [{ fd := 3, pconn := false, tcp := true, lnaddr := none }],
    numLoops := 1, SockaddrToAddr := fun _ => none }

/-- Loop 0 with descriptor 7 registered for read+write and mapped to the
connection at address 1; every address holds `v`. -/
def exLoop7 (v : conn) : loop :=
  { idx := 0,
    poll := { interest := fun fd => if fd = 7 then some Interest.ReadWrite else none,
              notes := [] },
    fdconns := fun fd => if fd = 7 then some 1 else none,
    heap := fun _ => v, log := [] }

/-- Syscall results in which `write` accepts `n` bytes. -/
def exSysWrite (n : Nat) : Sys := { exSys with write := SysRes.ok n }

/-- The connection of `exConn` with `[3, 4, 5]` waiting to go out. -/
def exConnOut : conn := { exConn with outBuf := [3, 4, 5] }

/-- An opened connection on descriptor 7 with nothing to send, on which a
callback has asked for `Detach`. -/
def exConnDetach : conn := { exConn with outBuf := [], action := Action.Detach }

/-- Syscall results in which `SetNonblock` fails with errno 9 (EBADF). -/
def exSysBadf : Sys := { exSys with setNonblock := some (Errno.other 9) }

/-- The connection the main reactor builds for an accepted descriptor 7. -/
def exConnFresh : conn := { conn.zero with fd := 7 }

/-- An opened connection on descriptor 7 with nothing to send, on which a
callback has asked for `Close`. -/
def exConnClose : conn := { exConn with outBuf := [], action := Action.Close }

/-- The server of `exServerCb` with an `OnDetached` that answers
`Shutdown`. -/
def exServerShut : server :=
  { exServerCb with
    events := { exServerCb.events with OnDetached := some (fun _ _ => Action.Shutdown) } }

/-- The ephemeral connection `loopUDPRead` builds for a datagram of `n` bytes
from `sa`. -/
def udpConn (s : server) (lnidx : Int) (lnaddr : Option Addr) (sa : Option Sockaddr)
    (packet : List Byte) (n : Nat) : conn :=
  { conn.zero with
    addrIndex := lnidx, localAddr := lnaddr,
    remoteAddr := s.SockaddrToAddr (some (sa6Of sa)),
    inBuf := ringbuffer.Write (ringbuffer.New RingBufferSize) (packet.take n) }

/-- The event is not an invocation of `React`. -/
def Ev.notReact (e : Ev) : Prop := ∀ r snap, e ≠ Ev.React r snap

/-- A server with one UDP listener on descriptor 4 whose `React` answers
every datagram with `[9]`, and whose `Tick` asks for `Shutdown` after a delay
of 10. -/
def exServerUdp : server :=
  { events :=
      { OnOpened := none, OnClosed := none, OnDetached := none,
        React := some (fun c => ([9], Action.None, c.inBuf)),
        PreWrite := true, Tick := some (10, Action.Shutdown) },
    lns := [{ fd := 4, pconn := true, tcp := false, lnaddr := none }],
    numLoops := 1, SockaddrToAddr := fun _ => none }

/-- Syscall results in which `recvfrom` delivers the 2 bytes `[5, 6]` from an
IPv4 peer and `read` delivers the same 2 bytes. -/
def exSysRecv : Sys :=
  { exSys with
    recvfrom := RecvRes.ok 2 (some (Sockaddr.Inet4 9000 10 0 0 1)),
    read := SysRes.ok 2, packet := [5, 6, 0, 0] }

/-- The store `connRingBuffer[sequence&RingBufferMask] = c` of the main
reactor. -/
def publish (connRingBuffer : Nat → Option Nat) (sequence : Int) (c : Nat) :
    Nat → Option Nat :=
  Function.update connRingBuffer (ringSlot sequence) (some c)

/-- A run of stores of the main reactor, the earliest first. -/
def publishAll (connRingBuffer : Nat → Option Nat) : List (Int × Nat) → Nat → Option Nat
  | [] => connRingBuffer
  | p :: rest => publishAll (publish connRingBuffer p.1 p.2) rest

/-- The first listener on descriptor `fd` and its index, as the loops
`for i, ln := range s.lns` of `loopAccept` and of the main reactor find
them, counting from `i`. -/
def lnIndex (fd : Int) : List listener → Nat → Option (Nat × listener)
  | [], _ => none
  | ln :: rest, i => if ln.fd = fd then some (i, ln) else lnIndex fd rest (i + 1)

/-- The connection `loopAccept` builds on loop `idx` for the accepted
descriptor `nfd`. -/
def acceptedConn (nfd : Int) (sa : Option Sockaddr) (i : Nat) (idx : Int) : conn :=
  { conn.zero with
    fd := nfd, sa := sa, lnidx := i,
    inBuf := ringbuffer.New RingBufferSize,
    outBuf := ringbuffer.New RingBufferSize,
    loop := some idx }

/-- The main reactor before its first accept: an empty dispatch table and
the initial sequence value. -/
def exMain : mainReactor :=
  { mainLoop := exLoop (-1) conn.zero, connRingBuffer := fun _ => none,
    sequence := InitialSequenceValue }

/-- Syscall results in which `accept` delivers descriptor 7 from an IPv4
peer and the new connection is allocated at address 1. -/
def exSysAccept : Sys :=
  { exSys with
    accept := AcceptRes.ok 7 (some (Sockaddr.Inet4 9000 10 0 0 1)), alloc := 1 }

/-- The server of `exServerCb` with two loops. -/
def exServerTwo : server := { exServerCb with numLoops := 2 }

/-- Loop `l` with, at address `c`, the connection object as loop `k` left it:
the loops of a server work on the same connection objects. -/
def loop.sees (l : loop) (c : Nat) (k : loop) : loop := l.setConn c (k.heap c)

/-! ## Basic facts -/

@[simp] theorem emit_log (l : loop) (e : Ev) : (l.emit e).log = l.log ++ [e] := rfl
@[simp] theorem emit_heap (l : loop) (e : Ev) : (l.emit e).heap = l.heap := rfl
@[simp] theorem emit_fdconns (l : loop) (e : Ev) : (l.emit e).fdconns = l.fdconns := rfl
@[simp] theorem emit_poll (l : loop) (e : Ev) : (l.emit e).poll = l.poll := rfl
@[simp] theorem emit_idx (l : loop) (e : Ev) : (l.emit e).idx = l.idx := rfl
@[simp] theorem setConn_log (l : loop) (c : Nat) (v : conn) : (l.setConn c v).log = l.log := rfl
@[simp] theorem setConn_heap (l : loop) (c : Nat) (v : conn) :
    (l.setConn c v).heap = Function.update l.heap c v := rfl
@[simp] theorem setConn_fdconns (l : loop) (c : Nat) (v : conn) :
    (l.setConn c v).fdconns = l.fdconns := rfl
@[simp] theorem setConn_poll (l : loop) (c : Nat) (v : conn) : (l.setConn c v).poll = l.poll := rfl
@[simp] theorem setConn_idx (l : loop) (c : Nat) (v : conn) : (l.setConn c v).idx = l.idx := rfl

@[simp] theorem ringbuffer_Length_eq_zero (b : List Byte) : ringbuffer.Length b = 0 ↔ b = [] := by
  simp [ringbuffer.Length]

@[simp] theorem ringbuffer_Length_pos (b : List Byte) : ringbuffer.Length b > 0 ↔ b ≠ [] := by
  simp [ringbuffer.Length, List.length_pos]

theorem Touch.touch_refl (c : Nat) (l : loop) : Touch c l l :=
  ⟨rfl, fun _ _ => rfl, rfl, rfl, id, fun _ => Or.inl rfl, fun _ _ => rfl, fun h _ => h, rfl⟩

theorem Touch.touch_trans {c : Nat} {l l1 l2 : loop} (h1 : Touch c l l1) (h2 : Touch c l1 l2) :
    Touch c l l2 where
  idx := h2.idx.trans h1.idx
  heap r hr := (h2.heap r hr).trans (h1.heap r hr)
  fd := h2.fd.trans h1.fd
  lnidx := h2.lnidx.trans h1.lnidx
  opened h := h2.opened (h1.opened h)
  map fd := by
    rcases h2.map fd with h | ⟨hfd, h⟩
    · rcases h1.map fd with h' | ⟨hfd', h'⟩
      · exact Or.inl (h.trans h')
      · exact Or.inr ⟨hfd', h.trans h'⟩
    · exact Or.inr ⟨hfd.trans h1.fd, h⟩
  interest fd hfd := by
    rw [h2.interest fd (by rw [h1.fd]; exact hfd), h1.interest fd hfd]
  registered hr hm := by
    have hm1 : l1.fdconns (l.heap c).fd ≠ none := by
      rcases h2.map (l.heap c).fd with h | ⟨_, h⟩
      · rw [← h]; exact hm
      · exact absurd h hm
    have := h1.registered hr hm1
    rw [← h1.fd] at this hm ⊢
    exact h2.registered this hm
  notes := h2.notes.trans h1.notes

theorem LogExt.logExt_refl (P : Ev → Prop) (l : loop) : LogExt P l l :=
  ⟨[], by simp, by simp⟩

theorem LogExt.logExt_trans {P : Ev → Prop} {l l1 l2 : loop} (h1 : LogExt P l l1)
    (h2 : LogExt P l1 l2) : LogExt P l l2 := by
  obtain ⟨e1, he1, hp1⟩ := h1
  obtain ⟨e2, he2, hp2⟩ := h2
  refine ⟨e1 ++ e2, by rw [he2, he1, List.append_assoc], ?_⟩
  intro e he
  rcases List.mem_append.1 he with h | h
  · exact hp1 e h
  · exact hp2 e h

theorem LogExt.logExt_emit {P : Ev → Prop} {l l1 : loop} (h1 : LogExt P l l1) (e : Ev) (he : P e) :
    LogExt P l (l1.emit e) :=
  h1.logExt_trans ⟨[e], rfl, by simpa using he⟩

theorem LogExt.of_log_eq {P : Ev → Prop} {l l1 l2 : loop} (h1 : LogExt P l l1)
    (h : l2.log = l1.log) : LogExt P l l2 :=
  h1.logExt_trans ⟨[], by simp [h], by simp⟩

/-! ## `loopCloseConn` -/

@[simp] theorem loopCloseConn_heap (s : server) (l : loop) (c : Nat) (err : Option Error) :
    (loopCloseConn s l c err).2.heap = l.heap := by
  simp only [loopCloseConn]; split <;> [split; skip] <;> rfl

@[simp] theorem loopCloseConn_poll (s : server) (l : loop) (c : Nat) (err : Option Error) :
    (loopCloseConn s l c err).2.poll = l.poll := by
  simp only [loopCloseConn]; split <;> [split; skip] <;> rfl

@[simp] theorem loopCloseConn_idx (s : server) (l : loop) (c : Nat) (err : Option Error) :
    (loopCloseConn s l c err).2.idx = l.idx := by
  simp only [loopCloseConn]; split <;> [split; skip] <;> rfl

@[simp] theorem loopCloseConn_fdconns (s : server) (l : loop) (c : Nat) (err : Option Error) :
    (loopCloseConn s l c err).2.fdconns = Function.update l.fdconns (l.heap c).fd none := by
  simp only [loopCloseConn]; split <;> [split; skip] <;> rfl

theorem loopCloseConn_log_eq (s : server) (l : loop) (c : Nat) (err : Option Error) :
    (loopCloseConn s l c err).2.log =
      l.log ++ Ev.Close (l.heap c).fd ::
        (match s.events.OnClosed with
         | some _ => [Ev.OnClosed c (l.heap c) err]
         | none => []) := by
  simp only [loopCloseConn]; split <;> [split; skip] <;> simp

theorem loopCloseConn_err (s : server) (l : loop) (c : Nat) (err : Option Error) :
    (loopCloseConn s l c err).1 = none ∨ (loopCloseConn s l c err).1 = some Error.errClosing := by
  simp only [loopCloseConn]; split <;> [split; skip] <;> simp

theorem loopCloseConn_touch (s : server) (l : loop) (c : Nat) (err : Option Error) :
    Touch c l (loopCloseConn s l c err).2 where
  idx := by simp
  heap := by simp
  fd := by simp
  lnidx := by simp
  opened := by simp
  map fd := by
    by_cases h : fd = (l.heap c).fd
    · exact Or.inr ⟨h, by simp [h]⟩
    · exact Or.inl (by simp [Function.update_noteq h])
  interest := by simp
  registered := by simp
  notes := by simp

theorem loopCloseConn_log (s : server) (l : loop) (c : Nat) (err : Option Error)
    {P : Ev → Prop} (hP : Allows P c (l.heap c).opened) :
    LogExt P l (loopCloseConn s l c err).2 := by
  refine ⟨_, loopCloseConn_log_eq s l c err, ?_⟩
  intro e he
  cases h : s.events.OnClosed <;> simp [h] at he
  · subst he; exact hP.close _
  · rcases he with rfl | rfl
    · exact hP.close _
    · exact hP.onClosed _ _ rfl

/-! ## Primitive updates -/

theorem Poll.ModRead_interest (p : Poll) (fd fd' : Int) :
    (p.ModRead fd).interest fd' =
      if fd' = fd ∧ p.interest fd ≠ none then some Interest.Read else p.interest fd' := by
  unfold Poll.ModRead
  cases h : p.interest fd with
  | none => by_cases h' : fd' = fd <;> simp [h, h']
  | some i => by_cases h' : fd' = fd <;> simp [h', Function.update_apply]

theorem Poll.ModReadWrite_interest (p : Poll) (fd fd' : Int) :
    (p.ModReadWrite fd).interest fd' =
      if fd' = fd ∧ p.interest fd ≠ none then some Interest.ReadWrite else p.interest fd' := by
  unfold Poll.ModReadWrite
  cases h : p.interest fd with
  | none => by_cases h' : fd' = fd <;> simp [h, h']
  | some i => by_cases h' : fd' = fd <;> simp [h', Function.update_apply]

@[simp] theorem Poll.ModRead_notes (p : Poll) (fd : Int) : (p.ModRead fd).notes = p.notes := by
  unfold Poll.ModRead; split <;> rfl

@[simp] theorem Poll.ModReadWrite_notes (p : Poll) (fd : Int) :
    (p.ModReadWrite fd).notes = p.notes := by
  unfold Poll.ModReadWrite; split <;> rfl

theorem Run.run_refl (P : Ev → Prop) (c : Nat) (l : loop) : Run P c l l :=
  { Touch.touch_refl c l with opened_eq := rfl, log := LogExt.logExt_refl P l }

theorem Run.run_trans {P : Ev → Prop} {c : Nat} {l l1 l2 : loop} (h1 : Run P c l l1)
    (h2 : Run P c l1 l2) : Run P c l l2 :=
  { h1.toTouch.touch_trans h2.toTouch with
    opened_eq := h2.opened_eq.trans h1.opened_eq
    log := h1.log.logExt_trans h2.log }

theorem Run.run_emit {P : Ev → Prop} {c : Nat} (l : loop) (e : Ev) (he : P e) :
    Run P c l (l.emit e) :=
  { idx := rfl
    heap := fun _ _ => rfl
    fd := rfl
    lnidx := rfl
    opened := id
    map := fun _ => Or.inl rfl
    interest := fun _ _ => rfl
    registered := fun h _ => h
    notes := rfl
    opened_eq := rfl
    log := ⟨[e], rfl, by simpa using he⟩ }

theorem Run.run_setConn (P : Ev → Prop) {c : Nat} (l : loop) (v : conn)
    (hfd : v.fd = (l.heap c).fd) (hln : v.lnidx = (l.heap c).lnidx)
    (ho : v.opened = (l.heap c).opened) : Run P c l (l.setConn c v) where
  idx := rfl
  heap := fun r hr => by simp [Function.update_noteq hr]
  fd := by simp [hfd]
  lnidx := by simp [hln]
  opened := by simp [ho]
  map := fun _ => Or.inl rfl
  interest := fun _ _ => rfl
  registered := fun h _ => h
  notes := rfl
  opened_eq := by simp [ho]
  log := ⟨[], by simp, by simp⟩

theorem modReadIfIdle_run (P : Ev → Prop) (c : Nat) (l : loop) :
    Run P c l (l.modReadIfIdle c) := by
  unfold loop.modReadIfIdle
  split
  · exact
      { idx := rfl
        heap := fun _ _ => rfl
        fd := rfl
        lnidx := rfl
        opened := id
        map := fun _ => Or.inl rfl
        interest := fun fd hfd => by simp [Poll.ModRead_interest, hfd]
        registered := fun h _ => by simp [Poll.ModRead_interest, h]
        notes := by simp
        opened_eq := rfl
        log := ⟨[], by simp, by simp⟩ }
  · exact Run.run_refl P c l

theorem modReadWriteIfPending_run (P : Ev → Prop) (c : Nat) (l : loop) :
    Run P c l (l.modReadWriteIfPending c) := by
  unfold loop.modReadWriteIfPending
  split
  · exact
      { idx := rfl
        heap := fun _ _ => rfl
        fd := rfl
        lnidx := rfl
        opened := id
        map := fun _ => Or.inl rfl
        interest := fun fd hfd => by simp [Poll.ModReadWrite_interest, hfd]
        registered := fun h _ => by simp [Poll.ModReadWrite_interest, h]
        notes := by simp
        opened_eq := rfl
        log := ⟨[], by simp, by simp⟩ }
  · exact Run.run_refl P c l

@[simp] theorem modReadIfIdle_heap (l : loop) (c : Nat) : (l.modReadIfIdle c).heap = l.heap := by
  unfold loop.modReadIfIdle; split <;> rfl

@[simp] theorem modReadIfIdle_fdconns (l : loop) (c : Nat) :
    (l.modReadIfIdle c).fdconns = l.fdconns := by
  unfold loop.modReadIfIdle; split <;> rfl

@[simp] theorem modReadIfIdle_log (l : loop) (c : Nat) : (l.modReadIfIdle c).log = l.log := by
  unfold loop.modReadIfIdle; split <;> rfl

@[simp] theorem modReadWriteIfPending_heap (l : loop) (c : Nat) :
    (l.modReadWriteIfPending c).heap = l.heap := by
  unfold loop.modReadWriteIfPending; split <;> rfl

@[simp] theorem modReadWriteIfPending_fdconns (l : loop) (c : Nat) :
    (l.modReadWriteIfPending c).fdconns = l.fdconns := by
  unfold loop.modReadWriteIfPending; split <;> rfl

@[simp] theorem modReadWriteIfPending_log (l : loop) (c : Nat) :
    (l.modReadWriteIfPending c).log = l.log := by
  unfold loop.modReadWriteIfPending; split <;> rfl

theorem modReadIfIdle_poll (l : loop) (c : Nat) :
    (l.modReadIfIdle c).poll =
      if (l.heap c).pending then l.poll else l.poll.ModRead (l.heap c).fd := by
  unfold loop.modReadIfIdle conn.pending
  by_cases h1 : (l.heap c).outBuf = [] <;> by_cases h2 : (l.heap c).action = Action.None <;>
    simp [h1, h2]

theorem modReadWriteIfPending_poll (l : loop) (c : Nat) :
    (l.modReadWriteIfPending c).poll =
      if (l.heap c).pending then l.poll.ModReadWrite (l.heap c).fd else l.poll := by
  unfold loop.modReadWriteIfPending conn.pending
  by_cases h1 : (l.heap c).outBuf = [] <;> by_cases h2 : (l.heap c).action = Action.None <;>
    simp [h1, h2]

/-! ## `loopCloseConn`, `sendOut` and the callback blocks -/

theorem loopCloseConn_run (s : server) (l : loop) (c : Nat) (err : Option Error)
    {P : Ev → Prop} (hP : Allows P c (l.heap c).opened) :
    Run P c l (loopCloseConn s l c err).2 :=
  { loopCloseConn_touch s l c err with
    opened_eq := by simp
    log := loopCloseConn_log s l c err hP }

@[simp] theorem sendOut_poll (s : server) (l : loop) (c : Nat) (buf : List Byte) (sys : Sys) :
    (sendOut s l c buf sys).poll = l.poll := by
  simp only [sendOut]; split
  · rfl
  · split
    · split <;> simp
    · rfl

/-- `sendOut` changes nothing of the connection but its outbound buffer. -/
theorem sendOut_heap (s : server) (l : loop) (c : Nat) (buf : List Byte) (sys : Sys) :
    ∃ ob, (sendOut s l c buf sys).heap = Function.update l.heap c { l.heap c with outBuf := ob } := by
  simp only [sendOut]; split
  · exact ⟨_, rfl⟩
  · split
    · split
      · exact ⟨_, rfl⟩
      · exact ⟨ringbuffer.Write (l.heap c).outBuf buf, by simp⟩
    · rename_i n _
      exact ⟨ringbuffer.Move (ringbuffer.Write (l.heap c).outBuf buf) n, by simp⟩

theorem sendOut_run (s : server) (l : loop) (c : Nat) (buf : List Byte) (sys : Sys)
    {P : Ev → Prop} (hP : Allows P c (l.heap c).opened) :
    Run P c l (sendOut s l c buf sys) := by
  have h1 : Run P c l
      (l.setConn c { l.heap c with outBuf := ringbuffer.Write (l.heap c).outBuf buf }) :=
    Run.run_setConn P l _ rfl rfl rfl
  simp only [sendOut]; split
  · exact h1
  · split
    · split
      · exact h1.run_trans (Run.run_emit _ _ (hP.write _ _ _))
      · exact (h1.run_trans (Run.run_emit _ _ (hP.write _ _ _))).run_trans
          (loopCloseConn_run _ _ _ _ (by simpa using hP))
    · exact (h1.run_trans (Run.run_emit _ _ (hP.write _ _ _))).run_trans
        (Run.run_setConn P _ _ (by simp) (by simp) (by simp))

@[simp] theorem sendIfAny_poll (s : server) (l : loop) (c : Nat) (buf : List Byte) (sys : Sys) :
    (sendIfAny s l c buf sys).poll = l.poll := by
  unfold sendIfAny; split <;> simp

theorem sendIfAny_heap (s : server) (l : loop) (c : Nat) (buf : List Byte) (sys : Sys) :
    ∃ ob, (sendIfAny s l c buf sys).heap =
      Function.update l.heap c { l.heap c with outBuf := ob } := by
  unfold sendIfAny; split
  · exact sendOut_heap s l c buf sys
  · exact ⟨(l.heap c).outBuf, by simp⟩

theorem sendIfAny_run (s : server) (l : loop) (c : Nat) (buf : List Byte) (sys : Sys)
    {P : Ev → Prop} (hP : Allows P c (l.heap c).opened) :
    Run P c l (sendIfAny s l c buf sys) := by
  unfold sendIfAny; split
  · exact sendOut_run s l c buf sys hP
  · exact Run.run_refl P c l

@[simp] theorem react_poll (s : server) (l : loop) (c : Nat)
    (f : conn → List Byte × Action × List Byte) (sys : Sys) :
    (react s l c f sys).poll = l.poll := by
  simp [react]

theorem react_run (s : server) (l : loop) (c : Nat)
    (f : conn → List Byte × Action × List Byte) (sys : Sys)
    {P : Ev → Prop} (hP : Allows P c (l.heap c).opened) :
    Run P c l (react s l c f sys) := by
  simp only [react]
  have h1 : Run P c l (l.emit (Ev.React c (l.heap c))) := Run.run_emit l _ (hP.react _ rfl)
  have h2 : Run P c (l.emit (Ev.React c (l.heap c)))
      ((l.emit (Ev.React c (l.heap c))).setConn c
        { l.heap c with inBuf := (f (l.heap c)).2.2, action := (f (l.heap c)).2.1 }) :=
    Run.run_setConn P _ _ rfl rfl rfl
  exact (h1.run_trans h2).run_trans (sendIfAny_run _ _ _ _ _ (by simpa using hP))

@[simp] theorem onOpened_poll (s : server) (l : loop) (c : Nat) (ln : listener)
    (f : conn → List Byte × Options × Action) (sys : Sys) :
    (onOpened s l c ln f sys).poll = l.poll := by
  simp only [onOpened, sendIfAny_poll]; split <;> rfl

theorem onOpened_run (s : server) (l : loop) (c : Nat) (ln : listener)
    (f : conn → List Byte × Options × Action) (sys : Sys)
    {P : Ev → Prop} (hP : Allows P c (l.heap c).opened) :
    ∃ l1, Run (fun _ => True) c l l1 ∧ l1.log = l.log ++ [Ev.OnOpened c (l.heap c)] ∧
      Run P c l1 (onOpened s l c ln f sys) := by
  simp only [onOpened]
  have h1 : Run (fun _ => True) c l (l.emit (Ev.OnOpened c (l.heap c))) :=
    Run.run_emit l _ trivial
  have h2 : Run P c (l.emit (Ev.OnOpened c (l.heap c)))
      ((l.emit (Ev.OnOpened c (l.heap c))).setConn c
        { l.heap c with action := (f (l.heap c)).2.2 }) :=
    Run.run_setConn P _ _ rfl rfl rfl
  refine ⟨_, h1, rfl, ?_⟩
  split
  · exact (h2.run_trans (Run.run_emit _ _ (hP.setKeepAlive _ _))).run_trans
      (sendIfAny_run _ _ _ _ _ (by simpa using hP))
  · exact h2.run_trans (sendIfAny_run _ _ _ _ _ (by simpa using hP))

/-! ## The transitions -/

theorem loopDetachConn_run (s : server) (l : loop) (c : Nat) (err : Option Error) (sys : Sys)
    {P : Ev → Prop} (hP : Allows P c (l.heap c).opened) :
    Run P c l (loopDetachConn s l c err sys).2 := by
  have h3 : Run P c l
      ({ l with poll := l.poll.ModDetach (l.heap c).fd,
                fdconns := Function.update l.fdconns (l.heap c).fd none }.emit
        (Ev.SetNonblock (l.heap c).fd false)) :=
    { idx := rfl
      heap := fun _ _ => rfl
      fd := rfl
      lnidx := rfl
      opened := id
      map := fun fd => by
        by_cases h : fd = (l.heap c).fd
        · exact Or.inr ⟨h, by simp [h]⟩
        · exact Or.inl (by simp [Function.update_noteq h])
      interest := fun fd hfd => by simp [Poll.ModDetach, Function.update_noteq hfd]
      registered := fun _ h => by simp at h
      notes := rfl
      opened_eq := rfl
      log := ⟨[_], rfl, by simpa using hP.setNonblock _ _⟩ }
  simp only [loopDetachConn]; split
  · exact loopCloseConn_run _ _ _ _ hP
  · split
    · exact h3
    · split <;> exact h3.run_trans (Run.run_emit _ _ (hP.onDetached _ _ rfl))

theorem loopDetachConn_removed (s : server) (l : loop) (c : Nat) (err : Option Error) (sys : Sys) :
    (loopDetachConn s l c err sys).2.fdconns (l.heap c).fd = none := by
  simp only [loopDetachConn]; split
  · simp
  · split
    · simp
    · split <;> simp

theorem loopWake_run (s : server) (l : loop) (c : Nat) (sys : Sys)
    {P : Ev → Prop} (hP : Allows P c (l.heap c).opened) :
    Run P c l (loopWake s l c sys).2 := by
  simp only [loopWake]; split
  · exact Run.run_refl P c l
  · exact (react_run _ _ _ _ _ hP).run_trans (modReadWriteIfPending_run P c _)

theorem loopWake_err (s : server) (l : loop) (c : Nat) (sys : Sys) :
    (loopWake s l c sys).1 = none := by
  simp only [loopWake]; split <;> rfl

theorem loopWrite_run (s : server) (l : loop) (c : Nat) (sys : Sys)
    {P : Ev → Prop} (hP : Allows P c (l.heap c).opened) :
    Run P c l (loopWrite s l c sys).2 := by
  have h0 : Run P c l (if s.events.PreWrite then l.emit Ev.PreWrite else l) := by
    split
    · exact Run.run_emit _ _ hP.preWrite
    · exact Run.run_refl P c l
  have hP0 : Allows P c ((if s.events.PreWrite then l.emit Ev.PreWrite else l).heap c).opened := by
    rw [h0.opened_eq]; exact hP
  simp only [loopWrite]
  generalize (if s.events.PreWrite then l.emit Ev.PreWrite else l) = l0 at h0 hP0
  have h1 : Run P c l (l0.emit (Ev.Write (l0.heap c).fd (ringbuffer.Bytes (l0.heap c).outBuf)
      sys.write)) := h0.run_trans (Run.run_emit _ _ (hP.write _ _ _))
  split
  · split
    · exact h1
    · exact h1.run_trans (loopCloseConn_run _ _ _ _ (by simpa using hP0))
  · exact (h1.run_trans (Run.run_setConn P _ _ (by simp) (by simp) (by simp))).run_trans
      (modReadIfIdle_run P c _)

theorem loopAction_run (s : server) (l : loop) (c : Nat) (sys : Sys)
    {P : Ev → Prop} (hP : Allows P c (l.heap c).opened) :
    Run P c l (loopAction s l c sys).2 := by
  simp only [loopAction]; split
  · exact loopCloseConn_run _ _ _ _ hP
  · exact Run.run_refl P c l
  · exact loopDetachConn_run _ _ _ _ _ hP
  · exact Run.run_trans (Run.run_setConn P l { l.heap c with action := Action.None } rfl rfl rfl)
      (modReadIfIdle_run P c _)

theorem loopRead_run (s : server) (l : loop) (c : Nat) (sys : Sys)
    {P : Ev → Prop} (hP : Allows P c (l.heap c).opened) (hR : ∀ fd, P (Ev.Read fd)) :
    Run P c l (loopRead s l c sys).2 := by
  have h0 : Run P c l (l.emit (Ev.Read (l.heap c).fd)) := Run.run_emit _ _ (hR _)
  simp only [loopRead]; split
  · split
    · exact h0
    · exact h0.run_trans (loopCloseConn_run _ _ _ _ (by simpa using hP))
  · split
    · exact h0.run_trans (loopCloseConn_run _ _ _ _ (by simpa using hP))
    · have h1 : Run P c l ((l.emit (Ev.Read (l.heap c).fd)).setConn c
          { l.heap c with
            inBuf := ringbuffer.Write (l.heap c).inBuf (sys.packet.take ‹_›) }) :=
        h0.run_trans (Run.run_setConn P _ _ rfl rfl rfl)
      refine Run.run_trans ?_ (modReadWriteIfPending_run P c _)
      split
      · exact h1
      · exact h1.run_trans (react_run _ _ _ _ _ (by simpa using hP))

theorem loopOpened_ret (s : server) (l : loop) (c : Nat) (sys : Sys) (err : Option Error)
    (l' : loop) (h : loopOpened s l c sys = Outcome.ret err l') :
    err = none ∧ ∃ ln, s.ln (l.heap c).lnidx = some ln ∧
      l' = (match s.events.OnOpened with
            | none => l.setConn c
                { l.heap c with opened := true, addrIndex := (l.heap c).lnidx,
                                localAddr := ln.lnaddr,
                                remoteAddr := s.SockaddrToAddr (l.heap c).sa }
            | some f => onOpened s (l.setConn c
                { l.heap c with opened := true, addrIndex := (l.heap c).lnidx,
                                localAddr := ln.lnaddr,
                                remoteAddr := s.SockaddrToAddr (l.heap c).sa }) c ln f
                sys).modReadIfIdle c := by
  simp only [loopOpened] at h
  cases hln : s.ln (l.heap c).lnidx with
  | none => simp [hln] at h
  | some ln =>
    simp only [hln, Outcome.ret.injEq] at h
    exact ⟨h.1.symm, ln, rfl, h.2.symm⟩

theorem Touch.touch_setConn {c : Nat} (l : loop) (v : conn)
    (hfd : v.fd = (l.heap c).fd) (hln : v.lnidx = (l.heap c).lnidx)
    (ho : (l.heap c).opened = true → v.opened = true) : Touch c l (l.setConn c v) where
  idx := rfl
  heap := fun r hr => by simp [Function.update_noteq hr]
  fd := by simp [hfd]
  lnidx := by simp [hln]
  opened := by simpa using ho
  map := fun _ => Or.inl rfl
  interest := fun _ _ => rfl
  registered := fun h _ => h
  notes := rfl

/-- What `loopOpened` does when it returns: it returns nil, the connection
is opened, and the log grows by the `OnOpened` event (when the callback is
supplied) followed by events of a transition on an opened connection. -/
theorem loopOpened_run (s : server) (l : loop) (c : Nat) (sys : Sys) (err : Option Error)
    (l' : loop) (h : loopOpened s l c sys = Outcome.ret err l')
    {P : Ev → Prop} (hP : Allows P c true) :
    err = none ∧ Touch c l l' ∧ (l'.heap c).opened = true ∧ l'.poll.notes = l.poll.notes ∧
      ∃ evs, (∀ e ∈ evs, P e) ∧
        l'.log = l.log ++ (match s.events.OnOpened with
          | none => evs
          | some _ => Ev.OnOpened c
              { l.heap c with opened := true, addrIndex := (l.heap c).lnidx,
                              localAddr := ((s.ln (l.heap c).lnidx).map (·.lnaddr)).join,
                              remoteAddr := s.SockaddrToAddr (l.heap c).sa } :: evs) := by
  obtain ⟨he, ln, hln, hl'⟩ := loopOpened_ret s l c sys err l' h
  refine ⟨he, ?_⟩
  have t1 : Touch c l (l.setConn c
      { l.heap c with opened := true, addrIndex := (l.heap c).lnidx, localAddr := ln.lnaddr,
                      remoteAddr := s.SockaddrToAddr (l.heap c).sa }) :=
    Touch.touch_setConn l _ rfl rfl (fun _ => rfl)
  generalize hl1 : l.setConn c
      { l.heap c with opened := true, addrIndex := (l.heap c).lnidx, localAddr := ln.lnaddr,
                      remoteAddr := s.SockaddrToAddr (l.heap c).sa } = l1 at hl' t1
  have ho1 : (l1.heap c).opened = true := by rw [← hl1]; simp
  have hlog1 : l1.log = l.log := by rw [← hl1]; rfl
  have hc1 : l1.heap c =
      { l.heap c with opened := true, addrIndex := (l.heap c).lnidx, localAddr := ln.lnaddr,
                      remoteAddr := s.SockaddrToAddr (l.heap c).sa } := by
    rw [← hl1]; simp
  cases hO : s.events.OnOpened with
  | none =>
    simp only [hO] at hl'
    have r := modReadIfIdle_run P c l1
    rw [← hl'] at r
    obtain ⟨evs, hevs, hp⟩ := r.log
    exact ⟨t1.touch_trans r.toTouch, by rw [r.opened_eq]; exact ho1,
      r.notes.trans t1.notes, evs, hp, by simp [hevs, hlog1]⟩
  | some f =>
    simp only [hO] at hl'
    obtain ⟨la, ra, hla, rb⟩ := onOpened_run s l1 c ln f sys (P := P) (by rw [ho1]; exact hP)
    have r := rb.run_trans (modReadIfIdle_run P c _)
    rw [← hl'] at r
    obtain ⟨evs, hevs, hp⟩ := r.log
    refine ⟨t1.touch_trans (ra.toTouch.touch_trans r.toTouch), ?_,
      (r.notes.trans ra.notes).trans t1.notes, evs, hp, ?_⟩
    · rw [r.opened_eq, ra.opened_eq]; exact ho1
    · simp [hevs, hla, hlog1, hc1, hln]

/-- The events of `loopOpened` satisfy any predicate that admits the events
of a transition on an opened connection and `OnOpened` itself. -/
theorem loopOpened_log (s : server) (l : loop) (c : Nat) (sys : Sys) (err : Option Error)
    (l' : loop) (h : loopOpened s l c sys = Outcome.ret err l')
    {P : Ev → Prop} (hP : Allows P c true) (hO : ∀ snap, P (Ev.OnOpened c snap)) :
    LogExt P l l' := by
  obtain ⟨_, _, _, _, evs, hp, hlog⟩ := loopOpened_run s l c sys err l' h hP
  cases hOn : s.events.OnOpened with
  | none => exact ⟨evs, by simpa [hOn] using hlog, hp⟩
  | some f =>
    refine ⟨_ :: evs, by simpa [hOn] using hlog, ?_⟩
    intro e he
    rcases List.mem_cons.1 he with rfl | he
    · exact hO _
    · exact hp e he

/-! ## The four branches of the poll callback -/

theorem activateSubReactor_open (s : server) (l : loop) (fd : Int) (note : Note) (sys : Sys)
    (c : Nat) (hfd : fd ≠ 0) (hc : l.fdconns fd = some c) (ho : (l.heap c).opened = false) :
    activateSubReactor s l fd note sys = loopOpened s l c sys := by
  simp [activateSubReactor, hfd, hc, ho]

theorem activateSubReactor_write (s : server) (l : loop) (fd : Int) (note : Note) (sys : Sys)
    (c : Nat) (hfd : fd ≠ 0) (hc : l.fdconns fd = some c) (ho : (l.heap c).opened = true)
    (hb : (l.heap c).outBuf ≠ []) :
    activateSubReactor s l fd note sys = Outcome.of (loopWrite s l c sys) := by
  simp [activateSubReactor, hfd, hc, ho, hb]

theorem activateSubReactor_action (s : server) (l : loop) (fd : Int) (note : Note) (sys : Sys)
    (c : Nat) (hfd : fd ≠ 0) (hc : l.fdconns fd = some c) (ho : (l.heap c).opened = true)
    (hb : (l.heap c).outBuf = []) (ha : (l.heap c).action ≠ Action.None) :
    activateSubReactor s l fd note sys = Outcome.of (loopAction s l c sys) := by
  simp [activateSubReactor, hfd, hc, ho, hb, ha]

theorem activateSubReactor_read (s : server) (l : loop) (fd : Int) (note : Note) (sys : Sys)
    (c : Nat) (hfd : fd ≠ 0) (hc : l.fdconns fd = some c) (ho : (l.heap c).opened = true)
    (hb : (l.heap c).outBuf = []) (ha : (l.heap c).action = Action.None) :
    activateSubReactor s l fd note sys = Outcome.of (loopRead s l c sys) := by
  simp [activateSubReactor, hfd, hc, ho, hb, ha]

theorem Outcome.of_eq_ret (r : Option Error × loop) (err : Option Error) (l' : loop) :
    Outcome.of r = Outcome.ret err l' ↔ r.1 = err ∧ r.2 = l' := by
  simp [Outcome.of]

/-! ## C1: the priority of the poll callback -/

/-- The events that are not a `read` syscall. -/
theorem allows_not_read (c : Nat) (o : Bool) :
    Allows (fun e => ∀ rfd, e ≠ Ev.Read rfd) c o :=
  ⟨by simp, by simp, by simp, by simp, by simp, by simp, by simp, by simp⟩

theorem no_read_of_logExt {l l' : loop} (h : LogExt (fun e => ∀ rfd, e ≠ Ev.Read rfd) l l')
    (rfd : Int) : Ev.Read rfd ∉ l'.log.drop l.log.length := by
  obtain ⟨evs, hevs, hp⟩ := h
  rw [hevs, List.drop_left]
  exact fun hm => hp _ hm rfd rfl

/-- C1. For a poll event on a descriptor `fd != 0` whose connection `c` is in
the map, the sub-reactor callback and the monolithic callback do the same
thing, and that is exactly one transition chosen by priority: `loopOpened`
when `c` is not opened; else `loopWrite` when its outbound buffer is
non-empty; else `loopAction` when its action is not `None`; else `loopRead`.
In particular a `read` syscall is issued only when `c` is opened, its
outbound buffer is empty and its action is `None`. -/
theorem poll_callback_priority (s : server) (l : loop) (fd : Int) (note : Note) (sys : Sys)
    (c : Nat) (hfd : fd ≠ 0) (hc : l.fdconns fd = some c) :
    loopRun s l fd note sys = activateSubReactor s l fd note sys ∧
    ((l.heap c).opened = false →
      activateSubReactor s l fd note sys = loopOpened s l c sys) ∧
    ((l.heap c).opened = true → ringbuffer.Length (l.heap c).outBuf > 0 →
      activateSubReactor s l fd note sys = Outcome.of (loopWrite s l c sys)) ∧
    ((l.heap c).opened = true → ringbuffer.Length (l.heap c).outBuf = 0 →
      (l.heap c).action ≠ Action.None →
      activateSubReactor s l fd note sys = Outcome.of (loopAction s l c sys)) ∧
    ((l.heap c).opened = true → ringbuffer.Length (l.heap c).outBuf = 0 →
      (l.heap c).action = Action.None →
      activateSubReactor s l fd note sys = Outcome.of (loopRead s l c sys)) ∧
    (∀ err l' rfd, activateSubReactor s l fd note sys = Outcome.ret err l' →
      Ev.Read rfd ∈ l'.log.drop l.log.length →
      (l.heap c).opened = true ∧ ringbuffer.Length (l.heap c).outBuf = 0 ∧
        (l.heap c).action = Action.None) := by
  refine ⟨by simp [loopRun, activateSubReactor, hfd, hc], ?_, ?_, ?_, ?_, ?_⟩
  · exact activateSubReactor_open s l fd note sys c hfd hc
  · intro ho hb
    exact activateSubReactor_write s l fd note sys c hfd hc ho (by simpa using hb)
  · intro ho hb ha
    exact activateSubReactor_action s l fd note sys c hfd hc ho (by simpa using hb) ha
  · intro ho hb ha
    exact activateSubReactor_read s l fd note sys c hfd hc ho (by simpa using hb) ha
  · intro err l' rfd h hr
    by_cases ho : (l.heap c).opened = false
    · rw [activateSubReactor_open s l fd note sys c hfd hc ho] at h
      exact absurd hr (no_read_of_logExt
        (loopOpened_log s l c sys err l' h (allows_not_read c true) (by simp)) rfd)
    · simp only [Bool.not_eq_false] at ho
      refine ⟨ho, ?_⟩
      by_cases hb : (l.heap c).outBuf = []
      · refine ⟨by simpa using hb, ?_⟩
        by_contra ha
        rw [activateSubReactor_action s l fd note sys c hfd hc ho hb ha,
          Outcome.of_eq_ret] at h
        have := (loopAction_run s l c sys (allows_not_read c _)).log
        rw [h.2] at this
        exact absurd hr (no_read_of_logExt this rfd)
      · rw [activateSubReactor_write s l fd note sys c hfd hc ho hb, Outcome.of_eq_ret] at h
        have := (loopWrite_run s l c sys (allows_not_read c _)).log
        rw [h.2] at this
        exact absurd hr (no_read_of_logExt this rfd)

/-- C1 on descriptor 7, whose connection is opened and has a byte waiting to
go out: the callback runs the Write transition. -/
theorem poll_callback_priority_witness :
    activateSubReactor exServerCb (exLoop7 exConn) 7 Note.nil exSys =
      Outcome.of (loopWrite exServerCb (exLoop7 exConn) 1 exSys) :=
  (poll_callback_priority exServerCb (exLoop7 exConn) 7 Note.nil exSys 1 (by decide) rfl).2.2.1
    rfl (by decide)

/-! ## C2, C3, C10: the round-robin rule of `Consume` -/

theorem consumeOne_eq (s : server) (ring : Nat → Option Nat) (l : loop) (S : Int) (c : Nat)
    (hc : ring (ringSlot S) = some c) :
    ∃ l', consumeOne s ring l S = some l' ∧ l'.idx = l.idx ∧ l'.fdconns = l.fdconns ∧
      l'.log = l.log ∧ l'.poll.interest = l.poll.interest ∧
      l'.heap = Function.update l.heap c
        { l.heap c with inBuf := ringbuffer.New RingBufferSize,
                        outBuf := ringbuffer.New RingBufferSize, loop := some l.idx } ∧
      l'.poll.notes = l.poll.notes ++
        if owns s l S then [Note.signal { fd := (l.heap c).fd, c := some c }] else [] := by
  simp only [consumeOne, hc, owns]
  split
  · refine ⟨_, rfl, rfl, rfl, rfl, rfl, ?_, ?_⟩
    · simp
    · rename_i h; simp [h]
  · refine ⟨_, rfl, rfl, rfl, rfl, rfl, ?_, ?_⟩
    · simp
    · rename_i h; simp [h, Poll.Trigger]

theorem handoff_congr (ring : Nat → Option Nat) (l l1 : loop)
    (h : ∀ r, (l1.heap r).fd = (l.heap r).fd) : handoff ring l1 = handoff ring l := by
  funext S
  simp [handoff, h]

theorem wrap64_eq (x : Int) (h1 : -2 ^ 63 ≤ x) (h2 : x < 2 ^ 63) : wrap64 x = x := by
  unfold wrap64
  have : (x + 2 ^ 63) % 2 ^ 64 = x + 2 ^ 63 := Int.emod_eq_of_lt (by omega) (by omega)
  omega

theorem consumeLoop_spec (s : server) (ring : Nat → Option Nat) (upper : Int)
    (hup : upper < 2 ^ 63 - 1) :
    ∀ (k fuel : Nat) (l : loop) (lower : Int), (upper + 1 - lower).toNat = k → k < fuel →
      -2 ^ 63 ≤ lower →
      (∀ S, lower ≤ S → S ≤ upper → ring (ringSlot S) ≠ none) →
      ∃ l', consumeLoop s ring fuel l lower upper = Consumed.done l' ∧ l'.idx = l.idx ∧
        (∀ r, (l'.heap r).fd = (l.heap r).fd) ∧
        l'.poll.notes = l.poll.notes ++
          (((List.range k).map (fun j : Nat => lower + (j : Int))).filter
            (fun S => decide (owns s l S))).filterMap (handoff ring l) := by
  intro k
  induction k with
  | zero =>
    intro fuel l lower hk hf _ _
    obtain ⟨fuel', rfl⟩ := Nat.exists_eq_succ_of_ne_zero (by omega : fuel ≠ 0)
    have hgt : ¬ lower ≤ upper := by omega
    exact ⟨l, by simp [consumeLoop, hgt], rfl, fun _ => rfl, by simp⟩
  | succ k ih =>
    intro fuel l lower hk hf hlo hs
    obtain ⟨fuel', rfl⟩ := Nat.exists_eq_succ_of_ne_zero (by omega : fuel ≠ 0)
    have hle : lower ≤ upper := by omega
    obtain ⟨c, hc⟩ := Option.ne_none_iff_exists'.1 (hs lower (le_refl _) hle)
    obtain ⟨l1, h1, hidx, _, _, _, hheap, hnotes⟩ := consumeOne_eq s ring l lower c hc
    have hfd : ∀ r, (l1.heap r).fd = (l.heap r).fd := by
      intro r
      rw [hheap]
      by_cases hr : r = c
      · subst hr; simp
      · simp [Function.update_noteq hr]
    obtain ⟨l2, h2, hidx2, hfd2, hnotes2⟩ := ih fuel' l1 (lower + 1) (by omega) (by omega)
      (by omega) (fun S hS1 hS2 => hs S (by omega) hS2)
    refine ⟨l2, ?_, hidx2.trans hidx, fun r => (hfd2 r).trans (hfd r), ?_⟩
    · simp only [consumeLoop, hle, if_true, h1]
      rw [wrap64_eq (lower + 1) (by omega) (by omega)]
      exact h2
    have hcl : ∀ S, owns s l1 S ↔ owns s l S := by
      intro S; simp [owns, hidx]
    rw [hnotes2, hnotes, handoff_congr ring l l1 hfd, List.range_succ_eq_map, List.map_cons,
      List.map_map, List.filter_cons, List.append_assoc]
    congr 1
    have hmap : ((fun j : Nat => lower + (j : Int)) ∘ Nat.succ) =
        (fun j : Nat => lower + 1 + (j : Int)) := by
      funext j; simp; ring
    by_cases hcS : owns s l lower
    · simp [hcS, hcl, hmap, handoff, hc]
    · simp [hcS, hcl, hmap]

theorem Consume_spec (s : server) (ring : Nat → Option Nat) (l : loop) (fuel : Nat)
    (lower upper : Int) (hlo : -2 ^ 63 ≤ lower) (hup : upper < 2 ^ 63 - 1)
    (hfuel : (upper + 1 - lower).toNat < fuel)
    (hs : ∀ S, lower ≤ S → S ≤ upper → ring (ringSlot S) ≠ none) :
    ∃ l', eventConsumer.Consume ⟨s, l⟩ ring fuel lower upper = Consumed.done l' ∧
      l'.poll.notes = l.poll.notes ++
        ((seqs lower upper).filter (fun S => decide (owns s l S))).filterMap
          (handoff ring l) := by
  obtain ⟨l', h, _, _, hn⟩ :=
    consumeLoop_spec s ring upper hup (upper + 1 - lower).toNat fuel l lower rfl hfuel hlo hs
  exact ⟨l', h, by rw [hn, seqs]⟩

theorem triggersAt_iff (s : server) (ring : Nat → Option Nat) (l : loop) (S : Int)
    (hs : ring (ringSlot S) ≠ none) : triggersAt s ring l S ↔ owns s l S := by
  obtain ⟨c, hc⟩ := Option.ne_none_iff_exists'.1 hs
  obtain ⟨l1, h1, _, _, _, _, _, hnotes⟩ := consumeOne_eq s ring l S c hc
  simp only [triggersAt, h1, hnotes]
  by_cases h : owns s l S <;> simp [h]

theorem owns_iff_mod (s : server) (l : loop) (S : Int) (hN : 1 < s.numLoops) (hS : 0 ≤ S) :
    owns s l S ↔ S % s.numLoops = l.idx := by
  simp [owns, hN, Int.tmod_eq_emod hS (by omega : (0 : Int) ≤ s.numLoops)]

theorem mem_seqs (lower upper S : Int) : S ∈ seqs lower upper ↔ lower ≤ S ∧ S ≤ upper := by
  simp only [seqs, List.mem_map, List.mem_range]
  constructor
  · rintro ⟨j, hj, rfl⟩; omega
  · intro h; exact ⟨(S - lower).toNat, by omega, by omega⟩

/-- C2. With `N > 1` loops, for the sequences `S >= 0` of a range handed to
`Consume` (whose slots hold connections; the range ends below the largest
`int64`, and the fuel covers it), the consumer of loop `i` issues a Trigger at
`S` if and only if `S mod N = i`; `Consume` returns, and the notes it
Triggered over the whole range are exactly the signals `signal{fd, conn}` of
those sequences, one each and in order; each sequence is Triggered by exactly
one of the loop indices `0..N-1`.  With at most one loop the consumer
Triggers at every sequence. -/
theorem consume_round_robin (s : server) (ring : Nat → Option Nat) (l : loop) (fuel : Nat)
    (lower upper : Int) (hlo : 0 ≤ lower) (hup : upper < 2 ^ 63 - 1)
    (hfuel : (upper + 1 - lower).toNat < fuel)
    (hs : ∀ S, lower ≤ S → S ≤ upper → ring (ringSlot S) ≠ none) :
    (1 < s.numLoops →
      (∀ S, lower ≤ S → S ≤ upper →
        (triggersAt s ring l S ↔ S % s.numLoops = l.idx)) ∧
      (∃ l', eventConsumer.Consume ⟨s, l⟩ ring fuel lower upper = Consumed.done l' ∧
        l'.poll.notes = l.poll.notes ++
          ((seqs lower upper).filter (fun S => decide (S % s.numLoops = l.idx))).filterMap
            (handoff ring l)) ∧
      (∀ S, lower ≤ S → S ≤ upper →
        ∃! i : Int, (0 ≤ i ∧ i < s.numLoops) ∧ triggersAt s ring { l with idx := i } S)) ∧
    (s.numLoops ≤ 1 →
      (∀ S, lower ≤ S → S ≤ upper → triggersAt s ring l S) ∧
      (∃ l', eventConsumer.Consume ⟨s, l⟩ ring fuel lower upper = Consumed.done l' ∧
        l'.poll.notes = l.poll.notes ++ (seqs lower upper).filterMap (handoff ring l))) := by
  constructor
  · intro hN
    refine ⟨?_, ?_, ?_⟩
    · intro S h1 h2
      rw [triggersAt_iff s ring l S (hs S h1 h2), owns_iff_mod s l S hN (by omega)]
    · obtain ⟨l', h, hn⟩ :=
        Consume_spec s ring l fuel lower upper (by omega) hup hfuel hs
      refine ⟨l', h, ?_⟩
      rw [hn]
      congr 2
      apply List.filter_congr
      intro S hS
      have := (mem_seqs lower upper S).1 hS
      simp [owns_iff_mod s l S hN (by omega)]
    · intro S h1 h2
      refine ⟨S % s.numLoops, ⟨⟨Int.emod_nonneg _ (by omega), Int.emod_lt_of_pos _ (by omega)⟩,
        ?_⟩, ?_⟩
      · rw [triggersAt_iff s ring _ S (hs S h1 h2), owns_iff_mod s _ S hN (by omega)]
      · rintro i ⟨_, hi⟩
        rw [triggersAt_iff s ring _ S (hs S h1 h2), owns_iff_mod s _ S hN (by omega)] at hi
        exact hi.symm
  · intro hN
    have hcl : ∀ S, owns s l S := by
      intro S; simp only [owns]; intro h; omega
    refine ⟨?_, ?_⟩
    · intro S h1 h2
      rw [triggersAt_iff s ring l S (hs S h1 h2)]
      exact hcl S
    · obtain ⟨l', h, hn⟩ :=
        Consume_spec s ring l fuel lower upper (by omega) hup hfuel hs
      refine ⟨l', h, ?_⟩
      rw [hn]
      congr 2
      simp [hcl]

/-- C2 at two loops: over the sequences 0..3 the consumer of loop 1 hands off
the connections of sequences 1 and 3. -/
theorem consume_round_robin_witness :
    (∀ S : Int, 0 ≤ S → S ≤ 3 →
      (triggersAt (exServer 2) (fun _ => some 0) (exLoop 1 exConn) S ↔ S % 2 = 1)) ∧
    (∃ l', eventConsumer.Consume ⟨exServer 2, exLoop 1 exConn⟩ (fun _ => some 0) 5 0 3 =
        Consumed.done l' ∧
      l'.poll.notes = [Note.signal ⟨7, some 0⟩, Note.signal ⟨7, some 0⟩]) := by
  have h := (consume_round_robin (exServer 2) (fun _ => some 0) (exLoop 1 exConn) 5 0 3
    (by decide) (by decide) (by decide) (by simp)).1 (by decide)
  refine ⟨h.1, ?_⟩
  obtain ⟨l', h1, h2⟩ := h.2.1
  exact ⟨l', h1, by rw [h2]; decide⟩

/-- C3 (the code departs from the claim). At a sequence that the round-robin
rule gives to another loop, the iteration of `Consume` issues no Trigger, but
it has already replaced the inbound and outbound buffers of the connection
in the slot by fresh ones and pointed its `loop` field at the consumer's own
loop; everything else is left as it was. -/
theorem consume_skip_mutates (s : server) (ring : Nat → Option Nat) (l : loop) (S : Int)
    (c : Nat) (hN : 1 < s.numLoops) (hS : 0 ≤ S) (hc : ring (ringSlot S) = some c)
    (hown : S % s.numLoops ≠ l.idx) :
    ∃ l', consumeOne s ring l S = some l' ∧
      l'.poll.notes = l.poll.notes ∧
      (l'.heap c).inBuf = [] ∧ (l'.heap c).outBuf = [] ∧ (l'.heap c).loop = some l.idx ∧
      (∀ r, r ≠ c → l'.heap r = l.heap r) ∧
      l'.fdconns = l.fdconns ∧ l'.log = l.log ∧ l'.poll.interest = l.poll.interest := by
  obtain ⟨l', h, _, hm, hlog, hint, hheap, hnotes⟩ := consumeOne_eq s ring l S c hc
  have hcl : ¬ owns s l S := by rwa [owns_iff_mod s l S hN hS]
  refine ⟨l', h, by simpa [hcl] using hnotes, ?_, ?_, ?_, ?_, hm, hlog, hint⟩
  · simp [hheap, ringbuffer.New]
  · simp [hheap, ringbuffer.New]
  · simp [hheap]
  · intro r hr; simp [hheap, Function.update_noteq hr]

/-- C3 at two loops: sequence 0 belongs to loop 0, whose connection on
descriptor 7 holds buffered bytes; `Consume(0, 0)` run by the consumer of
loop 1 empties both buffers and sets the `loop` field to loop 1. -/
theorem consume_skip_mutates_witness :
    ((exLoop 1 exConn).heap 0).inBuf = [1, 2] ∧ ((exLoop 1 exConn).heap 0).outBuf = [3] ∧
    ((exLoop 1 exConn).heap 0).loop = some 0 ∧
    ∃ l', eventConsumer.Consume ⟨exServer 2, exLoop 1 exConn⟩ (fun _ => some 0) 2 0 0 =
        Consumed.done l' ∧
      l'.poll.notes = [] ∧
      (l'.heap 0).inBuf = [] ∧ (l'.heap 0).outBuf = [] ∧ (l'.heap 0).loop = some 1 := by
  obtain ⟨l', h, hn, h1, h2, h3, _⟩ :=
    consume_skip_mutates (exServer 2) (fun _ => some 0) (exLoop 1 exConn) 0 0
      (by decide) (by decide) rfl (by decide)
  refine ⟨rfl, rfl, rfl, l', ?_, hn, h1, h2, h3⟩
  have hw : wrap64 (0 + 1) = 1 := by decide
  have hgt : ¬ (1 : Int) ≤ 0 := by decide
  simp only [eventConsumer.Consume, consumeLoop, le_refl, if_true, h, hw, hgt, if_false]

theorem length_filterMap_of_isSome {α β : Type} (f : α → Option β) :
    ∀ L : List α, (∀ x ∈ L, f x ≠ none) → (L.filterMap f).length = L.length
  | [], _ => rfl
  | x :: L, h => by
    obtain ⟨y, hy⟩ := Option.ne_none_iff_exists'.1 (h x (List.mem_cons_self _ _))
    rw [List.filterMap_cons_some hy, List.length_cons, List.length_cons,
      length_filterMap_of_isSome f L (fun z hz => h z (List.mem_cons_of_mem _ hz))]

theorem seqs_zero (K : Nat) : seqs 0 ((K : Int) - 1) = (List.range K).map (fun j : Nat => (j : Int)) := by
  have : ((K : Int) - 1 + 1 - 0).toNat = K := by omega
  simp [seqs, this]

theorem owns_iff_modEq (s : server) (l : loop) (N i j : Nat) (hN : 1 ≤ N)
    (hn : s.numLoops = N) (hi : l.idx = i) (hiN : i < N) :
    owns s l (j : Int) ↔ j ≡ i [MOD N] := by
  rcases Nat.lt_or_ge 1 N with h1 | h1
  · rw [owns_iff_mod s l j (by rw [hn]; exact_mod_cast h1) (by omega), hn, hi]
    rw [Nat.ModEq, Nat.mod_eq_of_lt hiN]
    constructor
    · intro h; exact_mod_cast h
    · intro h; exact_mod_cast h
  · have hN1 : N = 1 := by omega
    subst hN1
    have hcl : owns s l (j : Int) := by
      simp only [owns, hn]; intro h; omega
    simp [hcl, Nat.modEq_one]

/-- C10. With `N >= 1` loops, when the sequences `0, 1, ..., K-1` have been
published (their slots hold connections; `K` is an `int64` count and the fuel
exceeds it), `Consume(0, K-1)` run by the consumer of loop `i` in `[0, N)`
returns having Triggered its loop `ceil((K - i) / N)` times (which is 0 when
`K <= i`), and that is the number of sequences below `K` at which it issues a
Trigger. -/
theorem round_robin_count (s : server) (ring : Nat → Option Nat) (l : loop) (N K i : Nat)
    (fuel : Nat) (hN : 1 ≤ N) (hn : s.numLoops = N) (hi : l.idx = i) (hiN : i < N)
    (hK : (K : Int) < 2 ^ 63) (hfuel : K < fuel)
    (hs : ∀ S : Int, 0 ≤ S → S < K → ring (ringSlot S) ≠ none) :
    ∃ l' added, eventConsumer.Consume ⟨s, l⟩ ring fuel 0 ((K : Int) - 1) = Consumed.done l' ∧
      l'.poll.notes = l.poll.notes ++ added ∧
      (added.length : Int) = ⌈((K : ℚ) - i) / N⌉ ∧
      (K ≤ i → added.length = 0) ∧
      (List.range K).countP (fun S : Nat => decide (triggersAt s ring l (S : Int))) =
        added.length := by
  obtain ⟨l', h, hnotes⟩ := Consume_spec s ring l fuel 0 ((K : Int) - 1) (by omega) (by omega)
    (by omega) (fun S h1 h2 => hs S h1 (by omega))
  have hcount : (((seqs 0 ((K : Int) - 1)).filter (fun S => decide (owns s l S))).filterMap
      (handoff ring l)).length = Nat.count (fun j => j ≡ i [MOD N]) K := by
    rw [length_filterMap_of_isSome]
    · rw [seqs_zero, ← List.countP_eq_length_filter, List.countP_map, Nat.count]
      apply List.countP_congr
      intro j _
      simp [owns_iff_modEq s l N i j hN hn hi hiN]
    · intro S hS
      have hm := (mem_seqs _ _ S).1 (List.mem_of_mem_filter hS)
      simpa [handoff] using hs S hm.1 (by omega)
  have hceil := Nat.count_modEq_card_eq_ceil K (r := N) (by omega) i
  rw [Nat.mod_eq_of_lt hiN] at hceil
  refine ⟨l', _, h, hnotes, ?_, ?_, ?_⟩
  · rw [hcount]; exact hceil
  · intro hK
    rw [hcount, Nat.count_eq_card_filter_range, Finset.card_eq_zero,
      Finset.filter_eq_empty_iff]
    intro j hj hmod
    have hjK := Finset.mem_range.1 hj
    have : j % N = i := by rw [← Nat.mod_eq_of_lt hiN]; exact hmod
    have : j % N ≤ j := Nat.mod_le _ _
    omega
  · rw [hcount, Nat.count]
    apply List.countP_congr
    intro j hj
    have hj' := List.mem_range.1 hj
    simp [triggersAt_iff s ring l j (hs j (by omega) (by omega)),
      owns_iff_modEq s l N i j hN hn hi hiN]

/-- C10 at three loops and seven published connections: loop 1 receives
`ceil((7 - 1) / 3) = 2` of them. -/
theorem round_robin_count_witness :
    ∃ l' added, eventConsumer.Consume ⟨exServer 3, exLoop 1 exConn⟩ (fun _ => some 0) 8 0 6 =
        Consumed.done l' ∧
      l'.poll.notes = added ∧ (added.length : Int) = ⌈((7 : ℚ) - 1) / 3⌉ ∧
      added.length = 2 := by
  obtain ⟨l', added, h1, h2, h3, _, _⟩ :=
    round_robin_count (exServer 3) (fun _ => some 0) (exLoop 1 exConn) 3 7 1 8
      (by decide) rfl rfl (by decide) (by decide) (by decide) (by simp)
  have h3' : (added.length : Int) = ⌈((7 : ℚ) - 1) / 3⌉ := by exact_mod_cast h3
  refine ⟨l', added, h1, by simpa [exLoop] using h2, h3', ?_⟩
  have : ⌈((7 : ℚ) - 1) / 3⌉ = 2 := by
    rw [Int.ceil_eq_iff]; norm_num
  omega

/-! ## C4: an event for a descriptor the sub-reactor does not know -/

/-- C4 (the code departs from the claim). On a poll event for a descriptor
`fd != 0` that is not in the loop's map, the sub-reactor callback does not
drop the event: after printing, it evaluates `c.opened` on the nil pointer
and faults. -/
theorem subreactor_unknown_fd_faults (s : server) (l : loop) (fd : Int) (note : Note)
    (sys : Sys) (hfd : fd ≠ 0) (habs : l.fdconns fd = none) :
    activateSubReactor s l fd note sys = Outcome.panic := by
  simp [activateSubReactor, hfd, habs]

/-- C4 on an empty loop and descriptor 5. -/
theorem subreactor_unknown_fd_faults_witness :
    activateSubReactor (exServer 2) (exLoop 1 exConn) 5 Note.nil exSys = Outcome.panic :=
  subreactor_unknown_fd_faults (exServer 2) (exLoop 1 exConn) 5 Note.nil exSys (by decide) rfl

/-! ## C8: stale wakes -/

/-- C8. On a connection-wake note carrying the connection `v`: when the map
entry for `v.fd` is not `v` (absent, or another connection), `loopNote`
returns nil and leaves the loop exactly as it was, so no callback runs and
the map, the heap and the poller are unchanged; when the entry is `v`, the
result is that of `loopWake` on `v`. -/
theorem stale_wake_dropped (s : server) (l : loop) (v : Nat) (sys : Sys) :
    (l.fdconns (l.heap v).fd ≠ some v →
      loopNote s l (Note.conn (some v)) sys = Outcome.ret none l ∧
      ∀ err l', loopNote s l (Note.conn (some v)) sys = Outcome.ret err l' →
        err = none ∧ l'.log = l.log ∧ l'.fdconns = l.fdconns ∧ l'.heap = l.heap ∧
          l'.poll.interest = l.poll.interest) ∧
    (l.fdconns (l.heap v).fd = some v →
      loopNote s l (Note.conn (some v)) sys = Outcome.of (loopWake s l v sys)) := by
  constructor
  · intro h
    have h1 : loopNote s l (Note.conn (some v)) sys = Outcome.ret none l := by
      simp [loopNote, h]
    refine ⟨h1, ?_⟩
    intro err l' h2
    rw [h1] at h2
    cases h2
    exact ⟨rfl, rfl, rfl, rfl, rfl⟩
  · intro h
    simp [loopNote, h]

/-- C8 on descriptor 7: the map holds the connection at address 1; a wake for
the closed connection at address 0, which had the same descriptor, changes
nothing and logs no `React`, although `React` is supplied. -/
theorem stale_wake_dropped_witness :
    (exLoop7 exConn).fdconns ((exLoop7 exConn).heap 0).fd = some 1 ∧
    loopNote exServerCb (exLoop7 exConn) (Note.conn (some 0)) exSys =
      Outcome.ret none (exLoop7 exConn) :=
  ⟨rfl, ((stale_wake_dropped exServerCb (exLoop7 exConn) 0 exSys).1 (by decide)).1⟩

/-! ## C7: the outbound buffer under repeated writes -/

theorem sent_append (fd : Int) (a b : List Ev) : sent fd (a ++ b) = sent fd a ++ sent fd b := by
  induction a with
  | nil => rfl
  | cons e a ih =>
    cases e with
    | Write wfd buf res =>
      cases res with
      | ok n => by_cases h : wfd = fd <;> simp [sent, h, ih]
      | fail e => simp [sent, ih]
    | _ => simp [sent, ih]

theorem loopWrite_eagain (s : server) (l : loop) (c : Nat) (sys : Sys)
    (h : sys.write = SysRes.fail Errno.EAGAIN) :
    (loopWrite s l c sys).1 = none ∧ (loopWrite s l c sys).2.heap = l.heap ∧
      (loopWrite s l c sys).2.fdconns = l.fdconns ∧ (loopWrite s l c sys).2.poll = l.poll ∧
      sent (l.heap c).fd (loopWrite s l c sys).2.log = sent (l.heap c).fd l.log := by
  cases hp : s.events.PreWrite <;> simp [loopWrite, h, hp, sent_append, sent]

theorem loopWrite_ok (s : server) (l : loop) (c : Nat) (sys : Sys) (n : Nat)
    (h : sys.write = SysRes.ok n) :
    (loopWrite s l c sys).1 = none ∧
      (loopWrite s l c sys).2.heap =
        Function.update l.heap c { l.heap c with outBuf := (l.heap c).outBuf.drop n } ∧
      (loopWrite s l c sys).2.fdconns = l.fdconns ∧
      sent (l.heap c).fd (loopWrite s l c sys).2.log =
        sent (l.heap c).fd l.log ++ (l.heap c).outBuf.take n := by
  cases hp : s.events.PreWrite <;>
    simp [loopWrite, h, hp, sent_append, sent, ringbuffer.Bytes, ringbuffer.Move]

theorem writeRun_sent (s : server) (c : Nat) :
    ∀ (syss : List Sys) (l : loop),
      (∀ sys ∈ syss, sys.write = SysRes.fail Errno.EAGAIN ∨ ∃ n, sys.write = SysRes.ok n) →
      ((writeRun s c syss l).heap c).fd = (l.heap c).fd ∧
      (writeRun s c syss l).fdconns = l.fdconns ∧
      ∃ X, sent (l.heap c).fd (writeRun s c syss l).log = sent (l.heap c).fd l.log ++ X ∧
        X ++ ((writeRun s c syss l).heap c).outBuf = (l.heap c).outBuf := by
  intro syss
  induction syss with
  | nil => intro l _; exact ⟨rfl, rfl, [], by simp [writeRun], by simp [writeRun]⟩
  | cons sys rest ih =>
    intro l hall
    have hrest := fun y hy => hall y (List.mem_cons_of_mem _ hy)
    simp only [writeRun]
    rcases hall sys (List.mem_cons_self _ _) with h | ⟨n, h⟩
    · obtain ⟨_, hheap, hmap, _, hsent⟩ := loopWrite_eagain s l c sys h
      obtain ⟨hfd, hm, X, hX, hB⟩ := ih (loopWrite s l c sys).2 hrest
      rw [hheap] at hfd hX hB
      exact ⟨hfd, hm.trans hmap, X, by rw [hX, hsent], hB⟩
    · obtain ⟨_, hheap, hmap, hsent⟩ := loopWrite_ok s l c sys n h
      obtain ⟨hfd, hm, X, hX, hB⟩ := ih (loopWrite s l c sys).2 hrest
      rw [hheap] at hfd hX hB
      simp only [Function.update_same] at hfd hX hB
      refine ⟨hfd, hm.trans hmap, (l.heap c).outBuf.take n ++ X, ?_, ?_⟩
      · rw [hX, hsent, List.append_assoc]
      · rw [List.append_assoc, hB, List.take_append_drop]

/-- C7. The outbound buffer is a byte sequence, `Bytes` its whole content and
`Move n` the removal of its first `n` bytes.  Let `B` be the outbound content
of a connection and feed any sequence of write outcomes, each EAGAIN or
"accepted `n` bytes", to repeated Write transitions.  An EAGAIN outcome leaves
the buffer (and the whole connection) unchanged; the bytes accepted by the
kernel so far are always a prefix `X` of `B`, with the buffer holding the
rest; once the buffer is empty, `X` is `B`: all its bytes, in order, each
once.  No bound on `n` is needed: an `n` beyond the buffered length accepts
the whole buffer. -/
theorem outbound_bytes_delivered_in_order (s : server) (c : Nat) (l : loop) (syss : List Sys)
    (hall : ∀ sys ∈ syss,
      sys.write = SysRes.fail Errno.EAGAIN ∨ ∃ n, sys.write = SysRes.ok n) :
    (∀ sys, sys.write = SysRes.fail Errno.EAGAIN →
      (loopWrite s l c sys).2.heap = l.heap ∧
      sent (l.heap c).fd (loopWrite s l c sys).2.log = sent (l.heap c).fd l.log) ∧
    ∃ X, sent (l.heap c).fd (writeRun s c syss l).log = sent (l.heap c).fd l.log ++ X ∧
      X ++ ((writeRun s c syss l).heap c).outBuf = (l.heap c).outBuf ∧
      X <+: (l.heap c).outBuf ∧
      (((writeRun s c syss l).heap c).outBuf = [] →
        X = (l.heap c).outBuf ∧ X.length = (l.heap c).outBuf.length) := by
  refine ⟨fun sys h => ⟨(loopWrite_eagain s l c sys h).2.1, (loopWrite_eagain s l c sys h).2.2.2.2⟩,
    ?_⟩
  obtain ⟨_, _, X, hX, hB⟩ := writeRun_sent s c syss l hall
  refine ⟨X, hX, hB, ⟨_, hB⟩, ?_⟩
  intro he
  rw [he, List.append_nil] at hB
  exact ⟨hB, by rw [hB]⟩

/-- C7 on the buffer `[3, 4, 5]` of descriptor 7 with the outcomes EAGAIN,
2 bytes, EAGAIN, 1 byte: the peer receives `[3, 4, 5]`. -/
theorem outbound_bytes_delivered_in_order_witness :
    sent 7 (writeRun exServerCb 1 [exSys, exSysWrite 2, exSys, exSysWrite 1]
      (exLoop7 exConnOut)).log = [3, 4, 5] := by
  obtain ⟨X, hX, hB, _, hdone⟩ := (outbound_bytes_delivered_in_order exServerCb 1
    (exLoop7 exConnOut) [exSys, exSysWrite 2, exSys, exSysWrite 1]
    (by
      intro sys h
      simp only [List.mem_cons, List.mem_singleton, List.not_mem_nil, or_false] at h
      rcases h with rfl | rfl | rfl | rfl
      · exact Or.inl rfl
      · exact Or.inr ⟨2, rfl⟩
      · exact Or.inl rfl
      · exact Or.inr ⟨1, rfl⟩)).2
  have hend : ((writeRun exServerCb 1 [exSys, exSysWrite 2, exSys, exSysWrite 1]
      (exLoop7 exConnOut)).heap 1).outBuf = [] := by
    rfl
  have h7 : ((exLoop7 exConnOut).heap 1).fd = 7 := rfl
  rw [h7] at hX
  rw [hX, (hdone hend).1]
  rfl

/-! ## C9: what a transition returns to the poller -/

theorem loopWrite_err (s : server) (l : loop) (c : Nat) (sys : Sys) :
    (loopWrite s l c sys).1 = none ∨ (loopWrite s l c sys).1 = some Error.errClosing := by
  simp only [loopWrite]; split
  · split
    · exact Or.inl rfl
    · exact loopCloseConn_err _ _ _ _
  · exact Or.inl rfl

theorem loopRead_err (s : server) (l : loop) (c : Nat) (sys : Sys) :
    (loopRead s l c sys).1 = none ∨ (loopRead s l c sys).1 = some Error.errClosing := by
  simp only [loopRead]; split
  · split
    · exact Or.inl rfl
    · exact loopCloseConn_err _ _ _ _
  · split
    · exact loopCloseConn_err _ _ _ _
    · exact Or.inl rfl

theorem loopDetachConn_err (s : server) (l : loop) (c : Nat) (err : Option Error) (sys : Sys) :
    (loopDetachConn s l c err sys).1 = none ∨
      (loopDetachConn s l c err sys).1 = some Error.errClosing ∨
      ∃ f e, s.events.OnDetached = some f ∧ sys.setNonblock = some e ∧
        (loopDetachConn s l c err sys).1 = some (Error.sys e) ∧
        (loopDetachConn s l c err sys).2.log = l.log ++ [Ev.SetNonblock (l.heap c).fd false] := by
  cases hD : s.events.OnDetached with
  | none =>
    simp only [loopDetachConn, hD]
    rcases loopCloseConn_err s l c err with h | h
    · exact Or.inl h
    · exact Or.inr (Or.inl h)
  | some f =>
    cases hS : sys.setNonblock with
    | some e => exact Or.inr (Or.inr ⟨f, e, rfl, rfl, by simp [loopDetachConn, hD, hS]⟩)
    | none =>
      simp only [loopDetachConn, hD, hS]
      split
      · exact Or.inr (Or.inl rfl)
      · exact Or.inl rfl

/-- C9 (the code departs from the claim). Every transition the poll callback
runs on a registered connection returns nil or `errClosing` to the poller
(and Wake returns nil), with one exception: the Detach transition with `OnDetached` supplied returns
the raw error of a failing `SetNonblock`; the connection has then left the
map and the poller, and neither `OnClosed` nor `OnDetached` is invoked nor is
the descriptor closed (the only event logged is the `SetNonblock` call). -/
theorem detach_returns_raw_error (s : server) (l : loop) (fd : Int) (note : Note) (sys : Sys)
    (c : Nat) (err : Option Error) (l' : loop) (hfd : fd ≠ 0) (hc : l.fdconns fd = some c)
    (h : activateSubReactor s l fd note sys = Outcome.ret err l') :
    (err = none ∨ err = some Error.errClosing ∨
      ∃ f e, s.events.OnDetached = some f ∧ sys.setNonblock = some e ∧
        (l.heap c).action = Action.Detach ∧ err = some (Error.sys e)) ∧
    (∀ f e, (l.heap c).opened = true → (l.heap c).outBuf = [] →
      (l.heap c).action = Action.Detach → s.events.OnDetached = some f →
      sys.setNonblock = some e →
        err = some (Error.sys e) ∧ l'.fdconns (l.heap c).fd = none ∧
        l'.poll.interest (l.heap c).fd = none ∧
        l'.log = l.log ++ [Ev.SetNonblock (l.heap c).fd false]) ∧
    (∀ v, (loopWake s l v sys).1 = none) := by
  refine ⟨?_, ?_, fun v => loopWake_err s l v sys⟩
  · by_cases ho : (l.heap c).opened = false
    · rw [activateSubReactor_open s l fd note sys c hfd hc ho] at h
      exact Or.inl (loopOpened_ret s l c sys err l' h).1
    · simp only [Bool.not_eq_false] at ho
      by_cases hb : (l.heap c).outBuf = []
      · by_cases ha : (l.heap c).action = Action.None
        · rw [activateSubReactor_read s l fd note sys c hfd hc ho hb ha,
            Outcome.of_eq_ret] at h
          rw [← h.1]
          rcases loopRead_err s l c sys with h1 | h1
          · exact Or.inl h1
          · exact Or.inr (Or.inl h1)
        · rw [activateSubReactor_action s l fd note sys c hfd hc ho hb ha,
            Outcome.of_eq_ret] at h
          rw [← h.1]
          simp only [loopAction]
          split
          · rcases loopCloseConn_err s l c none with h1 | h1
            · exact Or.inl h1
            · exact Or.inr (Or.inl h1)
          · exact Or.inr (Or.inl rfl)
          · rename_i hD
            rcases loopDetachConn_err s l c none sys with h1 | h1 | ⟨f, e, h1, h2, h3, _⟩
            · exact Or.inl h1
            · exact Or.inr (Or.inl h1)
            · exact Or.inr (Or.inr ⟨f, e, h1, h2, hD, h3⟩)
          · exact Or.inl rfl
      · rw [activateSubReactor_write s l fd note sys c hfd hc ho hb, Outcome.of_eq_ret] at h
        rw [← h.1]
        rcases loopWrite_err s l c sys with h1 | h1
        · exact Or.inl h1
        · exact Or.inr (Or.inl h1)
  · intro f e ho hb ha hD hS
    rw [activateSubReactor_action s l fd note sys c hfd hc ho hb (by simp [ha]),
      Outcome.of_eq_ret] at h
    obtain ⟨h1, h2⟩ := h
    subst h2
    subst h1
    simp [loopAction, ha, loopDetachConn, hD, hS, Poll.ModDetach]

/-- C9 on descriptor 7: the connection asked for `Detach`, `OnDetached` and
`OnClosed` are supplied and `SetNonblock(7, false)` fails with errno 9.  The
poll callback returns that errno to the poller; the connection is gone from
the map and the poller, and the log holds the `SetNonblock` call only. -/
theorem detach_returns_raw_error_witness :
    ∃ l', activateSubReactor exServerCb (exLoop7 exConnDetach) 7 Note.nil exSysBadf =
        Outcome.ret (some (Error.sys (Errno.other 9))) l' ∧
      l'.fdconns 7 = none ∧ l'.poll.interest 7 = none ∧
      l'.log = [Ev.SetNonblock 7 false] := by
  refine ⟨_, rfl, ?_⟩
  have h := (detach_returns_raw_error exServerCb (exLoop7 exConnDetach) 7 Note.nil exSysBadf 1
    _ _ (by decide) rfl rfl).2.1 _ (Errno.other 9) rfl rfl rfl rfl rfl
  exact ⟨h.2.1, h.2.2.1, h.2.2.2⟩

/-! ## C5: write interest -/

theorem loopOpened_effect (s : server) (l : loop) (c : Nat) (sys : Sys) (err : Option Error)
    (l' : loop) (idle : Prop) (ho : (l.heap c).opened = false)
    (h : loopOpened s l c sys = Outcome.ret err l') : Effect idle c l l' := by
  obtain ⟨_, ln, _, hl'⟩ := loopOpened_ret s l c sys err l' h
  obtain ⟨_, _, ho', _⟩ := loopOpened_run s l c sys err l' h (P := fun _ => True)
    ⟨by simp, by simp, by simp, by simp, by simp, by simp, by simp, by simp⟩
  refine Or.inr (Or.inr (Or.inl ⟨Or.inr ho, ho', ?_⟩))
  subst hl'
  rw [modReadIfIdle_poll, modReadIfIdle_heap]
  cases hO : s.events.OnOpened with
  | none => simp
  | some f =>
    simp only [onOpened_poll, setConn_poll]
    have hr := (onOpened_run s (l.setConn c
      { l.heap c with opened := true, addrIndex := (l.heap c).lnidx, localAddr := ln.lnaddr,
                      remoteAddr := s.SockaddrToAddr (l.heap c).sa }) c ln f sys
      (P := fun _ => True)
      ⟨by simp, by simp, by simp, by simp, by simp, by simp, by simp, by simp⟩)
    obtain ⟨la, ra, _, rb⟩ := hr
    have hfd := rb.fd.trans ra.fd
    simp only [setConn_heap, Function.update_same] at hfd
    rw [hfd]

theorem effect_of_close (s : server) (l0 l : loop) (c : Nat) (err : Option Error) (idle : Prop)
    (hp : l.poll = l0.poll) (hh : l.heap = l0.heap) :
    Effect idle c l0 (loopCloseConn s l c err).2 :=
  Or.inr (Or.inl ⟨by simp [hp], by simp [hh]⟩)

theorem loopWrite_effect (s : server) (l : loop) (c : Nat) (sys : Sys) (idle : Prop)
    (ho : (l.heap c).opened = true) (hb : (l.heap c).outBuf ≠ []) :
    Effect idle c l (loopWrite s l c sys).2 := by
  have h0 : (if s.events.PreWrite then l.emit Ev.PreWrite else l).poll = l.poll ∧
      (if s.events.PreWrite then l.emit Ev.PreWrite else l).heap = l.heap := by
    split <;> exact ⟨rfl, rfl⟩
  simp only [loopWrite]
  generalize (if s.events.PreWrite then l.emit Ev.PreWrite else l) = l0 at h0
  obtain ⟨hp, hh⟩ := h0
  split
  · split
    · exact Or.inr (Or.inl ⟨hp, hh⟩)
    · exact effect_of_close s l _ c _ idle hp hh
  · refine Or.inr (Or.inr (Or.inl ⟨Or.inl (Or.inl hb), ?_⟩))
    simp [modReadIfIdle_poll, hp, hh, ho]

theorem loopAction_effect (s : server) (l : loop) (c : Nat) (sys : Sys) (idle : Prop)
    (ho : (l.heap c).opened = true) (ha : (l.heap c).action ≠ Action.None) :
    Effect idle c l (loopAction s l c sys).2 := by
  simp only [loopAction]
  split
  · exact effect_of_close s l l c _ idle rfl rfl
  · exact Or.inr (Or.inl ⟨rfl, rfl⟩)
  · simp only [loopDetachConn]
    split
    · exact effect_of_close s l l c _ idle rfl rfl
    · exact Or.inl (by
        have := loopDetachConn_removed s l c none sys
        simp only [loopDetachConn] at this
        rename_i h
        simpa [h] using this)
  · refine Or.inr (Or.inr (Or.inl ⟨Or.inl (Or.inr ha), ?_⟩))
    simp [modReadIfIdle_poll, ho]

theorem react_effect (s : server) (l0 l : loop) (c : Nat)
    (f : conn → List Byte × Action × List Byte) (sys : Sys) (idle : Prop) (hi : idle)
    (hp : l.poll = l0.poll) (hfd : (l.heap c).fd = (l0.heap c).fd)
    (ho : (l.heap c).opened = (l0.heap c).opened) :
    Effect idle c l0 ((react s l c f sys).modReadWriteIfPending c) := by
  have hr := react_run s l c f sys (P := fun _ => True)
    ⟨by simp, by simp, by simp, by simp, by simp, by simp, by simp, by simp⟩
  refine Or.inr (Or.inr (Or.inr ⟨hi, ?_, ?_⟩))
  · rw [modReadWriteIfPending_heap, hr.opened_eq, ho]
  · rw [modReadWriteIfPending_poll, modReadWriteIfPending_heap, react_poll, hr.fd, hfd, hp]

theorem loopWake_effect (s : server) (l : loop) (c : Nat) (sys : Sys) :
    Effect True c l (loopWake s l c sys).2 := by
  simp only [loopWake]
  split
  · exact Or.inr (Or.inl ⟨rfl, rfl⟩)
  · exact react_effect s l l c _ sys True trivial rfl rfl rfl

theorem loopRead_effect (s : server) (l : loop) (c : Nat) (sys : Sys) (idle : Prop) (hi : idle) :
    Effect idle c l (loopRead s l c sys).2 := by
  simp only [loopRead]
  split
  · split
    · exact Or.inr (Or.inl ⟨rfl, rfl⟩)
    · exact effect_of_close s l _ c _ idle rfl rfl
  · split
    · exact effect_of_close s l _ c _ idle rfl rfl
    · split
      · refine Or.inr (Or.inr (Or.inr ⟨hi, by simp, ?_⟩))
        simp [modReadWriteIfPending_poll]
      · exact react_effect s l _ c _ sys idle hi rfl (by simp) (by simp)

/-- The effect of a poll event on a mapped connection. -/
theorem dispatch_effect (s : server) (l : loop) (fd : Int) (note : Note) (sys : Sys)
    (c : Nat) (err : Option Error) (l' : loop) (hfd : fd ≠ 0) (hc : l.fdconns fd = some c)
    (h : activateSubReactor s l fd note sys = Outcome.ret err l') :
    Effect (¬ (l.heap c).pending ∧ (l.heap c).opened = true) c l l' ∧ Touch c l l' := by
  have hA : Allows (fun _ => True) c (l.heap c).opened :=
    ⟨by simp, by simp, by simp, by simp, by simp, by simp, by simp, by simp⟩
  by_cases ho : (l.heap c).opened = false
  · rw [activateSubReactor_open s l fd note sys c hfd hc ho] at h
    exact ⟨loopOpened_effect s l c sys err l' _ ho h,
      (loopOpened_run s l c sys err l' h (P := fun _ => True)
        ⟨by simp, by simp, by simp, by simp, by simp, by simp, by simp, by simp⟩).2.1⟩
  · simp only [Bool.not_eq_false] at ho
    by_cases hb : (l.heap c).outBuf = []
    · by_cases ha : (l.heap c).action = Action.None
      · rw [activateSubReactor_read s l fd note sys c hfd hc ho hb ha, Outcome.of_eq_ret] at h
        rw [← h.2]
        exact ⟨loopRead_effect s l c sys _ ⟨by simp [conn.pending, hb, ha], ho⟩,
          (loopRead_run s l c sys hA (by simp)).toTouch⟩
      · rw [activateSubReactor_action s l fd note sys c hfd hc ho hb ha, Outcome.of_eq_ret] at h
        rw [← h.2]
        exact ⟨loopAction_effect s l c sys _ ho ha, (loopAction_run s l c sys hA).toTouch⟩
    · rw [activateSubReactor_write s l fd note sys c hfd hc ho hb, Outcome.of_eq_ret] at h
      rw [← h.2]
      exact ⟨loopWrite_effect s l c sys _ ho hb, (loopWrite_run s l c sys hA).toTouch⟩

/-- A transition on a mapped connection, given its effect, keeps the map
well-formed and keeps write interest on everything pending or unopened. -/
theorem inv_of_effect {idle : Prop} {c : Nat} {l l' : loop} (fd : Int)
    (hc : l.fdconns fd = some c) (hwf : l.WF) (hwi : l.WriteIf)
    (he : Effect idle c l l') (ht : Touch c l l') : l'.WF ∧ l'.WriteIf := by
  have hcfd : (l.heap c).fd = fd := (hwf fd c hc).1
  have hreg : l.poll.interest fd ≠ none := (hwf fd c hc).2
  have hother : ∀ fd' c', fd' ≠ fd → l.fdconns fd' = some c' → c' ≠ c := by
    intro fd' c' hne hc' hcc
    subst hcc
    exact hne ((hwf fd' c' hc').1.symm.trans hcfd)
  have hmap : ∀ fd' c', l'.fdconns fd' = some c' → l.fdconns fd' = some c' := by
    intro fd' c' h'
    rcases ht.map fd' with h | ⟨_, h⟩
    · rw [← h]; exact h'
    · rw [h] at h'; cases h'
  have hself : ∀ c', l'.fdconns fd = some c' → c' = c := by
    intro c' h'
    have := hmap fd c' h'
    rw [hc] at this
    exact (Option.some.inj this).symm
  constructor
  · intro fd' c' h'
    have hl := hmap fd' c' h'
    by_cases hne : fd' = fd
    · subst hne
      have hcc := hself c' h'
      subst hcc
      refine ⟨ht.fd.trans hcfd, ?_⟩
      have := ht.registered (by rw [hcfd]; exact hreg) (by rw [hcfd, h']; simp)
      rwa [hcfd] at this
    · have hcc := hother fd' c' hne hl
      rw [ht.heap c' hcc, ht.interest fd' (by rw [hcfd]; exact hne)]
      exact hwf fd' c' hl
  · intro fd' c' h' hpend
    have hl := hmap fd' c' h'
    by_cases hne : fd' = fd
    · subst hne
      have hcc := hself c' h'
      subst hcc
      have hpre := hwi fd' c' hc
      unfold loop.writeInterest at hpre ⊢
      rcases he with hgone | ⟨hp, hh⟩ | ⟨hpre', ho', hp⟩ | ⟨_, ho', hp⟩
      · rw [hcfd, h'] at hgone; cases hgone
      · rw [hp]; rw [hh] at hpend; exact hpre hpend
      · rw [ho'] at hpend
        have hpd : (l'.heap c').pending := by simpa using hpend
        rw [hp, if_pos hpd]
        exact hpre hpre'
      · by_cases hpd : (l'.heap c').pending
        · rw [hp, if_pos hpd, Poll.ModReadWrite_interest, hcfd]
          simp [hreg]
        · rw [hp, if_neg hpd]
          rw [ho'] at hpend
          exact hpre (Or.inr (by simpa [hpd] using hpend))
    · have hcc := hother fd' c' hne hl
      unfold loop.writeInterest
      rw [ht.heap c' hcc] at hpend
      rw [ht.interest fd' (by rw [hcfd]; exact hne)]
      exact hwi fd' c' hl hpend

/-- A transition on a mapped connection, given its effect, keeps write
interest off everything that is opened with nothing pending, provided that a
transition of the last kind (Read, Wake) that ends with nothing pending did
not start on an opened connection with something pending. -/
theorem writeOnlyIf_of_effect {idle : Prop} {c : Nat} {l l' : loop} (fd : Int)
    (hc : l.fdconns fd = some c) (hwf : l.WF) (hwo : l.WriteOnlyIf)
    (he : Effect idle c l l')
    (hk : idle → ¬ (l'.heap c).pending →
      ¬ ((l.heap c).pending ∧ (l.heap c).opened = true))
    (ht : Touch c l l') : l'.WriteOnlyIf := by
  have hcfd : (l.heap c).fd = fd := (hwf fd c hc).1
  have hreg : l.poll.interest fd ≠ none := (hwf fd c hc).2
  have hmap : ∀ fd' c', l'.fdconns fd' = some c' → l.fdconns fd' = some c' := by
    intro fd' c' h'
    rcases ht.map fd' with h | ⟨_, h⟩
    · rw [← h]; exact h'
    · rw [h] at h'; cases h'
  intro fd' c' h' hw
  have hl := hmap fd' c' h'
  by_cases hne : fd' = fd
  · subst hne
    have hcc : c' = c := by
      rw [hc] at hl; exact (Option.some.inj hl).symm
    subst hcc
    have hpre := hwo fd' c' hc
    unfold loop.writeInterest at hpre hw
    rcases he with hgone | ⟨hp, hh⟩ | ⟨_, _, hp⟩ | ⟨hidle, ho', hp⟩
    · rw [hcfd, h'] at hgone; cases hgone
    · rw [hh]; rw [hp] at hw; exact hpre hw
    · by_cases hpd : (l'.heap c').pending
      · exact Or.inl hpd
      · rw [hp, if_neg hpd, Poll.ModRead_interest, hcfd] at hw
        simp [hreg] at hw
    · by_cases hpd : (l'.heap c').pending
      · exact Or.inl hpd
      · rw [hp, if_neg hpd] at hw
        refine Or.inr ?_
        rw [ho']
        rcases hpre hw with h1 | h1
        · by_contra hno
          exact hk hidle hpd ⟨h1, by simpa using hno⟩
        · exact h1
  · have hcc : c' ≠ c := by
      intro hcc
      subst hcc
      exact hne ((hwf fd' c' hl).1.symm.trans hcfd)
    unfold loop.writeInterest at hw
    rw [ht.interest fd' (by rw [hcfd]; exact hne)] at hw
    rw [ht.heap c' hcc]
    exact hwo fd' c' hl hw

/-- Installing a handed-off connection keeps the invariants. -/
theorem inv_of_install (l : loop) (v : signal)
    (hv : ∀ c, v.c = some c → (l.heap c).fd = v.fd) (hwf : l.WF) (hwi : l.WriteIf) :
    loop.WF { l with fdconns := Function.update l.fdconns v.fd v.c,
                     poll := l.poll.AddReadWrite v.fd } ∧
    loop.WriteIf { l with fdconns := Function.update l.fdconns v.fd v.c,
                          poll := l.poll.AddReadWrite v.fd } := by
  constructor
  · intro fd c h
    by_cases hfd : fd = v.fd
    · subst hfd
      simp only [Function.update_same] at h
      exact ⟨hv c h, by simp [Poll.AddReadWrite]⟩
    · simp only [Function.update_noteq hfd] at h
      simpa [Poll.AddReadWrite, Function.update_noteq hfd] using hwf fd c h
  · intro fd c h hp
    by_cases hfd : fd = v.fd
    · subst hfd
      simp [loop.writeInterest, Poll.AddReadWrite]
    · simp only [Function.update_noteq hfd] at h
      simpa [loop.writeInterest, Poll.AddReadWrite, Function.update_noteq hfd] using
        hwi fd c h hp

theorem writeOnlyIf_of_install (l : loop) (v : signal)
    (hv : ∀ c, v.c = some c → (l.heap c).opened = false) (hwo : l.WriteOnlyIf) :
    loop.WriteOnlyIf { l with fdconns := Function.update l.fdconns v.fd v.c,
                              poll := l.poll.AddReadWrite v.fd } := by
  intro fd c h hw
  by_cases hfd : fd = v.fd
  · subst hfd
    simp only [Function.update_same] at h
    exact Or.inr (hv c h)
  · simp only [Function.update_noteq hfd] at h
    apply hwo fd c h
    simpa [loop.writeInterest, Poll.AddReadWrite, Function.update_noteq hfd] using hw

/-- One call of the poll callback keeps the map well-formed and write
interest on everything pending or unopened. -/
theorem inv_step (s : server) (l l' : loop) (fd : Int) (note : Note) (sys : Sys)
    (err : Option Error) (hok : handoffOK l fd note)
    (h : activateSubReactor s l fd note sys = Outcome.ret err l')
    (hwf : l.WF) (hwi : l.WriteIf) : l'.WF ∧ l'.WriteIf := by
  by_cases hfd : fd = 0
  · simp only [activateSubReactor, hfd, if_true] at h
    cases note with
    | tick d =>
      simp only [loopNote] at h
      cases hT : s.events.Tick with
      | none => simp [hT] at h
      | some t =>
        simp only [hT, Outcome.ret.injEq] at h
        rw [← h.2]
        exact ⟨hwf, hwi⟩
    | error v => simp only [loopNote, Outcome.ret.injEq] at h; rw [← h.2]; exact ⟨hwf, hwi⟩
    | nil => simp only [loopNote, Outcome.ret.injEq] at h; rw [← h.2]; exact ⟨hwf, hwi⟩
    | conn v =>
      cases v with
      | none => simp [loopNote] at h
      | some v =>
        simp only [loopNote] at h
        split at h
        · simp only [Outcome.ret.injEq] at h; rw [← h.2]; exact ⟨hwf, hwi⟩
        · rename_i hv
          simp only [ne_eq, Decidable.not_not] at hv
          rw [Outcome.of_eq_ret] at h
          rw [← h.2]
          exact inv_of_effect _ hv hwf hwi (loopWake_effect s l v sys)
            (loopWake_run s l v sys (P := fun _ => True)
              ⟨by simp, by simp, by simp, by simp, by simp, by simp, by simp, by simp⟩).toTouch
    | signal v =>
      simp only [loopNote, Outcome.ret.injEq] at h
      rw [← h.2]
      exact inv_of_install l v (fun c hc => hok hfd v c rfl hc) hwf hwi
  · cases hc : l.fdconns fd with
    | none => simp [activateSubReactor, hfd, hc] at h
    | some c =>
      obtain ⟨he, ht⟩ := dispatch_effect s l fd note sys c err l' hfd hc h
      exact inv_of_effect fd hc hwf hwi he ht

/-- A Wake never empties an outbound buffer: `sendOut` on a non-empty buffer
only appends. -/
theorem loopWake_outBuf (s : server) (l : loop) (c : Nat) (sys : Sys)
    (hb : (l.heap c).outBuf ≠ []) : ((loopWake s l c sys).2.heap c).outBuf ≠ [] := by
  simp only [loopWake]
  split
  · exact hb
  · rename_i f _
    simp only [modReadWriteIfPending_heap, react, sendIfAny]
    split
    · have hlen : ringbuffer.Length (l.heap c).outBuf > 0 :=
        List.length_pos.2 hb
      simp [sendOut, hlen, ringbuffer.Write, hb]
    · simpa using hb

/-- One call of the poll callback keeps write interest off everything opened
with nothing pending, unless it is a Wake, not stale, of an opened connection
with an empty outbound buffer and an action other than `None`. -/
theorem writeOnlyIf_step (s : server) (l l' : loop) (fd : Int) (note : Note) (sys : Sys)
    (err : Option Error) (hok : handoffOnly l fd note)
    (h : activateSubReactor s l fd note sys = Outcome.ret err l')
    (hwf : l.WF) (hwo : l.WriteOnlyIf) : l'.WriteOnlyIf := by
  by_cases hfd : fd = 0
  · simp only [activateSubReactor, hfd, if_true] at h
    cases note with
    | tick d =>
      simp only [loopNote] at h
      cases hT : s.events.Tick with
      | none => simp [hT] at h
      | some t =>
        simp only [hT, Outcome.ret.injEq] at h
        rw [← h.2]
        exact hwo
    | error v => simp only [loopNote, Outcome.ret.injEq] at h; rw [← h.2]; exact hwo
    | nil => simp only [loopNote, Outcome.ret.injEq] at h; rw [← h.2]; exact hwo
    | conn v =>
      cases v with
      | none => simp [loopNote] at h
      | some v =>
        simp only [loopNote] at h
        split at h
        · simp only [Outcome.ret.injEq] at h; rw [← h.2]; exact hwo
        · rename_i hv
          simp only [ne_eq, Decidable.not_not] at hv
          rw [Outcome.of_eq_ret] at h
          rw [← h.2]
          refine writeOnlyIf_of_effect _ hv hwf hwo (loopWake_effect s l v sys) ?_
            (loopWake_run s l v sys (P := fun _ => True)
              ⟨by simp, by simp, by simp, by simp, by simp, by simp, by simp, by simp⟩).toTouch
          rintro _ hpd ⟨hp0, ho⟩
          by_cases hb : (l.heap v).outBuf = []
          · rcases hp0 with hp1 | hp1
            · exact hp1 hb
            · exact (hok hfd).2 v rfl hv ⟨ho, hb, hp1⟩
          · exact hpd (Or.inl (loopWake_outBuf s l v sys hb))
    | signal v =>
      simp only [loopNote, Outcome.ret.injEq] at h
      rw [← h.2]
      exact writeOnlyIf_of_install l v (fun c hc => ((hok hfd).1 v c rfl hc).2) hwo
  · cases hc : l.fdconns fd with
    | none => simp [activateSubReactor, hfd, hc] at h
    | some c =>
      obtain ⟨he, ht⟩ := dispatch_effect s l fd note sys c err l' hfd hc h
      exact writeOnlyIf_of_effect fd hc hwf hwo he (fun hi _ hpo => hi.1 hpo.1) ht

/-- The two invariants along a run, from a start that has them. -/
theorem writeIf_reach (s : server) (l0 l : loop) (hwf : l0.WF) (hwi : l0.WriteIf)
    (hr : Reach s handoffOK l0 l) : l.WF ∧ l.WriteIf := by
  induction hr with
  | start => exact ⟨hwf, hwi⟩
  | step fd note sys err _ hok h ih => exact inv_step s _ _ fd note sys err hok h ih.1 ih.2

theorem writeOnlyIf_reach (s : server) (l0 l : loop) (hwf : l0.WF) (hwi : l0.WriteIf)
    (hwo : l0.WriteOnlyIf) (hr : Reach s handoffOnly l0 l) :
    l.WF ∧ l.WriteIf ∧ l.WriteOnlyIf := by
  induction hr with
  | start => exact ⟨hwf, hwi, hwo⟩
  | step fd note sys err _ hok h ih =>
    have hok' : handoffOK _ fd note := fun hfd v c hn hc => ((hok hfd).1 v c hn hc).1
    obtain ⟨h1, h2⟩ := inv_step s _ _ fd note sys err hok' h ih.1 ih.2.1
    exact ⟨h1, h2, writeOnlyIf_step s _ _ fd note sys err hok h ih.1 ih.2.2⟩

/-- C5, as amended. Take a run of transitions (signal install of a note
`signal{fd: c.fd, c}`, Open, Write, Action, Read, Wake; any syscall and
callback results) that starts from a loop with an empty connection map, or
from any loop whose map is keyed by the descriptors of its connections, all
registered, and in which the property stated next holds.  After every
transition, every connection in the map that has a non-empty outbound buffer
or an action other than `None`, or is not yet opened, has write interest
registered.  When moreover the connections handed off are unopened and no
Wake that is not stale is delivered to an opened connection with an empty
outbound buffer and an action other than `None`, write interest is
registered on a mapped connection only if its outbound buffer is non-empty,
its action is not `None`, or it is not yet opened. -/
theorem write_interest_invariant (s : server) (l0 l : loop) :
    (l0.WF → l0.WriteIf → Reach s handoffOK l0 l → l.WF ∧ l.WriteIf) ∧
    (l0.WF → l0.WriteIf → l0.WriteOnlyIf → Reach s handoffOnly l0 l →
      l.WF ∧ l.WriteIf ∧ l.WriteOnlyIf) ∧
    ((∀ fd, l0.fdconns fd = none) →
      (Reach s handoffOK l0 l → l.WriteIf) ∧
      (Reach s handoffOnly l0 l → l.WriteIf ∧ l.WriteOnlyIf)) := by
  refine ⟨writeIf_reach s l0 l, writeOnlyIf_reach s l0 l, ?_⟩
  intro he
  have hwf : l0.WF := fun fd c h => by rw [he fd] at h; cases h
  have hwi : l0.WriteIf := fun fd c h => by rw [he fd] at h; cases h
  have hwo : l0.WriteOnlyIf := fun fd c h => by rw [he fd] at h; cases h
  exact ⟨fun hr => (writeIf_reach s l0 l hwf hwi hr).2,
    fun hr => (writeOnlyIf_reach s l0 l hwf hwi hwo hr).2⟩

/-- C5 from an empty loop: the connection on descriptor 7 is handed off, its
first poll event runs Open, and a Wake follows.  `OnOpened` and `React` leave
nothing pending, so the loop reached has the connection opened with
read-only interest, and both directions hold of it. -/
theorem write_interest_invariant_witness :
    (∀ fd, (exLoop 0 exConnFresh).fdconns fd = none) ∧
    ∃ l, Reach exServerCb handoffOnly (exLoop 0 exConnFresh) l ∧
      l.fdconns 7 = some 1 ∧ (l.heap 1).opened = true ∧
      l.log.length = 2 ∧
      l.poll.interest 7 = some Interest.Read ∧ l.WriteIf ∧ l.WriteOnlyIf := by
  have h1 : Reach exServerCb handoffOnly (exLoop 0 exConnFresh)
      { exLoop 0 exConnFresh with
        fdconns := Function.update (exLoop 0 exConnFresh).fdconns 7 (some 1),
        poll := (exLoop 0 exConnFresh).poll.AddReadWrite 7 } :=
    Reach.step 0 (Note.signal ⟨7, some 1⟩) exSys none Reach.start
      (fun _ => ⟨fun v c hv _ => by cases hv; exact ⟨rfl, rfl⟩,
        fun v hv => by cases hv⟩) rfl
  have h2 := Reach.step 7 Note.nil exSys none h1 (fun h => absurd h (by decide)) rfl
  have h3 := Reach.step 0 (Note.conn (some 1)) exSys none h2
    (fun _ => ⟨fun v c hv _ => (by cases hv),
      fun v hv _ hbad => (by cases hv; exact hbad.2.2 rfl)⟩) rfl
  exact ⟨fun _ => rfl, _, h3, rfl, rfl, rfl, rfl,
    ((write_interest_invariant exServerCb (exLoop 0 exConnFresh) _).2.2 (fun _ => rfl)).2 h3⟩

/-- C5 as stated fails.  Right after the signal install, which registers
the descriptor with `AddReadWrite` so that its first event runs Open, the
connection on descriptor 7 is in the map with write interest registered, an
empty outbound buffer and action `None`.  Besides, `loopWake` has no `ModRead`
(`loopOpened`, `loopWrite` and `loopAction` end with one): a Wake on an opened
connection whose stored action was its only reason for write interest, with
`React` answering `None` and no output, leaves write interest registered on
a connection with nothing pending. -/
theorem write_interest_iff_fails :
    (∃ l', activateSubReactor (exServer 1) (exLoop 0 exConnFresh) 0
        (Note.signal ⟨7, some 1⟩) exSys = Outcome.ret none l' ∧
      l'.fdconns 7 = some 1 ∧ l'.writeInterest 7 ∧
      (l'.heap 1).outBuf = [] ∧ (l'.heap 1).action = Action.None ∧
      ¬ (l'.writeInterest 7 ↔ (l'.heap 1).pending)) ∧
    ((exLoop7 exConnClose).writeInterest 7 ∧ ((exLoop7 exConnClose).heap 1).pending ∧
      ∃ l', activateSubReactor exServerCb (exLoop7 exConnClose) 0 (Note.conn (some 1)) exSys =
          Outcome.ret none l' ∧
        l'.fdconns 7 = some 1 ∧ l'.writeInterest 7 ∧
        (l'.heap 1).outBuf = [] ∧ (l'.heap 1).action = Action.None ∧
        ¬ (l'.writeInterest 7 ↔ (l'.heap 1).pending)) := by
  refine ⟨⟨_, rfl, rfl, by decide, rfl, rfl, by decide⟩, by decide, by decide,
    _, rfl, rfl, by decide, rfl, rfl, by decide⟩

/-! ## C6: `OnOpened` comes first, once -/

theorem allows_later (c : Nat) : Allows (Ev.later c) c true :=
  ⟨fun _ _ h => ⟨rfl, h⟩, fun _ _ h => ⟨rfl, h⟩, fun _ h => ⟨rfl, h⟩, trivial,
    fun _ _ _ => trivial, fun _ => trivial, fun _ _ => trivial, fun _ _ => trivial⟩

theorem later_handedOpened {c : Nat} {e : Ev} (h : e.later c) : e.handedOpened := by
  cases e <;> simp_all [Ev.later, Ev.handedOpened]

theorem later_conn {c : Nat} {e : Ev} (h : e.later c) : e.conn? = none ∨ e.conn? = some c := by
  cases e <;> simp_all [Ev.later, Ev.conn?]

theorem later_not_onOpened {c : Nat} {e : Ev} (h : e.later c) (r : Nat) :
    e.isOnOpened r = false := by
  cases e <;> simp_all [Ev.later, Ev.isOnOpened]

theorem isLater_conn {r : Nat} {e : Ev} (h : e.isLater r = true) : e.conn? = some r := by
  cases e <;> simp_all [Ev.isLater, Ev.conn?]

theorem isOnOpened_conn {r : Nat} {e : Ev} (h : e.isOnOpened r = true) : e.conn? = some r := by
  cases e <;> simp_all [Ev.isOnOpened, Ev.conn?]

theorem precedes_append (log evs : List Ev) (r : Nat) (h1 : Precedes log r)
    (h2 : ∀ pre e post, evs = pre ++ e :: post → e.isLater r = true →
      ∃ snap, Ev.OnOpened r snap ∈ log ++ pre) : Precedes (log ++ evs) r := by
  intro pre e post heq hl
  rcases List.append_eq_append_iff.1 heq with ⟨a', hpre, hevs⟩ | ⟨c', hlog, hc'⟩
  · rw [hpre]; exact h2 a' e post hevs hl
  · cases c' with
    | nil =>
      simp only [List.nil_append] at hc'
      simp only [List.append_nil] at hlog
      have := h2 [] e post hc'.symm hl
      simpa [hlog] using this
    | cons x c'' =>
      simp only [List.cons_append, List.cons.injEq] at hc'
      obtain ⟨hx, _⟩ := hc'
      subst hx
      exact h1 pre e c'' hlog hl

/-- The history invariant survives a transition on the connection at `c`
that keeps the `opened` flags and logs events of a transition on an opened
connection, when `c` is opened or no callback is logged. -/
theorem hist_append (s : server) (l l' : loop) (c : Nat) (evs : List Ev) (hK : Hist s l)
    (hheap : ∀ r, r ≠ c → l'.heap r = l.heap r)
    (hoeq : (l'.heap c).opened = (l.heap c).opened)
    (hlog : l'.log = l.log ++ evs) (hev : ∀ e ∈ evs, e.later c)
    (hc : (l.heap c).opened = true ∨ ∀ e ∈ evs, e.conn? = none) : Hist s l' := by
  have hop : ∀ r, (l'.heap r).opened = (l.heap r).opened := by
    intro r
    by_cases hr : r = c
    · rw [hr, hoeq]
    · rw [hheap r hr]
  have hconn : ∀ e ∈ evs, e.conn? = none ∨ (e.conn? = some c ∧ (l.heap c).opened = true) := by
    intro e he
    rcases hc with h | h
    · rcases later_conn (hev e he) with h' | h'
      · exact Or.inl h'
      · exact Or.inr ⟨h', h⟩
    · exact Or.inl (h e he)
  refine ⟨?_, ?_, ?_, ?_, ?_⟩
  · intro e he
    rw [hlog] at he
    rcases List.mem_append.1 he with h | h
    · exact hK.handed e h
    · exact later_handedOpened (hev e h)
  · intro r hr e he
    rw [hop] at hr
    rw [hlog] at he
    rcases List.mem_append.1 he with h | h
    · exact hK.quiet r hr e h
    · rcases hconn e h with h' | ⟨h', ho⟩
      · simp [h']
      · rw [h']
        intro hcr
        have hcr' : c = r := Option.some.inj hcr
        rw [← hcr', ho] at hr
        cases hr
  · intro r
    have h0 : List.countP (Ev.isOnOpened r) evs = 0 :=
      List.countP_eq_zero.2 (fun e he => by simp [later_not_onOpened (hev e he) r])
    rw [onOpenedCount, hlog, List.countP_append, h0]
    exact hK.once r
  · intro hs r hr
    rw [hop] at hr
    obtain ⟨snap, h⟩ := hK.fired hs r hr
    exact ⟨snap, by rw [hlog]; exact List.mem_append_left _ h⟩
  · intro hs r
    rw [hlog]
    apply precedes_append _ _ _ (hK.first hs r)
    intro pre e post hevs hl
    have he : e ∈ evs := by rw [hevs]; simp
    rcases hconn e he with h' | ⟨h', ho⟩
    · rw [isLater_conn hl] at h'; cases h'
    · rw [isLater_conn hl] at h'
      have hrc : r = c := Option.some.inj h'
      rw [← hrc] at ho
      obtain ⟨snap, h⟩ := hK.fired hs r ho
      exact ⟨snap, List.mem_append_left _ h⟩

/-- The history invariant survives the Open transition of an unopened
connection. -/
theorem hist_open (s : server) (l l' : loop) (c : Nat) (evs : List Ev) (snap : conn)
    (hK : Hist s l) (ho : (l.heap c).opened = false)
    (hheap : ∀ r, r ≠ c → l'.heap r = l.heap r) (ho' : (l'.heap c).opened = true)
    (hlog : l'.log = l.log ++ (match s.events.OnOpened with
      | none => evs
      | some _ => Ev.OnOpened c snap :: evs))
    (hev : ∀ e ∈ evs, e.later c) : Hist s l' := by
  have hquiet := hK.quiet c ho
  have hnew : ∀ e ∈ (match s.events.OnOpened with
      | none => evs
      | some _ => Ev.OnOpened c snap :: evs), e.conn? = none ∨ e.conn? = some c := by
    intro e he
    cases hO : s.events.OnOpened with
    | none => rw [hO] at he; exact later_conn (hev e he)
    | some f =>
      rw [hO] at he
      rcases List.mem_cons.1 he with rfl | he
      · exact Or.inr rfl
      · exact later_conn (hev e he)
  refine ⟨?_, ?_, ?_, ?_, ?_⟩
  · intro e he
    rw [hlog] at he
    rcases List.mem_append.1 he with h | h
    · exact hK.handed e h
    · cases hO : s.events.OnOpened with
      | none => rw [hO] at h; exact later_handedOpened (hev e h)
      | some f =>
        rw [hO] at h
        rcases List.mem_cons.1 h with rfl | h
        · trivial
        · exact later_handedOpened (hev e h)
  · intro r hr e he
    have hrc : r ≠ c := by
      intro h; rw [h, ho'] at hr; cases hr
    rw [hheap r hrc] at hr
    rw [hlog] at he
    rcases List.mem_append.1 he with h | h
    · exact hK.quiet r hr e h
    · rcases hnew e h with h' | h'
      · simp [h']
      · rw [h']
        intro hcr
        exact hrc (Option.some.inj hcr).symm
  · intro r
    have h0 : List.countP (Ev.isOnOpened r) evs = 0 :=
      List.countP_eq_zero.2 (fun e he => by simp [later_not_onOpened (hev e he) r])
    rw [onOpenedCount, hlog, List.countP_append]
    by_cases hrc : r = c
    · subst hrc
      have hz : List.countP (Ev.isOnOpened r) l.log = 0 :=
        List.countP_eq_zero.2 (fun e he hon => hquiet e he (isOnOpened_conn hon))
      rw [hz]
      cases hO : s.events.OnOpened with
      | none => simp [h0]
      | some f =>
        simp only [List.countP_cons, h0]
        split <;> omega
    · have := hK.once r
      rw [onOpenedCount] at this
      cases hO : s.events.OnOpened with
      | none => simpa [h0] using this
      | some f =>
        have hne : Ev.isOnOpened r (Ev.OnOpened c snap) = false := by
          simp [Ev.isOnOpened, Ne.symm hrc]
        simpa [List.countP_cons, h0, hne] using this
  · intro hs r hr
    by_cases hrc : r = c
    · subst hrc
      cases hO : s.events.OnOpened with
      | none => exact absurd hO hs
      | some f =>
        rw [hO] at hlog
        exact ⟨snap, by rw [hlog]; simp⟩
    · rw [hheap r hrc] at hr
      obtain ⟨sn, h⟩ := hK.fired hs r hr
      exact ⟨sn, by rw [hlog]; exact List.mem_append_left _ h⟩
  · intro hs r
    rw [hlog]
    apply precedes_append _ _ _ (hK.first hs r)
    intro pre e post hevs hl
    cases hO : s.events.OnOpened with
    | none => exact absurd hO hs
    | some f =>
      rw [hO] at hevs
      simp only at hevs
      cases pre with
      | nil =>
        simp only [List.nil_append, List.cons.injEq] at hevs
        rw [← hevs.1] at hl
        simp [Ev.isLater] at hl
      | cons x pre' =>
        simp only [List.cons_append, List.cons.injEq] at hevs
        have he : e ∈ evs := by rw [hevs.2]; simp
        rcases later_conn (hev e he) with h' | h'
        · rw [isLater_conn hl] at h'; cases h'
        · rw [isLater_conn hl] at h'
          have hrc : r = c := Option.some.inj h'
          rw [hrc]
          exact ⟨snap, by rw [← hevs.1]; simp⟩

theorem hist_congr (s : server) (l l' : loop) (hK : Hist s l) (hh : l'.heap = l.heap)
    (hl : l'.log = l.log) : Hist s l' :=
  hist_append s l l' 0 [] hK (fun r _ => by rw [hh]) (by rw [hh]) (by simp [hl]) (by simp)
    (Or.inr (by simp))

theorem hist_run (s : server) (l l' : loop) (c : Nat) (hK : Hist s l)
    (ho : (l.heap c).opened = true) (hr : Run (Ev.later c) c l l') : Hist s l' := by
  obtain ⟨evs, hlog, hev⟩ := hr.log
  exact hist_append s l l' c evs hK hr.heap hr.opened_eq hlog hev (Or.inl ho)

/-- One call of the poll callback keeps the history invariant, provided a
connection wake that is not stale is for an opened connection. -/
theorem hist_step (s : server) (l l' : loop) (fd : Int) (note : Note) (sys : Sys)
    (err : Option Error) (hok : wakeOpened l fd note)
    (h : activateSubReactor s l fd note sys = Outcome.ret err l') (hK : Hist s l) :
    Hist s l' := by
  by_cases hfd : fd = 0
  · simp only [activateSubReactor, hfd, if_true] at h
    cases note with
    | tick d =>
      simp only [loopNote] at h
      cases hT : s.events.Tick with
      | none => simp [hT] at h
      | some t =>
        simp only [hT, Outcome.ret.injEq] at h
        rw [← h.2]
        exact hist_append s l _ 0 [Ev.Tick, Ev.tch t.1] hK (fun _ _ => rfl) rfl (by simp)
          (by simp [Ev.later]) (Or.inr (by simp [Ev.conn?]))
    | error v => simp only [loopNote, Outcome.ret.injEq] at h; rw [← h.2]; exact hK
    | nil => simp only [loopNote, Outcome.ret.injEq] at h; rw [← h.2]; exact hK
    | conn v =>
      cases v with
      | none => simp [loopNote] at h
      | some v =>
        simp only [loopNote] at h
        split at h
        · simp only [Outcome.ret.injEq] at h; rw [← h.2]; exact hK
        · rename_i hv
          simp only [ne_eq, Decidable.not_not] at hv
          rw [Outcome.of_eq_ret] at h
          rw [← h.2]
          have ho := hok hfd v rfl hv
          exact hist_run s l _ v hK ho
            (loopWake_run s l v sys (by rw [ho]; exact allows_later v))
    | signal v =>
      simp only [loopNote, Outcome.ret.injEq] at h
      rw [← h.2]
      exact hist_congr s l _ hK rfl rfl
  · cases hc : l.fdconns fd with
    | none => simp [activateSubReactor, hfd, hc] at h
    | some c =>
      by_cases ho : (l.heap c).opened = false
      · rw [activateSubReactor_open s l fd note sys c hfd hc ho] at h
        obtain ⟨_, ht, ho', _, evs, hev, hlog⟩ :=
          loopOpened_run s l c sys err l' h (allows_later c)
        exact hist_open s l l' c evs _ hK ho ht.heap ho' hlog hev
      · simp only [Bool.not_eq_false] at ho
        have hA : Allows (Ev.later c) c (l.heap c).opened := by rw [ho]; exact allows_later c
        by_cases hb : (l.heap c).outBuf = []
        · by_cases ha : (l.heap c).action = Action.None
          · rw [activateSubReactor_read s l fd note sys c hfd hc ho hb ha,
              Outcome.of_eq_ret] at h
            rw [← h.2]
            exact hist_run s l _ c hK ho (loopRead_run s l c sys hA (fun _ => trivial))
          · rw [activateSubReactor_action s l fd note sys c hfd hc ho hb ha,
              Outcome.of_eq_ret] at h
            rw [← h.2]
            exact hist_run s l _ c hK ho (loopAction_run s l c sys hA)
        · rw [activateSubReactor_write s l fd note sys c hfd hc ho hb, Outcome.of_eq_ret] at h
          rw [← h.2]
          exact hist_run s l _ c hK ho (loopWrite_run s l c sys hA)

theorem hist_reach (s : server) (l0 l : loop) (hK : Hist s l0)
    (hr : Reach s wakeOpened l0 l) : Hist s l := by
  induction hr with
  | start => exact hK
  | step fd note sys err _ hok h ih => exact hist_step s _ _ fd note sys err hok h ih

/-- On a connection that is not opened and whose listener index is in range,
the poll callback returns nil with the connection opened. -/
theorem open_returns (s : server) (l : loop) (fd : Int) (note : Note) (sys : Sys) (c : Nat)
    (hfd : fd ≠ 0) (hc : l.fdconns fd = some c) (ho : (l.heap c).opened = false)
    (hln : s.ln (l.heap c).lnidx ≠ none) :
    ∃ l', activateSubReactor s l fd note sys = Outcome.ret none l' ∧
      (l'.heap c).opened = true := by
  obtain ⟨ln, hln'⟩ := Option.ne_none_iff_exists'.1 hln
  have h : ∃ l', loopOpened s l c sys = Outcome.ret none l' := by
    simp only [loopOpened, hln']
    exact ⟨_, rfl⟩
  obtain ⟨l', h⟩ := h
  rw [activateSubReactor_open s l fd note sys c hfd hc ho]
  exact ⟨l', h, (loopOpened_run s l c sys none l' h (allows_later c)).2.2.1⟩

/-- C6, as amended. Start a loop with an empty log and no opened connection,
and deliver any sequence of poll events and trigger notes in which a
connection wake that is not stale is for an opened connection.  Then
`OnOpened` has been invoked at most once for each connection: not at all
while its `opened` flag is unset, and, when `OnOpened` is supplied, exactly
once as soon as the flag is set; the first poll event on the descriptor of an
unopened connection in the map (with a listener index in range) returns with
the flag set.  No transition has invoked `React`, `OnClosed` or `OnDetached`
on a connection whose `opened` flag was unset, and when `OnOpened` is
supplied its invocation precedes every invocation of those callbacks for the
same connection. -/
theorem onOpened_once_and_first (s : server) (l0 l : loop) (hlog : l0.log = [])
    (hfresh : ∀ r, (l0.heap r).opened = false) (hr : Reach s wakeOpened l0 l) :
    (∀ r, onOpenedCount r l.log ≤ 1) ∧
    (∀ r, (l.heap r).opened = false → onOpenedCount r l.log = 0) ∧
    (s.events.OnOpened ≠ none → ∀ r, (l.heap r).opened = true → onOpenedCount r l.log = 1) ∧
    (∀ fd note sys c, fd ≠ 0 → l.fdconns fd = some c → (l.heap c).opened = false →
      s.ln (l.heap c).lnidx ≠ none →
      ∃ l', activateSubReactor s l fd note sys = Outcome.ret none l' ∧
        (l'.heap c).opened = true) ∧
    (∀ e ∈ l.log, e.handedOpened) ∧
    (s.events.OnOpened ≠ none → ∀ r, Precedes l.log r) := by
  have h0 : Hist s l0 :=
    { handed := by simp [hlog]
      quiet := by simp [hlog]
      once := by simp [hlog, onOpenedCount]
      fired := fun _ r hr => by rw [hfresh r] at hr; cases hr
      first := fun _ r pre e post h _ => by rw [hlog] at h; simp at h }
  have hK := hist_reach s l0 l h0 hr
  refine ⟨hK.once, ?_, ?_, ?_, hK.handed, hK.first⟩
  · intro r ho
    exact List.countP_eq_zero.2 (fun e he hon => hK.quiet r ho e he (isOnOpened_conn hon))
  · intro hs r ho
    obtain ⟨snap, hmem⟩ := hK.fired hs r ho
    have hpos : 0 < onOpenedCount r l.log :=
      List.countP_pos_iff.2 ⟨_, hmem, by simp [Ev.isOnOpened]⟩
    have := hK.once r
    omega
  · intro fd note sys c hfd hc ho hln
    exact open_returns s l fd note sys c hfd hc ho hln

/-- C6 from an empty loop: the connection on descriptor 7 is handed off, its
first poll event runs Open and its second one reads 2 bytes, which `React`
sees.  `OnOpened` was invoked once, before `React`. -/
theorem onOpened_once_and_first_witness :
    ∃ l, Reach exServerCb wakeOpened (exLoop 0 exConnFresh) l ∧
      l.log.map Ev.conn? = [some 1, none, some 1] ∧
      onOpenedCount 1 l.log = 1 ∧ Precedes l.log 1 := by
  have h1 : Reach exServerCb wakeOpened (exLoop 0 exConnFresh)
      { exLoop 0 exConnFresh with
        fdconns := Function.update (exLoop 0 exConnFresh).fdconns 7 (some 1),
        poll := (exLoop 0 exConnFresh).poll.AddReadWrite 7 } :=
    Reach.step 0 (Note.signal ⟨7, some 1⟩) exSys none Reach.start
      (fun _ v hv => by cases hv) rfl
  have h2 := Reach.step 7 Note.nil exSys none h1 (fun h => absurd h (by decide)) rfl
  have h3 := Reach.step 7 Note.nil { exSys with read := SysRes.ok 2, packet := [8, 9] } none h2
    (fun h => absurd h (by decide)) rfl
  have h := onOpened_once_and_first exServerCb (exLoop 0 exConnFresh) _ rfl (fun _ => rfl) h3
  exact ⟨_, h3, rfl, h.2.2.1 (by simp [exServerCb]) 1 rfl, h.2.2.2.2.2 (by simp [exServerCb]) 1⟩

/-- C6 as stated fails: a connection-wake note for a connection that is in
the map but not opened yet invokes `React` on it, with its `opened` flag
unset and before any `OnOpened`. -/
theorem react_before_onOpened :
    (exLoop7 exConnFresh).log = [] ∧ ((exLoop7 exConnFresh).heap 1).opened = false ∧
    ∃ l', activateSubReactor exServerCb (exLoop7 exConnFresh) 0 (Note.conn (some 1)) exSys =
        Outcome.ret none l' ∧
      l'.log = [Ev.React 1 exConnFresh] ∧ exConnFresh.opened = false ∧
      onOpenedCount 1 l'.log = 0 ∧ ¬ Precedes l'.log 1 := by
  refine ⟨rfl, rfl, _, rfl, rfl, rfl, rfl, ?_⟩
  intro h
  obtain ⟨snap, hmem⟩ := h [] (Ev.React 1 exConnFresh) [] rfl rfl
  cases hmem

/-! ## C11: the Close transition -/

/-- C11. `loopCloseConn` removes the map entry of `c.fd` and no other,
leaves the heap and the poller as they are, closes `c.fd` once, invokes
`OnClosed` once with `(c, err)` when it is supplied and not at all otherwise,
and returns `errClosing` exactly when `OnClosed` is supplied and answers
`Shutdown`; in every other case it returns nil. -/
theorem close_postcondition (s : server) (l : loop) (c : Nat) (err : Option Error) :
    (loopCloseConn s l c err).2.fdconns (l.heap c).fd = none ∧
    (∀ fd, fd ≠ (l.heap c).fd → (loopCloseConn s l c err).2.fdconns fd = l.fdconns fd) ∧
    (loopCloseConn s l c err).2.heap = l.heap ∧
    (loopCloseConn s l c err).2.poll = l.poll ∧
    (loopCloseConn s l c err).2.log =
      l.log ++ Ev.Close (l.heap c).fd ::
        (match s.events.OnClosed with
         | some _ => [Ev.OnClosed c (l.heap c) err]
         | none => []) ∧
    ((loopCloseConn s l c err).1 = some Error.errClosing ↔
      ∃ f, s.events.OnClosed = some f ∧ f (l.heap c) err = Action.Shutdown) ∧
    ((loopCloseConn s l c err).1 ≠ some Error.errClosing →
      (loopCloseConn s l c err).1 = none) := by
  refine ⟨by simp, fun fd hfd => by simp [Function.update_noteq hfd], by simp, by simp,
    loopCloseConn_log_eq s l c err, ?_, ?_⟩
  · cases hO : s.events.OnClosed with
    | none => simp [loopCloseConn, hO]
    | some f =>
      simp only [loopCloseConn, hO]
      generalize hf : f (l.heap c) err = a
      cases a <;> simp [hf]
  · intro h
    rcases loopCloseConn_err s l c err with h1 | h1
    · exact h1
    · exact absurd h1 h

/-! ## C12: the Detach transition -/

/-- C12, as amended. Without `OnDetached`, `loopDetachConn` is
`loopCloseConn` on the same arguments.  With `OnDetached` supplied and
`SetNonblock(c.fd, false)` succeeding, the descriptor is deregistered from
the poller (nothing else of the poller changes), the entry of `c.fd` leaves
the map and no other does, the heap is unchanged, the only events are the
`SetNonblock(c.fd, false)` call followed by one invocation of `OnDetached`
with `c` and a handle carrying `c.fd` (so the descriptor is not closed and
`OnClosed` is not invoked), and the result is `errClosing` exactly when
`OnDetached` answers `Shutdown`, nil otherwise. -/
theorem detach_postcondition (s : server) (l : loop) (c : Nat) (err : Option Error)
    (sys : Sys) :
    (s.events.OnDetached = none →
      loopDetachConn s l c err sys = loopCloseConn s l c err) ∧
    (∀ f, s.events.OnDetached = some f → sys.setNonblock = none →
      (loopDetachConn s l c err sys).2.poll = l.poll.ModDetach (l.heap c).fd ∧
      (loopDetachConn s l c err sys).2.poll.interest (l.heap c).fd = none ∧
      (∀ fd, fd ≠ (l.heap c).fd →
        (loopDetachConn s l c err sys).2.poll.interest fd = l.poll.interest fd) ∧
      (loopDetachConn s l c err sys).2.fdconns (l.heap c).fd = none ∧
      (∀ fd, fd ≠ (l.heap c).fd →
        (loopDetachConn s l c err sys).2.fdconns fd = l.fdconns fd) ∧
      (loopDetachConn s l c err sys).2.heap = l.heap ∧
      (loopDetachConn s l c err sys).2.log =
        l.log ++ [Ev.SetNonblock (l.heap c).fd false,
                  Ev.OnDetached c (l.heap c) (l.heap c).fd] ∧
      ((loopDetachConn s l c err sys).1 = some Error.errClosing ↔
        f (l.heap c) (l.heap c).fd = Action.Shutdown) ∧
      ((loopDetachConn s l c err sys).1 ≠ some Error.errClosing →
        (loopDetachConn s l c err sys).1 = none)) := by
  constructor
  · intro h; simp [loopDetachConn, h]
  · intro f hD hS
    simp only [loopDetachConn, hD, hS]
    generalize f (l.heap c) (l.heap c).fd = a
    have hi : ∀ fd, fd ≠ (l.heap c).fd →
        (l.poll.ModDetach (l.heap c).fd).interest fd = l.poll.interest fd := by
      intro fd hfd; simp [Poll.ModDetach, Function.update_noteq hfd]
    have hm : ∀ fd, fd ≠ (l.heap c).fd →
        Function.update l.fdconns (l.heap c).fd none fd = l.fdconns fd := by
      intro fd hfd; simp [Function.update_noteq hfd]
    cases a <;>
      exact ⟨rfl, by simp [Poll.ModDetach], hi, by simp, hm, rfl, by simp, by simp, by simp⟩

/-- C12 on descriptor 7, with an `OnDetached` that answers `None` and a
`SetNonblock` that succeeds: `OnDetached` runs once and nil is returned. -/
theorem detach_postcondition_witness :
    (loopDetachConn exServerCb (exLoop7 exConnDetach) 1 none exSys).2.log =
      [Ev.SetNonblock 7 false, Ev.OnDetached 1 exConnDetach 7] ∧
    (loopDetachConn exServerCb (exLoop7 exConnDetach) 1 none exSys).1 = none := by
  have h := (detach_postcondition exServerCb (exLoop7 exConnDetach) 1 none exSys).2 _ rfl rfl
  exact ⟨h.2.2.2.2.2.2.1, h.2.2.2.2.2.2.2.2 (by decide)⟩

/-- C12 as stated fails when `SetNonblock(c.fd, false)` fails: with an
`OnDetached` that answers `Shutdown`, `loopDetachConn` returns the errno and
not `errClosing`, and `OnDetached` is not invoked (the log holds the
`SetNonblock` call only). -/
theorem detach_without_onDetached :
    (∃ f, exServerShut.events.OnDetached = some f ∧
      f ((exLoop7 exConnDetach).heap 1) 7 = Action.Shutdown) ∧
    (loopDetachConn exServerShut (exLoop7 exConnDetach) 1 none exSysBadf).1 =
      some (Error.sys (Errno.other 9)) ∧
    (loopDetachConn exServerShut (exLoop7 exConnDetach) 1 none exSysBadf).1 ≠
      some Error.errClosing ∧
    (loopDetachConn exServerShut (exLoop7 exConnDetach) 1 none exSysBadf).2.log =
      [Ev.SetNonblock 7 false] :=
  ⟨⟨_, rfl, rfl⟩, rfl, by decide, rfl⟩

/-! ## C13: the Read transition -/

theorem loopCloseConn_logExt (s : server) (l : loop) (c : Nat) (err : Option Error)
    (P : Ev → Prop) (hC : ∀ fd, P (Ev.Close fd)) (hO : ∀ r snap e, P (Ev.OnClosed r snap e)) :
    LogExt P l (loopCloseConn s l c err).2 := by
  refine ⟨_, loopCloseConn_log_eq s l c err, ?_⟩
  intro e he
  cases h : s.events.OnClosed <;> simp [h] at he
  · subst he; exact hC _
  · rcases he with rfl | rfl
    · exact hC _
    · exact hO _ _ _

theorem sendIfAny_logExt (s : server) (l : loop) (c : Nat) (buf : List Byte) (sys : Sys)
    (P : Ev → Prop) (hW : ∀ fd b r, P (Ev.Write fd b r)) (hC : ∀ fd, P (Ev.Close fd))
    (hO : ∀ r snap e, P (Ev.OnClosed r snap e)) : LogExt P l (sendIfAny s l c buf sys) := by
  simp only [sendIfAny]
  split
  · simp only [sendOut]
    split
    · exact (LogExt.logExt_refl P l).of_log_eq rfl
    · split
      · split
        · exact ((LogExt.logExt_refl P l).of_log_eq rfl).logExt_emit _ (hW _ _ _)
        · exact (((LogExt.logExt_refl P l).of_log_eq rfl).logExt_emit _
            (hW _ _ _)).logExt_trans (loopCloseConn_logExt _ _ _ _ P hC hO)
      · exact (((LogExt.logExt_refl P l).of_log_eq rfl).logExt_emit _ (hW _ _ _)).of_log_eq rfl
  · exact LogExt.logExt_refl P l

/-- The `React` block logs the invocation of `React` on the connection as it
is, then events that are no `React`; it stores the action and what `React`
left of the inbound buffer. -/
theorem react_spec (s : server) (l : loop) (c : Nat)
    (f : conn → List Byte × Action × List Byte) (sys : Sys) :
    (∃ evs, (react s l c f sys).log = l.log ++ Ev.React c (l.heap c) :: evs ∧
      ∀ e ∈ evs, e.notReact) ∧
    ((react s l c f sys).heap c).action = (f (l.heap c)).2.1 ∧
    ((react s l c f sys).heap c).inBuf = (f (l.heap c)).2.2 := by
  simp only [react]
  constructor
  · obtain ⟨evs, hevs, hp⟩ := sendIfAny_logExt s
      ((l.emit (Ev.React c (l.heap c))).setConn c
        { l.heap c with inBuf := (f (l.heap c)).2.2, action := (f (l.heap c)).2.1 })
      c (f (l.heap c)).1 sys Ev.notReact (by simp [Ev.notReact]) (by simp [Ev.notReact])
      (by simp [Ev.notReact])
    exact ⟨evs, by simpa using hevs, hp⟩
  · obtain ⟨ob, hob⟩ := sendIfAny_heap s
      ((l.emit (Ev.React c (l.heap c))).setConn c
        { l.heap c with inBuf := (f (l.heap c)).2.2, action := (f (l.heap c)).2.1 })
      c (f (l.heap c)).1 sys
    rw [hob]
    simp

/-- C13. `loopRead` on the outcome of the non-blocking read: (i) on EAGAIN it
returns nil and nothing changes but the log, which gains the `read` call (no
callback); (ii) on 0 bytes, or on an error other than EAGAIN, it is
`loopCloseConn(c, err)` run after the `read` call, which logs no `React`;
(iii) on `n > 0` bytes it returns nil, having appended the first `n` bytes of
the scratch buffer to `c.inBuf`; without `React` nothing else happens, with
`React` it is invoked exactly once, on the connection with those bytes
appended, and its action is stored in `c.action`. -/
theorem read_transition (s : server) (l : loop) (c : Nat) (sys : Sys) :
    (sys.read = SysRes.fail Errno.EAGAIN →
      (loopRead s l c sys).1 = none ∧ (loopRead s l c sys).2.heap = l.heap ∧
      (loopRead s l c sys).2.fdconns = l.fdconns ∧ (loopRead s l c sys).2.poll = l.poll ∧
      (loopRead s l c sys).2.log = l.log ++ [Ev.Read (l.heap c).fd]) ∧
    (∀ e, sys.read = SysRes.fail e → e ≠ Errno.EAGAIN →
      loopRead s l c sys =
        loopCloseConn s (l.emit (Ev.Read (l.heap c).fd)) c (some (Error.sys e))) ∧
    (sys.read = SysRes.ok 0 →
      loopRead s l c sys = loopCloseConn s (l.emit (Ev.Read (l.heap c).fd)) c none) ∧
    (∀ err, ∀ e ∈ (loopCloseConn s (l.emit (Ev.Read (l.heap c).fd)) c err).2.log.drop
      l.log.length, e.notReact) ∧
    (∀ n, sys.read = SysRes.ok n → n ≠ 0 →
      (loopRead s l c sys).1 = none ∧
      (s.events.React = none →
        (loopRead s l c sys).2.heap = Function.update l.heap c
          { l.heap c with inBuf := (l.heap c).inBuf ++ sys.packet.take n } ∧
        (loopRead s l c sys).2.log = l.log ++ [Ev.Read (l.heap c).fd]) ∧
      (∀ f, s.events.React = some f →
        (∃ evs, (loopRead s l c sys).2.log =
            l.log ++ Ev.Read (l.heap c).fd ::
              Ev.React c { l.heap c with inBuf := (l.heap c).inBuf ++ sys.packet.take n } ::
              evs ∧
          ∀ e ∈ evs, e.notReact) ∧
        ((loopRead s l c sys).2.heap c).action =
          (f { l.heap c with inBuf := (l.heap c).inBuf ++ sys.packet.take n }).2.1 ∧
        ((loopRead s l c sys).2.heap c).inBuf =
          (f { l.heap c with inBuf := (l.heap c).inBuf ++ sys.packet.take n }).2.2)) := by
  refine ⟨?_, ?_, ?_, ?_, ?_⟩
  · intro h; simp [loopRead, h]
  · intro e h hne; simp [loopRead, h, hne]
  · intro h; simp [loopRead, h]
  · intro err e he
    rw [loopCloseConn_log_eq] at he
    simp only [emit_log, List.append_assoc, List.drop_left, emit_heap] at he
    cases hO : s.events.OnClosed <;> simp [hO] at he
    · rcases he with rfl | rfl <;> simp [Ev.notReact]
    · rcases he with rfl | rfl | rfl <;> simp [Ev.notReact]
  · intro n h hn
    refine ⟨by simp [loopRead, h, hn], ?_, ?_⟩
    · intro hR
      simp [loopRead, h, hn, hR, ringbuffer.Write]
    · intro f hR
      simp only [loopRead, h, hn, hR, if_false, modReadWriteIfPending_log,
        modReadWriteIfPending_heap, ringbuffer.Write]
      obtain ⟨⟨evs, hevs, hp⟩, ha, hi⟩ := react_spec s
        ((l.emit (Ev.Read (l.heap c).fd)).setConn c
          { l.heap c with inBuf := (l.heap c).inBuf ++ sys.packet.take n }) c f sys
      simp only [setConn_heap, Function.update_same, setConn_log, emit_log,
        List.append_assoc, List.singleton_append] at hevs ha hi
      exact ⟨⟨evs, hevs, hp⟩, ha, hi⟩

/-- C13 on descriptor 7: the read delivers 2 bytes of the scratch buffer
`[5, 6, 0, 0]`; `React` is invoked once on the connection whose inbound
buffer ends in `[5, 6]`. -/
theorem read_transition_witness :
    (loopRead exServerCb (exLoop7 exConn) 1 exSysRecv).1 = none ∧
    (loopRead exServerCb (exLoop7 exConn) 1 exSysRecv).2.log =
      [Ev.Read 7, Ev.React 1 { exConn with inBuf := [1, 2, 5, 6] }] := by
  have h := (read_transition exServerCb (exLoop7 exConn) 1 exSysRecv).2.2.2.2 2 rfl (by decide)
  exact ⟨h.1, rfl⟩

/-! ## C14: the Action transition -/

/-- C14. `loopAction` on the action stored on `c`: for `Close` it is
`loopCloseConn(c, nil)`; for `Shutdown` it returns `errClosing` and changes
nothing (the connection stays in the map, is not closed, keeps its
interest); for `Detach` it is `loopDetachConn(c, nil)`; for any other value
it returns nil, stores `None` in `c.action`, changes nothing else of the
heap, the map or the log, and calls `ModRead(c.fd)` exactly when `c.outBuf`
is empty, so that a registered descriptor then has read-only interest and
otherwise keeps its interest. -/
theorem action_transition (s : server) (l : loop) (c : Nat) (sys : Sys) :
    ((l.heap c).action = Action.Close →
      loopAction s l c sys = loopCloseConn s l c none) ∧
    ((l.heap c).action = Action.Shutdown →
      loopAction s l c sys = (some Error.errClosing, l)) ∧
    ((l.heap c).action = Action.Detach →
      loopAction s l c sys = loopDetachConn s l c none sys) ∧
    ((l.heap c).action ≠ Action.Close → (l.heap c).action ≠ Action.Shutdown →
      (l.heap c).action ≠ Action.Detach →
      (loopAction s l c sys).1 = none ∧
      (loopAction s l c sys).2.heap =
        Function.update l.heap c { l.heap c with action := Action.None } ∧
      (loopAction s l c sys).2.fdconns = l.fdconns ∧
      (loopAction s l c sys).2.log = l.log ∧
      (loopAction s l c sys).2.poll =
        (if (l.heap c).outBuf = [] then l.poll.ModRead (l.heap c).fd else l.poll) ∧
      (l.poll.interest (l.heap c).fd ≠ none →
        ((l.heap c).outBuf = [] →
          (loopAction s l c sys).2.poll.interest (l.heap c).fd = some Interest.Read) ∧
        ((l.heap c).outBuf ≠ [] →
          (loopAction s l c sys).2.poll.interest (l.heap c).fd =
            l.poll.interest (l.heap c).fd))) := by
  refine ⟨?_, ?_, ?_, ?_⟩
  · intro h; simp [loopAction, h]
  · intro h; simp [loopAction, h]
  · intro h; simp [loopAction, h]
  · intro h1 h2 h3
    have hp : (loopAction s l c sys).2.poll =
        (if (l.heap c).outBuf = [] then l.poll.ModRead (l.heap c).fd else l.poll) := by
      simp only [loopAction]
      by_cases hb : (l.heap c).outBuf = [] <;>
        simp [modReadIfIdle_poll, conn.pending, hb]
    have hrest : (loopAction s l c sys).1 = none ∧
        (loopAction s l c sys).2.heap =
          Function.update l.heap c { l.heap c with action := Action.None } ∧
        (loopAction s l c sys).2.fdconns = l.fdconns ∧
        (loopAction s l c sys).2.log = l.log := by
      simp only [loopAction]
      simp
    refine ⟨hrest.1, hrest.2.1, hrest.2.2.1, hrest.2.2.2, hp, ?_⟩
    intro hreg
    rw [hp]
    constructor
    · intro hb; simp [hb, Poll.ModRead_interest, hreg]
    · intro hb; simp [hb]

/-- C14 on descriptor 7, whose connection carries an action outside the four
named ones and has nothing to send: the action is reset and the interest
becomes read-only. -/
theorem action_transition_witness :
    ((loopAction exServerCb (exLoop7 { exConnClose with action := Action.other 7 }) 1
      exSys).2.heap 1).action = Action.None ∧
    (loopAction exServerCb (exLoop7 { exConnClose with action := Action.other 7 }) 1
      exSys).2.poll.interest 7 = some Interest.Read := by
  have h := (action_transition exServerCb
    (exLoop7 { exConnClose with action := Action.other 7 }) 1 exSys).2.2.2
    (by decide) (by decide) (by decide)
  exact ⟨by rw [h.2.1]; rfl, (h.2.2.2.2.2 (by decide)).1 rfl⟩

/-! ## C15: the tick note -/

/-- C15. With `Tick` supplied and answering `(delay, action)`, `loopNote` on
a tick note invokes `Tick` once and then publishes exactly `delay` to the
tick channel, whatever the action; the map, the heap and the poller are
unchanged; it returns `errClosing` if `action` is `Shutdown` and nil for
every other action. -/
theorem tick_note (s : server) (l : loop) (d : Int) (sys : Sys) (delay : Int)
    (action : Action) (hT : s.events.Tick = some (delay, action)) :
    ∃ err l', loopNote s l (Note.tick d) sys = Outcome.ret err l' ∧
      l'.log = l.log ++ [Ev.Tick, Ev.tch delay] ∧
      l'.fdconns = l.fdconns ∧ l'.heap = l.heap ∧ l'.poll = l.poll ∧
      (err = some Error.errClosing ↔ action = Action.Shutdown) ∧
      (action ≠ Action.Shutdown → err = none) := by
  refine ⟨if action = Action.Shutdown then some Error.errClosing else none,
    (l.emit Ev.Tick).emit (Ev.tch delay), by simp only [loopNote, hT], by simp, rfl, rfl, rfl,
    ?_, ?_⟩
  · by_cases h : action = Action.Shutdown <;> simp [h]
  · intro h; simp [h]

/-- C15 with a `Tick` that answers `(10, Shutdown)`: the delay 10 is
published and `errClosing` returned. -/
theorem tick_note_witness :
    ∃ l', loopNote exServerUdp (exLoop 0 exConn) (Note.tick 0) exSys =
        Outcome.ret (some Error.errClosing) l' ∧
      l'.log = [Ev.Tick, Ev.tch 10] := by
  obtain ⟨err, l', h, hlog, _, _, _, herr, _⟩ :=
    tick_note exServerUdp (exLoop 0 exConn) 0 exSys 10 Action.Shutdown rfl
  have he : err = some Error.errClosing := herr.2 rfl
  subst he
  exact ⟨l', h, hlog⟩

/-! ## C16: datagrams -/

/-- C16. `loopUDPRead` changes neither the map, nor the poller, nor the heap.
When `recvfrom` fails or delivers 0 bytes, or when `React` is not supplied,
it returns nil and logs the `recvfrom` call only.  When `recvfrom` delivers
`n > 0` bytes from `sa` and `React` is supplied, `React` is invoked once, on
a connection whose inbound buffer holds exactly the first `n` bytes of the
scratch buffer; if `React` has output, `PreWrite` (when supplied) and then one
`sendto` of that output to `sa` on the same descriptor follow, and nothing
follows if it has none; the result is `errClosing` exactly when `React`
answers `Shutdown`, nil otherwise. -/
theorem udp_read (s : server) (l : loop) (lnidx : Int) (lnaddr : Option Addr) (fd : Int)
    (sys : Sys) :
    ((loopUDPRead s l lnidx lnaddr fd sys).2.fdconns = l.fdconns ∧
      (loopUDPRead s l lnidx lnaddr fd sys).2.poll = l.poll ∧
      (loopUDPRead s l lnidx lnaddr fd sys).2.heap = l.heap) ∧
    ((∃ e, sys.recvfrom = RecvRes.fail e) ∨ (∃ sa, sys.recvfrom = RecvRes.ok 0 sa) ∨
        s.events.React = none →
      (loopUDPRead s l lnidx lnaddr fd sys).1 = none ∧
      (loopUDPRead s l lnidx lnaddr fd sys).2.log = l.log ++ [Ev.Recvfrom fd]) ∧
    (∀ n sa f, sys.recvfrom = RecvRes.ok n sa → n ≠ 0 → s.events.React = some f →
      (udpConn s lnidx lnaddr sa sys.packet n).inBuf = sys.packet.take n ∧
      (loopUDPRead s l lnidx lnaddr fd sys).2.log =
        l.log ++ Ev.Recvfrom fd :: Ev.React sys.alloc (udpConn s lnidx lnaddr sa sys.packet n) ::
          (if (f (udpConn s lnidx lnaddr sa sys.packet n)).1 = [] then []
           else (if s.events.PreWrite then [Ev.PreWrite] else []) ++
             [Ev.Sendto fd (f (udpConn s lnidx lnaddr sa sys.packet n)).1 sa]) ∧
      ((loopUDPRead s l lnidx lnaddr fd sys).1 = some Error.errClosing ↔
        (f (udpConn s lnidx lnaddr sa sys.packet n)).2.1 = Action.Shutdown) ∧
      ((loopUDPRead s l lnidx lnaddr fd sys).1 ≠ some Error.errClosing →
        (loopUDPRead s l lnidx lnaddr fd sys).1 = none)) := by
  refine ⟨?_, ?_, ?_⟩
  · simp only [loopUDPRead]
    split
    · exact ⟨rfl, rfl, rfl⟩
    · split
      · exact ⟨rfl, rfl, rfl⟩
      · split
        · exact ⟨rfl, rfl, rfl⟩
        · split <;> (split <;> [split; skip]) <;> exact ⟨rfl, rfl, rfl⟩
  · rintro (⟨e, h⟩ | ⟨sa, h⟩ | h)
    · simp [loopUDPRead, h]
    · simp [loopUDPRead, h]
    · simp only [loopUDPRead, h]
      split
      · exact ⟨rfl, rfl⟩
      · split <;> exact ⟨rfl, rfl⟩
  · intro n sa f h hn hR
    refine ⟨by simp [udpConn, ringbuffer.Write, ringbuffer.New], ?_⟩
    simp only [loopUDPRead, h, hn, hR, if_false]
    change _ ∧ _ ∧ _
    generalize hr : f (udpConn s lnidx lnaddr sa sys.packet n) = r
    have hr' : f { conn.zero with
        addrIndex := lnidx, localAddr := lnaddr,
        remoteAddr := s.SockaddrToAddr (some (sa6Of sa)),
        inBuf := ringbuffer.Write (ringbuffer.New RingBufferSize) (sys.packet.take n) } = r := hr
    simp only [hr']
    obtain ⟨out, act, rest⟩ := r
    by_cases ho : out = [] <;> cases hp : s.events.PreWrite <;> cases act <;>
      simp [ho, hp, udpConn, List.length_pos]

/-- C16 on the UDP listener 4: a datagram of 2 bytes from an IPv4 peer makes
`React` run once on the inbound buffer `[5, 6]`; its output `[9]` is sent
back to that peer after `PreWrite`. -/
theorem udp_read_witness :
    (loopUDPRead exServerUdp (exLoop 0 exConn) 0 none 4 exSysRecv).1 = none ∧
    (loopUDPRead exServerUdp (exLoop 0 exConn) 0 none 4 exSysRecv).2.log =
      [Ev.Recvfrom 4,
       Ev.React 0 (udpConn exServerUdp 0 none (some (Sockaddr.Inet4 9000 10 0 0 1))
         [5, 6, 0, 0] 2),
       Ev.PreWrite, Ev.Sendto 4 [9] (some (Sockaddr.Inet4 9000 10 0 0 1))] ∧
    (udpConn exServerUdp 0 none (some (Sockaddr.Inet4 9000 10 0 0 1)) [5, 6, 0, 0] 2).inBuf =
      [5, 6] := by
  have h := (udp_read exServerUdp (exLoop 0 exConn) 0 none 4 exSysRecv).2.2 2 _ _ rfl
    (by decide) rfl
  exact ⟨h.2.2.2 (by decide), rfl, rfl⟩

/-! ## C17: slots of the dispatch table -/

theorem ringSlot_eq_emod (S : Int) : (ringSlot S : Int) = S % 1024 := by
  unfold ringSlot RingBufferMask RingBufferSize
  cases S with
  | ofNat n =>
    have h : Int.land (Int.ofNat n) ((1024 - 1 : Nat) : Int) = ((n &&& (2 ^ 10 - 1) : Nat) : Int) :=
      rfl
    rw [h, Nat.and_pow_two_sub_one_eq_mod, Int.toNat_ofNat]
    simp
  | negSucc m =>
    have h : Int.land (Int.negSucc m) ((1024 - 1 : Nat) : Int) = ((Nat.ldiff 1023 m : Nat) : Int) :=
      rfl
    have h2 : Nat.ldiff 1023 m = 2 ^ 10 - (m % 2 ^ 10 + 1) := by
      apply Nat.eq_of_testBit_eq
      intro i
      rw [Nat.testBit_ldiff, Nat.testBit_two_pow_sub_succ (Nat.mod_lt _ (by norm_num)),
        Nat.testBit_mod_two_pow]
      have h1023 : (1023 : Nat) = 2 ^ 10 - (0 + 1) := by norm_num
      rw [h1023, Nat.testBit_two_pow_sub_succ (by norm_num)]
      by_cases hi : i < 10 <;> simp [hi]
    rw [h, h2, Int.toNat_ofNat, Int.negSucc_emod m (by norm_num)]
    have : m % 2 ^ 10 < 2 ^ 10 := Nat.mod_lt _ (by norm_num)
    omega

theorem ringSlot_lt (S : Int) : ringSlot S < RingBufferSize := by
  have h := ringSlot_eq_emod S
  have h2 : S % 1024 < 1024 := Int.emod_lt_of_pos S (by norm_num)
  unfold RingBufferSize
  omega

theorem ringSlot_eq_iff (S S' : Int) : ringSlot S = ringSlot S' ↔ (1024 : Int) ∣ S - S' := by
  have h1 := ringSlot_eq_emod S
  have h2 := ringSlot_eq_emod S'
  constructor
  · intro h
    rw [h] at h1
    have : S % 1024 = S' % 1024 := by rw [← h1, ← h2]
    exact Int.dvd_of_emod_eq_zero (Int.emod_eq_emod_iff_emod_sub_eq_zero.1 this)
  · intro h
    have : S % 1024 = S' % 1024 :=
      Int.emod_eq_emod_iff_emod_sub_eq_zero.2 (Int.emod_eq_zero_of_dvd h)
    rw [← h1, ← h2] at this
    exact_mod_cast this

theorem publishAll_other (later : List (Int × Nat)) :
    ∀ (ring : Nat → Option Nat) (k : Nat), (∀ p ∈ later, ringSlot p.1 ≠ k) →
      publishAll ring later k = ring k := by
  induction later with
  | nil => intro ring k _; rfl
  | cons p rest ih =>
    intro ring k h
    rw [publishAll, ih _ k (fun q hq => h q (List.mem_cons_of_mem _ hq)), publish,
      Function.update_noteq (Ne.symm (h p (List.mem_cons_self _ _)))]

/-- C17. For every sequence value `S`, 64-bit or not, the index
`S & RingBufferMask` is below 1024 and equals `S mod 1024` (for `S >= 0` the
remainder of the division).  Two sequences have the same slot if and only if
they differ by a multiple of 1024.  So after the producer's store of `c` at
`S`, followed by the stores `later` of the producer, which are at sequences
above `S`, none of them a sequence `S' > S` congruent to `S` modulo 1024, the
slot of `S` still holds `c`: the consumer's load at `S` finds `c`, and the
note for it is `signal{c.fd, c}`. -/
theorem ring_slot_addressing (S S' : Int) (ring : Nat → Option Nat) (c : Nat)
    (later : List (Int × Nat)) (l : loop) :
    ringSlot S < RingBufferSize ∧
    (ringSlot S : Int) = S % 1024 ∧
    (0 ≤ S → ringSlot S = S.toNat % 1024) ∧
    (ringSlot S = ringSlot S' ↔ (1024 : Int) ∣ S - S') ∧
    ((∀ p ∈ later, S < p.1) → (∀ p ∈ later, S < p.1 → ¬ (1024 : Int) ∣ p.1 - S) →
      publishAll (publish ring S c) later (ringSlot S) = some c ∧
      handoff (publishAll (publish ring S c) later) l S =
        some (Note.signal { fd := (l.heap c).fd, c := some c })) := by
  refine ⟨ringSlot_lt S, ringSlot_eq_emod S, ?_, ringSlot_eq_iff S S', ?_⟩
  · intro h
    have := ringSlot_eq_emod S
    omega
  · intro hgt hno
    have h : ∀ p ∈ later, ¬ (1024 : Int) ∣ p.1 - S := fun p hp => hno p hp (hgt p hp)
    have hs : publishAll (publish ring S c) later (ringSlot S) = some c := by
      rw [publishAll_other later _ _ (fun p hp heq => h p hp ((ringSlot_eq_iff _ _).1 heq))]
      simp [publish]
    exact ⟨hs, by simp [handoff, hs]⟩

/-- C17 on the sequences 5 and 1029, which share slot 5, and 6, which does
not: a store at 6 after the store at 5 leaves the connection of 5 in place. -/
theorem ring_slot_addressing_witness :
    ringSlot 5 = ringSlot 1029 ∧ ringSlot 5 ≠ ringSlot 6 ∧
    publishAll (publish (fun _ => none) 5 1) [(6, 2)] (ringSlot 5) = some 1 := by
  have h := ring_slot_addressing 5 1029 (fun _ => none) 1 [(6, 2)] (exLoop 0 exConn)
  have h6 := (ring_slot_addressing 5 6 (fun _ => none) 1 [] (exLoop 0 exConn)).2.2.2.1
  refine ⟨h.2.2.2.1.2 (by decide), fun heq => absurd (h6.1 heq) (by decide), ?_⟩
  exact (h.2.2.2.2
    (by
      intro p hp
      simp only [List.mem_singleton] at hp
      subst hp
      decide)
    (by
      intro p hp _
      simp only [List.mem_singleton] at hp
      subst hp
      decide)).1

/-! ## C18: the dispatched accept against the direct one -/

theorem mainAcceptFrom_ok (s : server) (m : mainReactor) (fd : Int) (sys : Sys) (nfd : Int)
    (sa : Option Sockaddr) (hacc : sys.accept = AcceptRes.ok nfd sa)
    (hnb : sys.setNonblock = none) :
    ∀ (lns : List listener) (i k : Nat) (ln : listener),
      lnIndex fd lns i = some (k, ln) → ln.pconn = false →
      mainAcceptFrom s m fd sys lns i = MainOutcome.ret none
        { mainLoop :=
            ((m.mainLoop.emit (Ev.Accept fd)).emit (Ev.SetNonblock nfd true)).setConn sys.alloc
              { conn.zero with fd := nfd, sa := sa, lnidx := k },
          connRingBuffer := publish m.connRingBuffer (m.sequence + 1) sys.alloc,
          sequence := m.sequence + 1 } := by
  intro lns
  induction lns with
  | nil => intro i k ln h; simp [lnIndex] at h
  | cons x rest ih =>
    intro i k ln h hp
    simp only [lnIndex] at h
    by_cases hx : x.fd = fd
    · simp only [hx, if_true, Option.some.injEq, Prod.mk.injEq] at h
      obtain ⟨hi, hl⟩ := h
      subst hi; subst hl
      simp [mainAcceptFrom, hx, hp, hacc, hnb, publish]
    · simp only [hx, if_false] at h
      simp only [mainAcceptFrom, hx, if_false]
      exact ih (i + 1) k ln h hp

theorem loopAcceptFrom_ok (s : server) (l : loop) (fd : Int) (sys : Sys) (nfd : Int)
    (sa : Option Sockaddr) (hacc : sys.accept = AcceptRes.ok nfd sa)
    (hnb : sys.setNonblock = none) :
    ∀ (lns : List listener) (i k : Nat) (ln : listener),
      lnIndex fd lns i = some (k, ln) → ln.pconn = false →
      loopAcceptFrom s l fd sys lns i =
        (none,
          { idx := l.idx,
            poll := l.poll.AddReadWrite nfd,
            fdconns := Function.update l.fdconns nfd (some sys.alloc),
            heap := Function.update l.heap sys.alloc (acceptedConn nfd sa k l.idx),
            log := l.log ++ [Ev.Accept fd, Ev.SetNonblock nfd true] }) := by
  intro lns
  induction lns with
  | nil => intro i k ln h; simp [lnIndex] at h
  | cons x rest ih =>
    intro i k ln h hp
    simp only [lnIndex] at h
    by_cases hx : x.fd = fd
    · simp only [hx, if_true, Option.some.injEq, Prod.mk.injEq] at h
      obtain ⟨hi, hl⟩ := h
      subst hi; subst hl
      simp [loopAcceptFrom, hx, hp, hacc, hnb, acceptedConn, loop.setConn, loop.emit,
        Poll.AddReadWrite]
    · simp only [hx, if_false] at h
      simp only [loopAcceptFrom, hx, if_false]
      exact ih (i + 1) k ln h hp

theorem consume_single (s : server) (ring : Nat → Option Nat) (l : loop) (S : Int) (c : Nat)
    (fuel : Nat) (hc : ring (ringSlot S) = some c) (hfuel : 1 < fuel)
    (h0 : 0 ≤ S) (h1 : S < 2 ^ 63 - 1)
    (hown : s.numLoops ≤ 1 ∨ S % s.numLoops = l.idx) :
    ∃ l2, eventConsumer.Consume { s := s, l := l } ring fuel S S = Consumed.done l2 ∧
      l2.idx = l.idx ∧ l2.fdconns = l.fdconns ∧ l2.log = l.log ∧
      l2.poll.interest = l.poll.interest ∧
      l2.heap = Function.update l.heap c
        { l.heap c with inBuf := ringbuffer.New RingBufferSize,
                        outBuf := ringbuffer.New RingBufferSize, loop := some l.idx } ∧
      l2.poll.notes = l.poll.notes ++ [Note.signal { fd := (l.heap c).fd, c := some c }] := by
  obtain ⟨l2, hl2, hidx, hmap, hlog, hint, hheap, hnotes⟩ := consumeOne_eq s ring l S c hc
  have ho : owns s l S := by
    unfold owns
    rintro ⟨hN, hne⟩
    rcases hown with h | h
    · omega
    · apply hne
      rw [Int.tmod_eq_emod h0 (by omega)]
      exact h
  rw [if_pos ho] at hnotes
  refine ⟨l2, ?_, hidx, hmap, hlog, hint, hheap, hnotes⟩
  obtain ⟨f, rfl⟩ : ∃ f, fuel = f + 2 := ⟨fuel - 2, by omega⟩
  have hw : wrap64 (S + 1) = S + 1 := wrap64_eq _ (by omega) (by omega)
  simp [eventConsumer.Consume, consumeLoop, hl2, hw]

/-- The handoff in a schedule in which, by the time loop `l` processes the
note, only its own consumer has worked on the connection.  Let `accept` on
the TCP listener of index `i` deliver descriptor `nfd` with peer address
`sa`, and let `SetNonblock` succeed.  The main reactor returns nil, having
built `conn{fd: nfd, sa: sa, lnidx: i}` and stored it at the next sequence;
the consumer of the owning loop `l` returns from `Consume` having reset both
buffers, set the loop pointer and Triggered `signal{nfd, conn}`; and
`loopNote` on that note returns nil.  The state of `l` then has the index,
the connection map, the connection objects and the poller interest that
`loopAccept` on `l` leaves. -/
theorem handoff_owner_only (s : server) (m : mainReactor) (l : loop) (fd nfd : Int)
    (sa : Option Sockaddr) (note : Note) (sys sys2 : Sys) (i : Nat) (ln : listener)
    (fuel : Nat)
    (hfd : fd ≠ 0) (hln : lnIndex fd s.lns 0 = some (i, ln)) (htcp : ln.pconn = false)
    (hacc : sys.accept = AcceptRes.ok nfd sa) (hnb : sys.setNonblock = none)
    (hseq : -1 ≤ m.sequence) (hseq2 : m.sequence + 1 < 2 ^ 63 - 1) (hfuel : 1 < fuel)
    (hown : s.numLoops ≤ 1 ∨ (m.sequence + 1) % s.numLoops = l.idx) :
    ∃ m1 l2 l3,
      activateMainReactor s m fd note sys = MainOutcome.ret none m1 ∧
      m1.mainLoop.heap sys.alloc = { conn.zero with fd := nfd, sa := sa, lnidx := i } ∧
      m1.sequence = m.sequence + 1 ∧
      m1.connRingBuffer = publish m.connRingBuffer m1.sequence sys.alloc ∧
      eventConsumer.Consume { s := s, l := l.setConn sys.alloc (m1.mainLoop.heap sys.alloc) }
        m1.connRingBuffer fuel m1.sequence m1.sequence = Consumed.done l2 ∧
      l2.poll.notes = l.poll.notes ++ [Note.signal { fd := nfd, c := some sys.alloc }] ∧
      loopNote s l2 (Note.signal { fd := nfd, c := some sys.alloc }) sys2 = Outcome.ret none l3 ∧
      (loopAccept s l fd sys).1 = none ∧
      l3.idx = (loopAccept s l fd sys).2.idx ∧
      l3.fdconns = (loopAccept s l fd sys).2.fdconns ∧
      l3.heap = (loopAccept s l fd sys).2.heap ∧
      l3.poll.interest = (loopAccept s l fd sys).2.poll.interest ∧
      l3.idx = l.idx ∧
      l3.fdconns nfd = some sys.alloc ∧
      l3.heap sys.alloc =
        { fd := nfd, lnidx := i, sa := sa, inBuf := [], outBuf := [], loop := some l.idx,
          opened := false, action := Action.None, addrIndex := 0, localAddr := none,
          remoteAddr := none } ∧
      (∀ k, k ≠ nfd → l3.fdconns k = l.fdconns k) ∧
      (∀ r, r ≠ sys.alloc → l3.heap r = l.heap r) ∧
      l3.poll.interest nfd = some Interest.ReadWrite ∧
      (∀ k, k ≠ nfd → l3.poll.interest k = l.poll.interest k) := by
  have hm := mainAcceptFrom_ok s m fd sys nfd sa hacc hnb s.lns 0 i ln hln htcp
  have hd := loopAcceptFrom_ok s l fd sys nfd sa hacc hnb s.lns 0 i ln hln htcp
  have hslot : publish m.connRingBuffer (m.sequence + 1) sys.alloc (ringSlot (m.sequence + 1)) =
      some sys.alloc := by simp [publish]
  obtain ⟨l2, hl2, hidx, hmap, _, hint, hheap, hnotes⟩ :=
    consume_single s (publish m.connRingBuffer (m.sequence + 1) sys.alloc)
      (l.setConn sys.alloc { conn.zero with fd := nfd, sa := sa, lnidx := i })
      (m.sequence + 1) sys.alloc fuel hslot hfuel (by omega) hseq2 (by simpa using hown)
  have hheap2 : l2.heap = Function.update l.heap sys.alloc (acceptedConn nfd sa i l.idx) := by
    rw [hheap]
    funext r
    by_cases hr : r = sys.alloc
    · subst hr; simp [loop.setConn, acceptedConn]
    · simp [loop.setConn, hr]
  have hnotes2 : l2.poll.notes =
      l.poll.notes ++ [Note.signal { fd := nfd, c := some sys.alloc }] := by
    rw [hnotes]; simp [loop.setConn]
  refine ⟨
    { mainLoop :=
        ((m.mainLoop.emit (Ev.Accept fd)).emit (Ev.SetNonblock nfd true)).setConn sys.alloc
          { conn.zero with fd := nfd, sa := sa, lnidx := i },
      connRingBuffer := publish m.connRingBuffer (m.sequence + 1) sys.alloc,
      sequence := m.sequence + 1 },
    l2,
    { l2 with fdconns := Function.update l2.fdconns nfd (some sys.alloc),
              poll := l2.poll.AddReadWrite nfd },
    ?_, ?_, rfl, rfl, ?_, hnotes2, rfl, ?_, ?_, ?_, ?_, ?_, ?_, ?_, ?_, ?_, ?_, ?_, ?_⟩
  · simp only [activateMainReactor, if_neg hfd]; exact hm
  · simp [loop.setConn]
  · simpa [loop.setConn] using hl2
  · simp [loopAccept, hd]
  · simp [loopAccept, hd, hidx, loop.setConn]
  · simp [loopAccept, hd, hmap, loop.setConn]
  · simp [loopAccept, hd, hheap2]
  · simp [loopAccept, hd, hint, Poll.AddReadWrite, loop.setConn]
  · simp [hidx, loop.setConn]
  · simp
  · simp [hheap2, acceptedConn, conn.zero, ringbuffer.New]
  · intro k hk; simp [hmap, loop.setConn, hk]
  · intro r hr; simp [hheap2, hr]
  · simp [Poll.AddReadWrite]
  · intro k hk; simp [Poll.AddReadWrite, hint, loop.setConn, hk]

theorem consume_other (s : server) (ring : Nat → Option Nat) (l : loop) (S : Int) (c : Nat)
    (fuel : Nat) (hc : ring (ringSlot S) = some c) (hfuel : 1 < fuel)
    (h0 : 0 ≤ S) (h1 : S < 2 ^ 63 - 1)
    (hN : 1 < s.numLoops) (hown : S % s.numLoops ≠ l.idx) :
    ∃ l2, eventConsumer.Consume { s := s, l := l } ring fuel S S = Consumed.done l2 ∧
      l2.heap = Function.update l.heap c
        { l.heap c with inBuf := ringbuffer.New RingBufferSize,
                        outBuf := ringbuffer.New RingBufferSize, loop := some l.idx } ∧
      l2.poll.notes = l.poll.notes := by
  obtain ⟨l2, hl2, _, _, _, _, hheap, hnotes⟩ := consumeOne_eq s ring l S c hc
  have ho : ¬ owns s l S := by rwa [owns_iff_mod s l S hN h0]
  rw [if_neg ho, List.append_nil] at hnotes
  refine ⟨l2, ?_, hheap, hnotes⟩
  obtain ⟨f, rfl⟩ : ∃ f, fuel = f + 2 := ⟨fuel - 2, by omega⟩
  have hw : wrap64 (S + 1) = S + 1 := wrap64_eq _ (by omega) (by omega)
  simp [eventConsumer.Consume, consumeLoop, hl2, hw]

/-- C18 (the code departs from the claim). With more than one loop, let
`accept` on the TCP listener of index `i` deliver descriptor `nfd` with peer
address `sa`, and let `SetNonblock` succeed.  The main reactor returns nil
and publishes the connection at the next sequence, which loop `l` owns.  The
consumer of `l` returns from `Consume` having set the loop pointer to `l`
and Triggered `signal{nfd, conn}`.  The consumer of another loop `k`, which
is handed the same sequence, also returns from `Consume`: it Triggers
nothing, but it has set the loop pointer of the connection to `k`.  When
loop `l` then processes the note, `loopNote` returns nil and the map of `l`
holds under `nfd` a connection whose loop pointer is `k`, whereas the
connection that `loopAccept` on `l` installs under `nfd` has loop pointer
`l`. -/
theorem handoff_loop_overwritten (s : server) (m : mainReactor) (l k : loop) (fd nfd : Int)
    (sa : Option Sockaddr) (note : Note) (sys sys2 : Sys) (i : Nat) (ln : listener)
    (fuel : Nat)
    (hfd : fd ≠ 0) (hln : lnIndex fd s.lns 0 = some (i, ln)) (htcp : ln.pconn = false)
    (hacc : sys.accept = AcceptRes.ok nfd sa) (hnb : sys.setNonblock = none)
    (hseq : -1 ≤ m.sequence) (hseq2 : m.sequence + 1 < 2 ^ 63 - 1) (hfuel : 1 < fuel)
    (hN : 1 < s.numLoops) (hown : (m.sequence + 1) % s.numLoops = l.idx)
    (hne : k.idx ≠ l.idx) :
    ∃ m1 l2 k2 l3,
      activateMainReactor s m fd note sys = MainOutcome.ret none m1 ∧
      eventConsumer.Consume { s := s, l := l.sees sys.alloc m1.mainLoop }
        m1.connRingBuffer fuel m1.sequence m1.sequence = Consumed.done l2 ∧
      l2.poll.notes = l.poll.notes ++ [Note.signal { fd := nfd, c := some sys.alloc }] ∧
      (l2.heap sys.alloc).loop = some l.idx ∧
      eventConsumer.Consume { s := s, l := k.sees sys.alloc l2 }
        m1.connRingBuffer fuel m1.sequence m1.sequence = Consumed.done k2 ∧
      k2.poll.notes = k.poll.notes ∧
      (k2.heap sys.alloc).loop = some k.idx ∧
      loopNote s (l2.sees sys.alloc k2) (Note.signal { fd := nfd, c := some sys.alloc }) sys2 =
        Outcome.ret none l3 ∧
      l3.fdconns nfd = some sys.alloc ∧
      (l3.heap sys.alloc).fd = nfd ∧
      (l3.heap sys.alloc).loop = some k.idx ∧
      (loopAccept s l fd sys).1 = none ∧
      (loopAccept s l fd sys).2.fdconns nfd = some sys.alloc ∧
      ((loopAccept s l fd sys).2.heap sys.alloc).loop = some l.idx ∧
      (l3.heap sys.alloc).loop ≠ ((loopAccept s l fd sys).2.heap sys.alloc).loop ∧
      l3.heap ≠ (loopAccept s l fd sys).2.heap := by
  have hm := mainAcceptFrom_ok s m fd sys nfd sa hacc hnb s.lns 0 i ln hln htcp
  have hd := loopAcceptFrom_ok s l fd sys nfd sa hacc hnb s.lns 0 i ln hln htcp
  have hslot : publish m.connRingBuffer (m.sequence + 1) sys.alloc (ringSlot (m.sequence + 1)) =
      some sys.alloc := by simp [publish]
  obtain ⟨l2, hl2, _, _, _, _, hheap, hnotes⟩ :=
    consume_single s (publish m.connRingBuffer (m.sequence + 1) sys.alloc)
      (l.setConn sys.alloc { conn.zero with fd := nfd, sa := sa, lnidx := i })
      (m.sequence + 1) sys.alloc fuel hslot hfuel (by omega) hseq2
      (Or.inr (by simpa using hown))
  obtain ⟨k2, hk2, hkheap, hknotes⟩ :=
    consume_other s (publish m.connRingBuffer (m.sequence + 1) sys.alloc)
      (k.sees sys.alloc l2) (m.sequence + 1) sys.alloc fuel hslot hfuel (by omega) hseq2 hN
      (by
        simp only [loop.sees, setConn_idx]
        rw [hown]
        exact fun h => hne h.symm)
  have hl2loop : (l2.heap sys.alloc).loop = some l.idx := by
    rw [hheap]; simp [loop.setConn]
  have hl2fd : (l2.heap sys.alloc).fd = nfd := by
    rw [hheap]; simp [loop.setConn]
  have hk2loop : (k2.heap sys.alloc).loop = some k.idx := by
    rw [hkheap]; simp [loop.sees, loop.setConn]
  have hk2fd : (k2.heap sys.alloc).fd = nfd := by
    rw [hkheap]; simp [loop.sees, loop.setConn, hl2fd]
  have hdl : ((loopAccept s l fd sys).2.heap sys.alloc).loop = some l.idx := by
    simp [loopAccept, hd, acceptedConn]
  have hdiff : (k2.heap sys.alloc).loop ≠ ((loopAccept s l fd sys).2.heap sys.alloc).loop := by
    rw [hk2loop, hdl]
    exact fun h => hne (Option.some.inj h)
  refine ⟨
    { mainLoop :=
        ((m.mainLoop.emit (Ev.Accept fd)).emit (Ev.SetNonblock nfd true)).setConn sys.alloc
          { conn.zero with fd := nfd, sa := sa, lnidx := i },
      connRingBuffer := publish m.connRingBuffer (m.sequence + 1) sys.alloc,
      sequence := m.sequence + 1 },
    l2, k2,
    { l2.sees sys.alloc k2 with
      fdconns := Function.update (l2.sees sys.alloc k2).fdconns nfd (some sys.alloc),
      poll := (l2.sees sys.alloc k2).poll.AddReadWrite nfd },
    ?_, ?_, ?_, hl2loop, hk2, ?_, hk2loop, rfl, ?_, ?_, ?_, ?_, ?_, hdl, ?_, ?_⟩
  · simp only [activateMainReactor, if_neg hfd]; exact hm
  · simpa [loop.sees, loop.setConn] using hl2
  · rw [hnotes]; simp [loop.setConn]
  · rw [hknotes]; simp [loop.sees, loop.setConn]
  · simp
  · simpa [loop.sees, loop.setConn] using hk2fd
  · simpa [loop.sees, loop.setConn] using hk2loop
  · simp [loopAccept, hd]
  · simp [loopAccept, hd]
  · simpa [loop.sees, loop.setConn] using hdiff
  · intro h
    apply hdiff
    have := congrFun h sys.alloc
    simp only [loop.sees, loop.setConn, Function.update_same] at this
    rw [this]

/-- C18 on a server with two loops: the first accepted descriptor, 7, gets
sequence 0, which loop 0 owns.  After the consumers of loop 0 and of loop 1
have both run `Consume(0, 0)`, in that order, loop 0 installs under 7 a
connection whose loop pointer is loop 1; `loopAccept` on loop 0 leaves it at
loop 0. -/
theorem handoff_loop_overwritten_witness :
    lnIndex 3 exServerTwo.lns 0 =
      some (0, { fd := 3, pconn := false, tcp := true, lnaddr := none }) ∧
    exSysAccept.accept = AcceptRes.ok 7 (some (Sockaddr.Inet4 9000 10 0 0 1)) ∧
    (exMain.sequence + 1) % exServerTwo.numLoops = (exLoop 0 conn.zero).idx ∧
    ((loopAccept exServerTwo (exLoop 0 conn.zero) 3 exSysAccept).2.heap 1).loop = some 0 ∧
    ∃ l3 : loop, l3.fdconns 7 = some 1 ∧ (l3.heap 1).fd = 7 ∧ (l3.heap 1).loop = some 1 := by
  obtain ⟨_, _, _, l3, h⟩ :=
    handoff_loop_overwritten exServerTwo exMain (exLoop 0 conn.zero) (exLoop 1 conn.zero) 3 7
      (some (Sockaddr.Inet4 9000 10 0 0 1)) Note.nil exSysAccept exSys 0
      { fd := 3, pconn := false, tcp := true, lnaddr := none } 2
      (by decide) rfl rfl rfl rfl (by decide) (by decide) (by decide) (by decide) (by decide)
      (by decide)
  exact ⟨rfl, rfl, by decide, h.2.2.2.2.2.2.2.2.2.2.2.2.2.1, l3, h.2.2.2.2.2.2.2.2.1,
    h.2.2.2.2.2.2.2.2.2.1, h.2.2.2.2.2.2.2.2.2.2.1⟩

end Gnet
